import Mathlib

/-!
Verification of the Connect 4 game solver (bitboard position, negamax
solver with transposition table, opening book).

The development shallowly embeds the C++ sources:
  - `Position.hpp`   : bitboard position (current_position / mask / moves),
    threat arithmetic (`compute_winning_position`), keys (`key`, `key3`);
  - `position.hpp`   : the `alignment` test (four-in-a-row detector);
  - `TranspositionTable.hpp` : `next_prime` sizing, truncated-key table;
  - `MoveSorter.hpp`  : insertion-sorted move container;
  - `Solver.cpp`      : `negamax`, `solve`, column exploration order;
  - `OpeningBook.hpp` : binary book loading and lookup.

Bitboards are modelled as `Nat`.  The board is 7 wide and 6 high; each
column occupies HEIGHT+1 = 7 bits (6 cells plus one sentinel bit), so all
board bitboards are < 2^49 and all C++ `uint64_t` arithmetic used on them
(shifts, and/or/xor, additions of disjoint or per-column-bounded values)
is exact on `Nat`: left shifts in `compute_winning_position` may discard
bits above 2^64 in C++, but every discarded bit is ANDed away by the final
`board_mask ^ mask` (< 2^64) before it can influence the result, so the
plain-`Nat` transcription agrees with the 64-bit original on every input
below 2^64.  Where genuine wraparound is reachable (`key3`
accumulation) the model reduces modulo 2^64 exactly as the hardware does.
C++ `int` arithmetic is modelled with `Int` and truncating division
`Int.tdiv`; conversion to `uint8_t` is `Int.emod _ 256`.
-/

/-! ## Board constants (Position.hpp) -/

def WIDTH : Nat := 7

def HEIGHT : Nat := 6

def MIN_SCORE : Int := -(WIDTH * HEIGHT : Int) / 2 + 3

def MAX_SCORE : Int := ((WIDTH * HEIGHT : Int) + 1) / 2 - 3

/-- Template recursion `bottom<width, height>`: one bit at the bottom cell of
each of the first `w` columns. -/
def bottomRec : Nat → Nat
  | 0 => 0
  | w + 1 => bottomRec w ||| (1 <<< (w * (HEIGHT + 1)))

def bottom_mask : Nat := bottomRec WIDTH

def board_mask : Nat := bottom_mask * ((1 <<< HEIGHT) - 1)

/-- Single 1 on the top cell (row HEIGHT-1) of column `col`. -/
def top_mask_col (col : Nat) : Nat := 1 <<< ((HEIGHT - 1) + col * (HEIGHT + 1))

/-- Single 1 on the bottom cell (row 0) of column `col`. -/
def bottom_mask_col (col : Nat) : Nat := 1 <<< (col * (HEIGHT + 1))

/-- All HEIGHT cells of column `col`. -/
def column_mask (col : Nat) : Nat := ((1 <<< HEIGHT) - 1) <<< (col * (HEIGHT + 1))

/-! ## The Position data type -/

/-- A Connect 4 position: bitboard of the stones of the side to move,
bitboard of all stones, and the number of plies played. -/
structure Position where
  current_position : Nat
  mask : Nat
  moves : Nat
deriving DecidableEq, Repr

/-- The default constructor: empty position. -/
def Position.empty : Position := ⟨0, 0, 0⟩

/-- Plays a possible move given by its bitmap representation (one set bit). -/
def Position.play (P : Position) (move : Nat) : Position :=
  { current_position := P.current_position ^^^ P.mask
    mask := P.mask ||| move
    moves := P.moves + 1 }

def Position.nbMoves (P : Position) : Nat := P.moves

/-- Compact representation of the position on WIDTH*(HEIGHT+1) bits. -/
def Position.key (P : Position) : Nat := P.current_position + P.mask

/-- All empty playable cells completing a four-in-a-row for the bitboard
`position`, given the bitboard `mask` of all played cells
(`compute_winning_position` in Position.hpp). -/
def compute_winning_position (position mask : Nat) : Nat :=
  -- vertical
  let r0 := (position <<< 1) &&& (position <<< 2) &&& (position <<< 3)
  -- horizontal
  let p1 := (position <<< (HEIGHT + 1)) &&& (position <<< (2 * (HEIGHT + 1)))
  let r1 := r0 ||| (p1 &&& (position <<< (3 * (HEIGHT + 1))))
  let r2 := r1 ||| (p1 &&& (position >>> (HEIGHT + 1)))
  let p2 := (position >>> (HEIGHT + 1)) &&& (position >>> (2 * (HEIGHT + 1)))
  let r3 := r2 ||| (p2 &&& (position <<< (HEIGHT + 1)))
  let r4 := r3 ||| (p2 &&& (position >>> (3 * (HEIGHT + 1))))
  -- diagonal 1
  let p3 := (position <<< HEIGHT) &&& (position <<< (2 * HEIGHT))
  let r5 := r4 ||| (p3 &&& (position <<< (3 * HEIGHT)))
  let r6 := r5 ||| (p3 &&& (position >>> HEIGHT))
  let p4 := (position >>> HEIGHT) &&& (position >>> (2 * HEIGHT))
  let r7 := r6 ||| (p4 &&& (position <<< HEIGHT))
  let r8 := r7 ||| (p4 &&& (position >>> (3 * HEIGHT)))
  -- diagonal 2
  let p5 := (position <<< (HEIGHT + 2)) &&& (position <<< (2 * (HEIGHT + 2)))
  let r9 := r8 ||| (p5 &&& (position <<< (3 * (HEIGHT + 2))))
  let r10 := r9 ||| (p5 &&& (position >>> (HEIGHT + 2)))
  let p6 := (position >>> (HEIGHT + 2)) &&& (position >>> (2 * (HEIGHT + 2)))
  let r11 := r10 ||| (p6 &&& (position <<< (HEIGHT + 2)))
  let r12 := r11 ||| (p6 &&& (position >>> (3 * (HEIGHT + 2))))
  r12 &&& (board_mask ^^^ mask)

/-- Possible winning cells for the current player. -/
def Position.winning_position (P : Position) : Nat :=
  compute_winning_position P.current_position P.mask

/-- Possible winning cells for the opponent. -/
def Position.opponent_winning_position (P : Position) : Nat :=
  compute_winning_position (P.current_position ^^^ P.mask) P.mask

/-- Bitmap of the next possible valid moves (lowest empty cell of each
non-full column). -/
def Position.possible (P : Position) : Nat :=
  (P.mask + bottom_mask) &&& board_mask

/-- True if the current player can win with their next move. -/
def Position.canWinNext (P : Position) : Bool :=
  P.winning_position &&& P.possible ≠ 0

/-- Whether column `col` is playable. -/
def Position.canPlay (P : Position) (col : Nat) : Bool :=
  P.mask &&& top_mask_col col = 0

/-- Plays a playable column (lowest empty cell of the column). -/
def Position.playCol (P : Position) (col : Nat) : Position :=
  P.play ((P.mask + bottom_mask_col col) &&& column_mask col)

/-- Whether the current player wins by playing column `col`. -/
def Position.isWinningMove (P : Position) (col : Nat) : Bool :=
  P.winning_position &&& P.possible &&& column_mask col ≠ 0

/-- Bitwise complement on 64 bits (`~` on `uint64_t`). -/
def compl64 (x : Nat) : Nat := x ^^^ (2 ^ 64 - 1)

/-- Possible moves that do not let the opponent win immediately
(`possibleNonLosingMoves` in Position.hpp; precondition `!canWinNext`). -/
def Position.possibleNonLosingMoves (P : Position) : Nat :=
  let possible_mask := P.possible
  let opponent_win := P.opponent_winning_position
  let forced_moves := possible_mask &&& opponent_win
  if forced_moves ≠ 0 then
    if forced_moves &&& (forced_moves - 1) ≠ 0 then 0
    else forced_moves &&& compl64 (opponent_win >>> 1)
  else possible_mask &&& compl64 (opponent_win >>> 1)

/-- Number of set bits of a 64-bit word (the `popcount` bit-clearing loop of
Position.hpp, modelled by its result: the number of set bits below 64). -/
def popcount (m : Nat) : Nat :=
  ((Finset.range 64).filter (fun i => m.testBit i)).card

/-- Heuristic score of a move: number of winning spots created. -/
def Position.moveScore (P : Position) (move : Nat) : Nat :=
  popcount (compute_winning_position (P.current_position ||| move) P.mask)

/-- Four-in-a-row detector (`alignment` in position.hpp): true iff the
bitboard `pos` contains four aligned stones. -/
def alignment (pos : Nat) : Bool :=
  -- horizontal
  let m1 := pos &&& (pos >>> (HEIGHT + 1))
  if m1 &&& (m1 >>> (2 * (HEIGHT + 1))) ≠ 0 then true
  else
    -- diagonal 1
    let m2 := pos &&& (pos >>> HEIGHT)
    if m2 &&& (m2 >>> (2 * HEIGHT)) ≠ 0 then true
    else
      -- diagonal 2
      let m3 := pos &&& (pos >>> (HEIGHT + 2))
      if m3 &&& (m3 >>> (2 * (HEIGHT + 2))) ≠ 0 then true
      else
        -- vertical
        let m4 := pos &&& (pos >>> 1)
        m4 &&& (m4 >>> 2) ≠ 0

/-- Plays a sequence of 1-based column digits, stopping at the first invalid
move; returns the resulting position and the number of moves consumed
(the `play(std::string)` overload). -/
def Position.playSeq (P : Position) : List Char → Position × Nat
  | [] => (P, 0)
  | ch :: rest =>
    let col : Int := (ch.toNat : Int) - ('1'.toNat : Int)
    if col < 0 ∨ WIDTH ≤ col ∨ ¬ P.canPlay col.toNat ∨ P.isWinningMove col.toNat then
      (P, 0)
    else
      let (Q, n) := (P.playCol col.toNat).playSeq rest
      (Q, n + 1)

/-! ## Base-3 symmetric key (`key3`) -/

/-- Modulus of 64-bit wraparound. -/
def M64 : Nat := 2 ^ 64

/-- One step of the `partialKey3` column walk: while the cell `pos` is
occupied, append digit 1 (current player) or 2 (opponent) in base 3, with
64-bit wraparound; the fuel bounds the walk exactly as the 64-bit `pos`
shifting to 0 does in C++. -/
def partialKey3Loop (cur mask : Nat) : Nat → Nat → Nat → Nat
  | 0, _, key => key
  | fuel + 1, pos, key =>
    if pos &&& mask ≠ 0 then
      partialKey3Loop cur mask fuel ((pos <<< 1) % M64)
        ((key * 3 + (if pos &&& cur ≠ 0 then 1 else 2)) % M64)
    else key

/-- Partial base-3 key contribution of column `col` (`partialKey3`):
walk the column bottom-up, then append the terminating 0 digit. -/
def Position.partialKey3 (P : Position) (key : Nat) (col : Nat) : Nat :=
  (partialKey3Loop P.current_position P.mask 64
      ((1 <<< (col * (HEIGHT + 1))) % M64) key) * 3 % M64

/-- Symmetric base-3 key: minimum of the forward and backward column scans,
divided by 3 (the final digit is always 0). -/
def Position.key3 (P : Position) : Nat :=
  let key_forward := (List.range WIDTH).foldl P.partialKey3 0
  let key_reverse := (List.range WIDTH).reverse.foldl P.partialKey3 0
  if key_forward < key_reverse then key_forward / 3 else key_reverse / 3

/-! ## Column digit view and legality -/

/-- The 7-bit digit of column `c` in bitboard `b` (its HEIGHT+1 column bits). -/
def colDigit (b : Nat) (c : Nat) : Nat :=
  (b >>> (c * (HEIGHT + 1))) % 2 ^ (HEIGHT + 1)

/-- Sentinel row: the bit above the top cell of each column. -/
def sentinel_mask : Nat := bottom_mask <<< HEIGHT

/-- Data-model invariants of a position's bitboards: the board fits in
WIDTH columns, the current player's stones are a subset of all stones, and
every column is gravity-stacked: its digit is `2^h - 1` for some height
`h ≤ HEIGHT` (in particular no sentinel bit is set). -/
def Legal (P : Position) : Prop :=
  P.mask < 2 ^ (WIDTH * (HEIGHT + 1)) ∧
  P.current_position &&& P.mask = P.current_position ∧
  ∀ c < WIDTH, ∃ h < HEIGHT + 1, colDigit P.mask c = 2 ^ h - 1

/-- Full data-model invariant: `Legal` plus the move counter agreeing with
the stone count. -/
def LegalFull (P : Position) : Prop := Legal P ∧ popcount P.mask = P.moves

/-- Neither side already has a four-in-a-row alignment. -/
def noAlign (P : Position) : Prop :=
  alignment P.current_position = false ∧
  alignment (P.current_position ^^^ P.mask) = false

/-- The opponent of the side to move could win immediately if it were their
turn (their winning spots intersect the playable cells). -/
def Position.oppCanWinNext (P : Position) : Bool :=
  P.opponent_winning_position &&& P.possible ≠ 0

/-- Positions reachable from the empty position by `playCol` on playable,
non-winning columns, as enforced by the string overload of `play`. -/
inductive Reachable : Position → Prop
  | base : Reachable Position.empty
  | step (P : Position) (col : Nat) : Reachable P → col < WIDTH →
      P.canPlay col = true → P.isWinningMove col = false →
      Reachable (P.playCol col)

/-! ## Horizontal mirror -/

/-- Horizontal reflection of a bitboard: column `c` of the result is
column `WIDTH-1-c` of the input. -/
def mirrorBB (b : Nat) : Nat :=
  (List.range WIDTH).foldl
    (fun acc c => acc ||| (colDigit b (WIDTH - 1 - c) <<< (c * (HEIGHT + 1)))) 0

/-- Horizontal mirror image of a position: same stones and side to move,
columns reversed. -/
def Position.mirror (P : Position) : Position :=
  ⟨mirrorBB P.current_position, mirrorBB P.mask, P.moves⟩

/-! ## Compile-time prime sizing (TranspositionTable.hpp) -/

def med (mn mx : Nat) : Nat := (mn + mx) / 2

/-- Whether `n` has a divisor `d` with `mn ≤ d < mx` (and `d*d ≤ n`),
by dichotomy as in the C++ constexpr `has_factor`; the fuel bounds the
recursion depth (64 is ample for any interval below `2^64`). -/
def has_factor : Nat → Nat → Nat → Nat → Bool
  | fuel, n, mn, mx =>
    if n < mn * mn then false
    else if mx ≤ mn + 1 then decide (n % mn = 0)
    else
      match fuel with
      | 0 => false
      | fuel + 1 => has_factor fuel n mn (med mn mx) || has_factor fuel n (med mn mx) mx

/-- Smallest prime `≥ n` (fueled model of the C++ constexpr `next_prime`). -/
def next_prime : Nat → Nat → Nat
  | 0, n => n
  | fuel + 1, n => if has_factor 64 n 2 n then next_prime fuel (n + 1) else n

/-! ## Transposition table (TranspositionTable.hpp, Solver.hpp) -/

/-- Log2 of the solver's transposition table capacity (`TABLE_SIZE`). -/
def TABLE_SIZE : Nat := 24

/-- Capacity of the solver's transposition table: the smallest prime at or
above `2^TABLE_SIZE` (see `ttSize_eq_next_prime`). -/
def ttSize : Nat := 16777259

/-- Width in bits of the stored partial keys: the solver instantiates
`uint_t<WIDTH*(HEIGHT+1) - TABLE_SIZE>` = `uint_t<25>`, i.e. `uint32_t`. -/
def PARTIAL_KEY_BITS : Nat := 32

/-- The table: each slot holds a (truncated key, value) pair; slots start
zeroed.  Value 0 encodes "absent". -/
def TTable : Type := Nat → Nat × Nat

def ttReset : TTable := fun _ => (0, 0)

/-- Store a value: one-slot replace at `key mod size`, key truncated to the
partial key type, value truncated to `uint8_t`. -/
def ttPut (T : TTable) (key : Nat) (v : Int) : TTable :=
  fun i =>
    if i = key % ttSize then (key % 2 ^ PARTIAL_KEY_BITS, (v.emod 256).toNat)
    else T i

/-- Read a value: 0 unless the stored partial key matches. -/
def ttGet (T : TTable) (key : Nat) : Nat :=
  if (T (key % ttSize)).1 = key % 2 ^ PARTIAL_KEY_BITS then (T (key % ttSize)).2
  else 0

/-- Run a list of `put` operations on the freshly reset table. -/
def runPuts (ops : List (Nat × Int)) : TTable :=
  ops.foldl (fun T p => ttPut T p.1 p.2) ttReset

/-- Value of the most recent `put` under exactly the key `k`. -/
def lastPutValue (ops : List (Nat × Int)) (k : Nat) : Option Int :=
  ((ops.filter (fun p => p.1 = k)).map Prod.snd).getLast?

/-! ## Score encodings (Solver.cpp) -/

/-- Upper-bound encoding stored in the transposition table. -/
def encodeUpper (v : Int) : Int := v - MIN_SCORE + 1

/-- Lower-bound encoding stored in the transposition table. -/
def encodeLower (v : Int) : Int := v + MAX_SCORE - 2 * MIN_SCORE + 2

/-- Decoding of a stored upper bound (also used for opening book values). -/
def decodeUpper (val : Int) : Int := val + MIN_SCORE - 1

/-- Decoding of a stored lower bound. -/
def decodeLower (val : Int) : Int := val + 2 * MIN_SCORE - MAX_SCORE - 2

/-! ## Move ordering (MoveSorter.hpp, Solver.cpp) -/

/-- Column exploration order: center first, spiralling outward
(`columnOrder[i] = WIDTH/2 + (1 - 2*(i%2)) * (i+1) / 2` with C++ integer
truncation). -/
def columnOrder (i : Nat) : Nat :=
  (((WIDTH : Int)).tdiv 2 + ((1 - 2 * ((i : Int) % 2)) * ((i : Int) + 1)).tdiv 2).toNat

/-- Insertion into the sorter: the C++ `add` shifts entries whose score is
strictly greater, so the new entry lands after all entries of score `≤ score`
(the list is kept in ascending score order). -/
def msAdd : List (Nat × Int) → Nat → Int → List (Nat × Int)
  | [], move, score => [(move, score)]
  | e :: rest, move, score =>
    if score < e.2 then (move, score) :: e :: rest
    else e :: msAdd rest move score

/-- Build the sorted move list: iterate `columnOrder` from the last index
down, adding each nonzero `possible & column_mask` with its heuristic score
(`getNext` pops from the back, so the search drains the reversed list). -/
def buildMoves (P : Position) (poss : Nat) : List (Nat × Int) :=
  (List.range WIDTH).reverse.foldl
    (fun entries i =>
      let move := poss &&& column_mask (columnOrder i)
      if move ≠ 0 then msAdd entries move (P.moveScore move : Int) else entries)
    []

/-! ## Negamax and solve (Solver.cpp) -/

/-- The move loop of `negamax`: explore the sorted moves in decreasing
score order within the window, with beta cutoff and transposition-table
stores.  `rec` is the recursive search at one less fuel. -/
def moveLoop (rec : Position → Int → Int → TTable → Int × TTable)
    (key : Nat) (P : Position) (beta : Int) :
    List (Nat × Int) → Int → TTable → Int × TTable
  | [], alpha, T => (alpha, ttPut T key (encodeUpper alpha))
  | (move, _) :: rest, alpha, T =>
    let res := rec (P.play move) (-beta) (-alpha) T
    let score := -res.1
    if beta ≤ score then (score, ttPut res.2 key (encodeLower score))
    else moveLoop rec key P beta rest (if alpha < score then score else alpha) res.2

/-- The tail of `Solver::negamax` (the `after` closure): the opening-book
lookup, then the sorted move loop. -/
def negamaxAfter (book : Position → Int)
    (rec : Position → Int → Int → TTable → Int × TTable)
    (P : Position) (T : TTable) (alphaQ betaQ : Int) : Int × TTable :=
  if book P ≠ 0 then (decodeUpper (book P), T)
  else moveLoop rec P.key P betaQ
    ((buildMoves P P.possibleNonLosingMoves).reverse) alphaQ T

/-- The transposition-table consultation step of `Solver::negamax`: narrow
or cut with a stored bound, then fall through to `negamaxAfter`. -/
def negamaxTT (book : Position → Int)
    (rec : Position → Int → Int → TTable → Int × TTable)
    (P : Position) (alpha1 beta1 : Int) (T : TTable) : Int × TTable :=
  let val : Int := (ttGet T P.key : Nat)
  if val ≠ 0 then
    if MAX_SCORE - MIN_SCORE + 1 < val then
      -- stored lower bound
      let min2 := decodeLower val
      if alpha1 < min2 ∧ beta1 ≤ min2 then (min2, T)
      else negamaxAfter book rec P T (if alpha1 < min2 then min2 else alpha1) beta1
    else
      -- stored upper bound
      let max2 := decodeUpper val
      if max2 < beta1 ∧ max2 ≤ alpha1 then (max2, T)
      else negamaxAfter book rec P T alpha1 (if max2 < beta1 then max2 else beta1)
  else negamaxAfter book rec P T alpha1 beta1

/-- One step of `Solver::negamax` (alpha-beta pruning, anti-zugzwang move
filtering, transposition table and opening book), with the recursive search
abstracted as `rec`. -/
def negamaxBody (book : Position → Int)
    (rec : Position → Int → Int → TTable → Int × TTable)
    (P : Position) (alpha beta : Int) (T : TTable) : Int × TTable :=
    let possible := P.possibleNonLosingMoves
    if possible = 0 then
      -- no non-losing move: the opponent wins next move
      ((-((WIDTH * HEIGHT : Nat) - (P.nbMoves : Int))).tdiv 2, T)
    else if WIDTH * HEIGHT - 2 ≤ P.nbMoves then
      -- draw
      ((0 : Int), T)
    else
      -- lower bound: the opponent cannot win next move
      let min1 := (-((WIDTH * HEIGHT : Nat) - 2 - (P.nbMoves : Int))).tdiv 2
      if alpha < min1 ∧ beta ≤ min1 then (min1, T)
      else
        let alpha1 := if alpha < min1 then min1 else alpha
        -- upper bound: we cannot win immediately
        let max1 := ((WIDTH * HEIGHT : Nat) - 1 - (P.nbMoves : Int)).tdiv 2
        if max1 < beta ∧ max1 ≤ alpha1 then (max1, T)
        else
          let beta1 := if max1 < beta then max1 else beta
          negamaxTT book rec P alpha1 beta1 T

/-- Negamax (`Solver::negamax`): the recursion shell over `negamaxBody`.
The fuel only bounds the recursion depth, which the move counter bounds by
`WIDTH*HEIGHT` in any reachable call. -/
def negamaxF (book : Position → Int) : Nat → Position → Int → Int → TTable → Int × TTable
  | 0, _, _, _, T => (0, T)
  | fuel + 1, P, alpha, beta, T => negamaxBody book (negamaxF book fuel) P alpha beta T

/-- The iterative null-window narrowing loop of `Solver::solve`; the fuel
bounds the number of iterations (each shrinks `max - min`). -/
def solveLoop (book : Position → Int) (P : Position) :
    Nat → Int → Int → TTable → Int
  | 0, mn, _, _ => mn
  | fuel + 1, mn, mx, T =>
    if mn < mx then
      let med0 := mn + (mx - mn).tdiv 2
      let med1 :=
        if med0 ≤ 0 ∧ mn.tdiv 2 < med0 then mn.tdiv 2
        else if 0 ≤ med0 ∧ med0 < mx.tdiv 2 then mx.tdiv 2
        else med0
      let res := negamaxF book 64 P med1 (med1 + 1) T
      if res.1 ≤ med1 then solveLoop book P fuel mn res.1 res.2
      else solveLoop book P fuel res.1 mx res.2
    else mn

/-- `Solver::solve` on a freshly constructed solver (empty transposition
table); `book` is the opening book lookup (`fun _ => 0` models the default
book, whose failure sentinel depth `-1` makes every lookup miss). -/
def Solver.solve (book : Position → Int) (P : Position) (weak : Bool) : Int :=
  if P.canWinNext then ((WIDTH * HEIGHT : Nat) + 1 - (P.nbMoves : Int)).tdiv 2
  else
    let mn := if weak then -1 else (-((WIDTH * HEIGHT : Nat) - (P.nbMoves : Int))).tdiv 2
    let mx := if weak then 1 else ((WIDTH * HEIGHT : Nat) + 1 - (P.nbMoves : Int)).tdiv 2
    solveLoop book P 64 mn mx ttReset

/-! ## Opening book (OpeningBook.hpp) -/

/-- A C++ `char` read from a byte: two's-complement signed value. -/
def toSigned (b : Nat) : Int := if b < 128 then (b : Int) else (b : Int) - 256

/-- Little-endian value of a byte list. -/
def bytesLE (l : List Nat) : Nat := l.foldr (fun b acc => b + 256 * acc) 0

/-- Split a byte stream into `k` little-endian words of `w` bytes each. -/
def chunkWords (w : Nat) : Nat → List Nat → List Nat
  | 0, _ => []
  | k + 1, l => bytesLE (l.take w) :: chunkWords w k (l.drop w)

/-- The loaded book table: partial keys, values, partial key byte width and
log2 of the capacity. -/
structure BookTable where
  keys : List Nat
  values : List Nat
  partial_key_bytes : Nat
  log_size : Nat

/-- Lookup in a loaded book table (same truncated-key scheme as the
transposition table, with capacity `next_prime (2^log_size)`). -/
def BookTable.get (bt : BookTable) (key : Nat) : Nat :=
  let size := next_prime 64 (1 <<< bt.log_size)
  let pos := key % size
  if bt.keys.getD pos 0 = key % 2 ^ (8 * bt.partial_key_bytes) then bt.values.getD pos 0
  else 0

/-- The opening book: board dimensions, maximum stored depth (-1 is the
failure sentinel), and the loaded table if any. -/
structure OpeningBook where
  width : Int
  height : Int
  depth : Int
  table : Option BookTable

/-- The default-constructed book: empty, `depth = -1`. -/
def OpeningBook.init (w h : Int) : OpeningBook := ⟨w, h, -1, none⟩

/-- Book lookup (`OpeningBook::get`): 0 when the position is deeper than
the stored depth, else the table lookup on `key3`. -/
def OpeningBook.get (B : OpeningBook) (P : Position) : Nat :=
  if B.depth < (P.nbMoves : Int) then 0
  else match B.table with
    | none => 0
    | some bt => bt.get P.key3

/-- Load an opening book file (`OpeningBook::load`): `none` models a missing
file; otherwise the byte list is parsed as the documented header followed by
the key and value arrays.  Every failure leaves the depth at the sentinel -1
and no table. -/
def OpeningBook.load : Int → Int → Option (List Nat) → OpeningBook
  | width, height, some (b0 :: b1 :: b2 :: b3 :: b4 :: b5 :: rest) =>
    if toSigned b0 ≠ width then ⟨width, height, -1, none⟩
    else if toSigned b1 ≠ height then ⟨width, height, -1, none⟩
    else if width * height < toSigned b2 then ⟨width, height, -1, none⟩
    else if 8 < toSigned b3 then ⟨width, height, -1, none⟩
    else if toSigned b4 ≠ 1 then ⟨width, height, -1, none⟩
    else if 40 < toSigned b5 then ⟨width, height, -1, none⟩
    else if ¬ (b3 = 1 ∨ b3 = 2 ∨ b3 = 4) then ⟨width, height, -1, none⟩
    else if ¬ (21 ≤ b5 ∧ b5 ≤ 27) then ⟨width, height, -1, none⟩
    else if rest.length < next_prime 64 (1 <<< b5) * b3 + next_prime 64 (1 <<< b5) then
      ⟨width, height, -1, none⟩
    else
      ⟨width, height, toSigned b2,
        some ⟨chunkWords b3 (next_prime 64 (1 <<< b5)) rest,
          (rest.drop (next_prime 64 (1 <<< b5) * b3)).take (next_prime 64 (1 <<< b5)),
          b3, b5⟩⟩
  | width, height, _ => ⟨width, height, -1, none⟩

/-- The failure conditions of `OpeningBook::load`, stated on the raw input:
missing file, width or height mismatch, invalid depth, invalid partial-key
byte width, value byte width other than 1, invalid or unsupported log_size,
or a byte stream too short for the declared arrays. -/
def loadFails (width height : Int) (file : Option (List Nat)) : Prop :=
  match file with
  | none => True
  | some bytes =>
    bytes.length < 6 ∨
    toSigned (bytes.getD 0 0) ≠ width ∨
    toSigned (bytes.getD 1 0) ≠ height ∨
    width * height < toSigned (bytes.getD 2 0) ∨
    8 < toSigned (bytes.getD 3 0) ∨
    toSigned (bytes.getD 4 0) ≠ 1 ∨
    40 < toSigned (bytes.getD 5 0) ∨
    ¬ (bytes.getD 3 0 = 1 ∨ bytes.getD 3 0 = 2 ∨ bytes.getD 3 0 = 4) ∨
    ¬ (21 ≤ bytes.getD 5 0 ∧ bytes.getD 5 0 ≤ 27) ∨
    bytes.length < 6 + next_prime 64 (1 <<< bytes.getD 5 0) * bytes.getD 3 0 +
      next_prime 64 (1 <<< bytes.getD 5 0)

/-! ## Range invariants used to bound the search (definitions for the
negamax range theorem) -/

/-- The trivial lower bound `-(W*H - m)/2` on any value returned for a
position with `m` moves played. -/
def scoreL (m : Nat) : Int := (-((WIDTH * HEIGHT : Nat) - (m : Int))).tdiv 2

/-- The lower bound used by negamax step 4: `-(W*H - 2 - m)/2`. -/
def minB (m : Nat) : Int := (-((WIDTH * HEIGHT : Nat) - 2 - (m : Int))).tdiv 2

/-- The upper bound used by negamax step 5: `(W*H - 1 - m)/2`. -/
def maxB (m : Nat) : Int := ((WIDTH * HEIGHT : Nat) - 1 - (m : Int)).tdiv 2

/-- The upper bound of `solve`'s initial window: `(W*H + 1 - m)/2`. -/
def scoreU (m : Nat) : Int := ((WIDTH * HEIGHT : Nat) + 1 - (m : Int)).tdiv 2

/-- Lower bound on every value `negamax` can return for a legal position
with `m` moves played: positions with at most 2 stones always have a
non-losing move, so the step-2 value is only reachable from `m ≥ 3`. -/
def retMin (m : Nat) : Int := if m ≤ 2 then minB m else scoreL m

/-- Upper bound on any beta-cutoff score at `m` moves: `-retMin (m+1)`. -/
def cutMax (m : Nat) : Int := if m ≤ 1 then 19 else maxB m

/-- A transposition table value stored for a position with `m` moves:
nonzero byte whose decoding as an upper bound (values `≤ 37`) lies in
`[minB m, maxB m - 1]` and as a lower bound (values `≥ 38`) lies in
`[minB m + 1, cutMax m]`. -/
def ValidVal (v : Nat) (m : Nat) : Prop :=
  1 ≤ v ∧ v ≤ 255 ∧
  (v ≤ 37 → minB m ≤ (v : Int) - 19 ∧ (v : Int) - 19 ≤ maxB m - 1) ∧
  (38 ≤ v → minB m + 1 ≤ (v : Int) - 56 ∧ (v : Int) - 56 ≤ cutMax m)

/-- Invariant of the transposition table threaded through the search: every
slot is absent (value 0) or records, under the slot and truncated key of a
legal position `Q`, a value valid for `Q`'s move count. -/
def TTInv (T : TTable) : Prop :=
  ∀ i : Nat, (T i).2 = 0 ∨
    ∃ Q : Position, LegalFull Q ∧ Q.key % ttSize = i ∧
      (T i).1 = Q.key % 2 ^ PARTIAL_KEY_BITS ∧ ValidVal (T i).2 Q.moves

/-- The moves negamax feeds to the sorter: a single bit on the lowest free
cell of a non-full column. -/
def IsPlayableBit (P : Position) (move : Nat) : Prop :=
  ∃ c < WIDTH, ∃ h < HEIGHT, colDigit P.mask c = 2 ^ h - 1 ∧
    move = 2 ^ (c * (HEIGHT + 1) + h)

/-- Pure form of the column walk of `partialKey3` on a column digit: emit
one base-3 digit per occupied cell from the bottom, then the terminating 0
digit, with 64-bit wraparound. -/
def partialKey3Digits (curd h key : Nat) : Nat :=
  ((List.range h).foldl
    (fun k j => (k * 3 + (if curd.testBit j then 1 else 2)) % M64) key) * 3 % M64

instance decidableLegal (P : Position) : Decidable (Legal P) := by
  unfold Legal; infer_instance

instance decidableLegalFull (P : Position) : Decidable (LegalFull P) := by
  unfold LegalFull; infer_instance

instance decidableNoAlign (P : Position) : Decidable (noAlign P) := by
  unfold noAlign; infer_instance

instance decidableLoadFails (w h : Int) (f : Option (List Nat)) :
    Decidable (loadFails w h f) := by
  unfold loadFails; cases f <;> infer_instance

instance decidableIsPlayableBit (P : Position) (m : Nat) :
    Decidable (IsPlayableBit P m) := by
  unfold IsPlayableBit; infer_instance

/-! # Theorems -/

/-- C6: for every score `v` in `[MIN_SCORE, MAX_SCORE]`, the upper-bound
encoding lies in `[1, MAX_SCORE - MIN_SCORE + 1]`, the lower-bound encoding
lies in `[MAX_SCORE - MIN_SCORE + 2, 2*(MAX_SCORE - MIN_SCORE) + 2]`, the
two ranges are disjoint (every upper encoding is below every lower
encoding), neither contains 0, and the negamax decoding expressions recover
`v` exactly. -/
theorem encoding_ranges_and_roundtrip (v : Int)
    (h1 : MIN_SCORE ≤ v) (h2 : v ≤ MAX_SCORE) :
    (1 ≤ encodeUpper v ∧ encodeUpper v ≤ MAX_SCORE - MIN_SCORE + 1) ∧
    (MAX_SCORE - MIN_SCORE + 2 ≤ encodeLower v ∧
      encodeLower v ≤ 2 * (MAX_SCORE - MIN_SCORE) + 2) ∧
    encodeUpper v < MAX_SCORE - MIN_SCORE + 2 ∧
    encodeUpper v ≠ 0 ∧ encodeLower v ≠ 0 ∧
    decodeUpper (encodeUpper v) = v ∧ decodeLower (encodeLower v) = v := by
  have hmin : MIN_SCORE = -18 := by decide
  have hmax : MAX_SCORE = 18 := by decide
  unfold encodeUpper encodeLower decodeUpper decodeLower
  rw [hmin] at h1
  rw [hmax] at h2
  rw [hmin, hmax]
  omega

theorem encoding_ranges_and_roundtrip_witness :
    (MIN_SCORE ≤ 0 ∧ (0 : Int) ≤ MAX_SCORE) ∧
    ((1 ≤ encodeUpper 0 ∧ encodeUpper 0 ≤ MAX_SCORE - MIN_SCORE + 1) ∧
      (MAX_SCORE - MIN_SCORE + 2 ≤ encodeLower 0 ∧
        encodeLower 0 ≤ 2 * (MAX_SCORE - MIN_SCORE) + 2) ∧
      encodeUpper 0 < MAX_SCORE - MIN_SCORE + 2 ∧
      encodeUpper 0 ≠ 0 ∧ encodeLower 0 ≠ 0 ∧
      decodeUpper (encodeUpper 0) = 0 ∧ decodeLower (encodeLower 0) = 0) :=
  ⟨⟨by decide, by decide⟩, encoding_ranges_and_roundtrip 0 (by decide) (by decide)⟩

/-- C10 counterexample: after consuming all seven digits of "4455454" from
the empty board, the side to move can NOT win immediately: `canWinNext()`
is false, contradicting the claim. -/
theorem seq4455454_cannot_win_next :
    (Position.empty.playSeq ['4', '4', '5', '5', '4', '5', '4']).1.canWinNext = false := by
  decide

/-- C10 amended: consuming "4455454" uses all seven digits and yields a
legal, alignment-free position with seven stones for which `canWinNext()`
is false; hence `solve` does not take its immediate-win branch and the
spec's expected value 18 = (42+1-7)/2 does not apply to this sequence. -/
theorem seq4455454_amended :
    (Position.empty.playSeq ['4', '4', '5', '5', '4', '5', '4']).2 = 7 ∧
    (Position.empty.playSeq ['4', '4', '5', '5', '4', '5', '4']).1.moves = 7 ∧
    LegalFull (Position.empty.playSeq ['4', '4', '5', '5', '4', '5', '4']).1 ∧
    noAlign (Position.empty.playSeq ['4', '4', '5', '5', '4', '5', '4']).1 ∧
    ((Position.empty.playSeq ['4', '4', '5', '5', '4', '5', '4']).1.canWinNext = false) := by
  refine ⟨by decide, by decide, by decide, by decide, by decide⟩

/-- C2: the code violates the claim: on the legal, alignment-free position
reached by "4151" (no immediate win for either side), `solve(P, true)`
returns 18 — a beta cutoff at the root returns a score far above the weak
window, and the driver loop passes it through — so weak solve does not
return a value in {-1, 0, +1}. -/
theorem weak_solve_4151_returns_18 :
    LegalFull (Position.empty.playSeq ['4', '1', '5', '1']).1 ∧
    noAlign (Position.empty.playSeq ['4', '1', '5', '1']).1 ∧
    (Position.empty.playSeq ['4', '1', '5', '1']).1.canWinNext = false ∧
    (Position.empty.playSeq ['4', '1', '5', '1']).1.oppCanWinNext = false ∧
    Solver.solve (fun _ => 0) (Position.empty.playSeq ['4', '1', '5', '1']).1 true = 18 ∧
    ¬ (Solver.solve (fun _ => 0) (Position.empty.playSeq ['4', '1', '5', '1']).1 true = -1 ∨
       Solver.solve (fun _ => 0) (Position.empty.playSeq ['4', '1', '5', '1']).1 true = 0 ∨
       Solver.solve (fun _ => 0) (Position.empty.playSeq ['4', '1', '5', '1']).1 true = 1) := by
  refine ⟨by decide, by decide, by decide, by decide, by decide, by decide⟩

/-! ## Bit-level infrastructure -/

theorem exists_testBit_of_ne_zero {x : Nat} (h : x ≠ 0) : ∃ i, x.testBit i = true := by
  by_contra hc
  push_neg at hc
  exact h (Nat.eq_of_testBit_eq fun i => by
    simp [Nat.zero_testBit, Bool.eq_false_iff.2 (hc i)])

theorem and_shiftLeft_comm (x m k : Nat) :
    x &&& (m <<< k) = ((x >>> k) &&& m) <<< k := by
  apply Nat.eq_of_testBit_eq
  intro i
  rw [Nat.testBit_and, Nat.testBit_shiftLeft, Nat.testBit_shiftLeft,
    Nat.testBit_and, Nat.testBit_shiftRight]
  rcases Nat.lt_or_ge i k with h | h
  · simp [Nat.not_le.2 h]
  · have h' : i ≥ k := h
    have hki : k + (i - k) = i := by omega
    simp [h', hki, Bool.and_comm]

theorem colDigit_eq (b c : Nat) : colDigit b c = (b >>> (c * 7)) % 2 ^ 7 := rfl

theorem colDigit_lt (b c : Nat) : colDigit b c < 128 :=
  Nat.mod_lt _ (by norm_num)

theorem colDigit_testBit (b c j : Nat) (hj : j < 7) :
    (colDigit b c).testBit j = b.testBit (c * 7 + j) := by
  rw [colDigit_eq, Nat.testBit_mod_two_pow, Nat.testBit_shiftRight]
  simp [hj]

theorem colDigit_testBit_high (b c j : Nat) (hj : 7 ≤ j) :
    (colDigit b c).testBit j = false := by
  apply Nat.testBit_lt_two_pow
  calc colDigit b c < 128 := colDigit_lt b c
    _ = 2 ^ 7 := by norm_num
    _ ≤ 2 ^ j := Nat.pow_le_pow_right (by norm_num) hj

theorem testBit_eq_colDigit (b i : Nat) :
    b.testBit i = (colDigit b (i / 7)).testBit (i % 7) := by
  rw [colDigit_testBit _ _ _ (Nat.mod_lt _ (by norm_num))]
  congr 1
  omega

theorem colDigit_succ (b c : Nat) : colDigit b (c + 1) = colDigit (b / 128) c := by
  rw [colDigit_eq, colDigit_eq]
  have : (c + 1) * 7 = 7 + c * 7 := by ring
  rw [this, Nat.shiftRight_add]
  norm_num [Nat.shiftRight_eq_div_pow]

theorem colDigit_zero (b : Nat) : colDigit b 0 = b % 128 := by
  rw [colDigit_eq]
  norm_num

theorem colDigit_and (a b c : Nat) :
    colDigit (a &&& b) c = colDigit a c &&& colDigit b c := by
  apply Nat.eq_of_testBit_eq
  intro j
  rcases Nat.lt_or_ge j 7 with hj | hj
  · rw [colDigit_testBit _ _ _ hj, Nat.testBit_and, Nat.testBit_and,
      colDigit_testBit _ _ _ hj, colDigit_testBit _ _ _ hj]
  · rw [colDigit_testBit_high _ _ _ hj, Nat.testBit_and,
      colDigit_testBit_high _ _ _ hj, colDigit_testBit_high _ _ _ hj]
    rfl

theorem colDigit_or (a b c : Nat) :
    colDigit (a ||| b) c = colDigit a c ||| colDigit b c := by
  apply Nat.eq_of_testBit_eq
  intro j
  rcases Nat.lt_or_ge j 7 with hj | hj
  · rw [colDigit_testBit _ _ _ hj, Nat.testBit_or, Nat.testBit_or,
      colDigit_testBit _ _ _ hj, colDigit_testBit _ _ _ hj]
  · rw [colDigit_testBit_high _ _ _ hj, Nat.testBit_or,
      colDigit_testBit_high _ _ _ hj, colDigit_testBit_high _ _ _ hj]
    rfl

theorem colDigit_add (b1 b2 : Nat)
    (h : ∀ c, colDigit b1 c + colDigit b2 c < 128) :
    ∀ c, colDigit (b1 + b2) c = colDigit b1 c + colDigit b2 c := by
  intro c
  induction c generalizing b1 b2 with
  | zero =>
    have h0 := h 0
    simp only [colDigit_zero] at h0 ⊢
    omega
  | succ c ih =>
    have h0 := h 0
    simp only [colDigit_zero] at h0
    have hdiv : (b1 + b2) / 128 = b1 / 128 + b2 / 128 := by omega
    simp only [colDigit_succ, hdiv]
    exact ih (b1 / 128) (b2 / 128) fun c' => by
      have := h (c' + 1)
      simpa only [colDigit_succ] using this

theorem digits_ext : ∀ (w b1 b2 : Nat), b1 < 128 ^ w → b2 < 128 ^ w →
    (∀ c, c < w → colDigit b1 c = colDigit b2 c) → b1 = b2 := by
  intro w
  induction w with
  | zero => intro b1 b2 h1 h2 _; simp at h1 h2; omega
  | succ w ih =>
    intro b1 b2 h1 h2 hd
    have e0 : b1 % 128 = b2 % 128 := by
      have := hd 0 (by omega)
      simpa only [colDigit_zero] using this
    have hp : (128 : Nat) ^ (w + 1) = 128 * 128 ^ w := by ring
    have etail : b1 / 128 = b2 / 128 := by
      apply ih
      · exact Nat.div_lt_of_lt_mul (hp ▸ h1)
      · exact Nat.div_lt_of_lt_mul (hp ▸ h2)
      · intro c hc
        have := hd (c + 1) (by omega)
        simpa only [colDigit_succ] using this
    omega

theorem colDigit_two_pow_self (c h : Nat) (hh : h < 7) :
    colDigit (2 ^ (c * 7 + h)) c = 2 ^ h := by
  rw [colDigit_eq, Nat.shiftRight_eq_div_pow, Nat.pow_div (by omega) (by norm_num),
    Nat.add_sub_cancel_left]
  exact Nat.mod_eq_of_lt (Nat.pow_lt_pow_right (by norm_num) hh)

theorem colDigit_two_pow_ne (c c' h : Nat) (hh : h < 7) (hne : c' ≠ c) :
    colDigit (2 ^ (c * 7 + h)) c' = 0 := by
  rw [colDigit_eq, Nat.shiftRight_eq_div_pow]
  rcases Nat.lt_or_ge c' c with hlt | hge
  · rw [Nat.pow_div (by omega) (by norm_num)]
    have h7 : (2 : Nat) ^ 7 ∣ 2 ^ (c * 7 + h - c' * 7) := pow_dvd_pow 2 (by omega)
    exact Nat.dvd_iff_mod_eq_zero.1 h7
  · have hgt : c < c' := lt_of_le_of_ne hge (fun e => hne e.symm)
    rw [Nat.div_eq_of_lt]
    · norm_num
    · exact Nat.pow_lt_pow_right (by norm_num) (by omega)

theorem testBit_imp_of_and_eq {a b : Nat} (h : a &&& b = a) {i : Nat}
    (ha : a.testBit i = true) : b.testBit i = true := by
  have := congrArg (fun x => x.testBit i) h
  simp only [Nat.testBit_and, ha, Bool.true_and] at this
  exact this

theorem and_eq_self_of_testBit_imp {a b : Nat}
    (h : ∀ i, a.testBit i = true → b.testBit i = true) : a &&& b = a := by
  apply Nat.eq_of_testBit_eq
  intro i
  rw [Nat.testBit_and]
  cases ha : a.testBit i
  · rfl
  · rw [h i ha]; rfl

theorem testBit_compl64 (x i : Nat) (hi : i < 64) :
    (compl64 x).testBit i = ! x.testBit i := by
  unfold compl64
  rw [Nat.testBit_xor, Nat.testBit_two_pow_sub_one]
  simp [hi]

theorem lt_of_and_board {a : Nat} (h : a &&& board_mask = a) : a < 2 ^ 49 := by
  calc a = a &&& board_mask := h.symm
    _ ≤ board_mask := Nat.and_le_right
    _ < 2 ^ 49 := by decide

/-! ## Legality: digit structure, board containment, key bound -/

theorem colDigit_high_zero {b : Nat} (hb : b < 2 ^ 49) {c : Nat} (hc : 7 ≤ c) :
    colDigit b c = 0 := by
  rw [colDigit_eq, Nat.shiftRight_eq_div_pow, Nat.div_eq_of_lt, Nat.zero_mod]
  calc b < 2 ^ 49 := hb
    _ ≤ 2 ^ (c * 7) := Nat.pow_le_pow_right (by norm_num) (by omega)

theorem colDigit_board (c : Nat) (hc : c < 7) : colDigit board_mask c = 63 := by
  interval_cases c <;> decide

theorem legal_mask_lt {P : Position} (hL : Legal P) : P.mask < 2 ^ 49 := hL.1

theorem legal_cur_le_mask {P : Position} (hL : Legal P) :
    P.current_position ≤ P.mask := by
  calc P.current_position = P.current_position &&& P.mask := hL.2.1.symm
    _ ≤ P.mask := Nat.and_le_right

theorem legal_cur_lt {P : Position} (hL : Legal P) :
    P.current_position < 2 ^ 49 :=
  lt_of_le_of_lt (legal_cur_le_mask hL) (legal_mask_lt hL)

theorem legal_mask_digit {P : Position} (hL : Legal P) (c : Nat) (hc : c < 7) :
    ∃ h < 7, colDigit P.mask c = 2 ^ h - 1 := hL.2.2 c hc

theorem legal_mask_subset_board {P : Position} (hL : Legal P) :
    P.mask &&& board_mask = P.mask := by
  apply and_eq_self_of_testBit_imp
  intro i hbit
  rw [testBit_eq_colDigit] at hbit ⊢
  rcases Nat.lt_or_ge (i / 7) 7 with hc | hc
  · obtain ⟨h, hh, hd⟩ := legal_mask_digit hL (i / 7) hc
    rw [hd, Nat.testBit_two_pow_sub_one] at hbit
    rw [colDigit_board _ hc]
    have hj : i % 7 < h := by simpa using hbit
    have : i % 7 < 6 := by omega
    have h63 : (63 : Nat) = 2 ^ 6 - 1 := by norm_num
    rw [h63, Nat.testBit_two_pow_sub_one]
    simpa using this
  · rw [colDigit_high_zero (legal_mask_lt hL) hc] at hbit
    simp [Nat.zero_testBit] at hbit

theorem legal_mask_le_board {P : Position} (hL : Legal P) :
    P.mask ≤ board_mask := by
  calc P.mask = P.mask &&& board_mask := (legal_mask_subset_board hL).symm
    _ ≤ board_mask := Nat.and_le_right

theorem legal_key_lt {P : Position} (hL : Legal P) : P.key < 2 ^ 49 := by
  have h1 := legal_mask_le_board hL
  have h2 := le_trans (legal_cur_le_mask hL) h1
  have : board_mask + board_mask < 2 ^ 49 := by decide
  unfold Position.key
  omega

theorem legal_cur_digit_lt {P : Position} (hL : Legal P) {c h : Nat}
    (hc : c < 7) (hd : colDigit P.mask c = 2 ^ h - 1) :
    colDigit P.current_position c < 2 ^ h := by
  have hsub : colDigit P.current_position c &&& colDigit P.mask c =
      colDigit P.current_position c := by
    rw [← colDigit_and, hL.2.1]
  have : colDigit P.current_position c ≤ colDigit P.mask c := by
    calc colDigit P.current_position c
        = colDigit P.current_position c &&& colDigit P.mask c := hsub.symm
      _ ≤ colDigit P.mask c := Nat.and_le_right
  have hp : (0 : Nat) < 2 ^ h := Nat.pos_pow_of_pos h (by norm_num)
  omega

/-- Per-column injectivity of the stack encoding `cur + (2^h - 1)`. -/
theorem stack_digit_inj {h1 h2 cur1 cur2 : Nat}
    (hc1 : cur1 < 2 ^ h1) (hc2 : cur2 < 2 ^ h2)
    (he : cur1 + 2 ^ h1 = cur2 + 2 ^ h2) : h1 = h2 ∧ cur1 = cur2 := by
  rcases Nat.lt_trichotomy h1 h2 with h | h | h
  · have hs : (2 : Nat) ^ (h1 + 1) ≤ 2 ^ h2 := Nat.pow_le_pow_right (by norm_num) (by omega)
    rw [pow_succ] at hs
    omega
  · subst h
    exact ⟨rfl, by omega⟩
  · have hs : (2 : Nat) ^ (h2 + 1) ≤ 2 ^ h1 := Nat.pow_le_pow_right (by norm_num) (by omega)
    rw [pow_succ] at hs
    omega

/-- Digits of `key = current + mask` add without carry. -/
theorem legal_key_digit {P : Position} (hL : Legal P) :
    ∀ c, colDigit P.key c = colDigit P.current_position c + colDigit P.mask c := by
  apply colDigit_add
  intro c
  rcases Nat.lt_or_ge c 7 with hc | hc
  · obtain ⟨h, hh, hd⟩ := legal_mask_digit hL c hc
    have h1 := legal_cur_digit_lt hL hc hd
    have h2 : (2 : Nat) ^ h ≤ 2 ^ 6 := Nat.pow_le_pow_right (by norm_num) (by omega)
    rw [hd]
    omega
  · rw [colDigit_high_zero (legal_cur_lt hL) hc, colDigit_high_zero (legal_mask_lt hL) hc]
    norm_num

/-- C4: `key() = current + mask` is injective over legal positions: two
positions satisfying the data-model invariants (current within mask, no
sentinel bit, gravity-stacked columns, no existing alignment) with
different `(current, mask)` pairs have different keys. -/
theorem key_injective (P1 P2 : Position)
    (hL1 : Legal P1) (hL2 : Legal P2) (hA1 : noAlign P1) (hA2 : noAlign P2)
    (hne : (P1.current_position, P1.mask) ≠ (P2.current_position, P2.mask)) :
    P1.key ≠ P2.key := by
  intro hkey
  apply hne
  have hdig : ∀ c, c < 7 →
      colDigit P1.current_position c = colDigit P2.current_position c ∧
      colDigit P1.mask c = colDigit P2.mask c := by
    intro c hc
    have e : colDigit P1.current_position c + colDigit P1.mask c =
        colDigit P2.current_position c + colDigit P2.mask c := by
      rw [← legal_key_digit hL1 c, ← legal_key_digit hL2 c, hkey]
    obtain ⟨h1, hh1, hd1⟩ := legal_mask_digit hL1 c hc
    obtain ⟨h2, hh2, hd2⟩ := legal_mask_digit hL2 c hc
    have hc1 := legal_cur_digit_lt hL1 hc hd1
    have hc2 := legal_cur_digit_lt hL2 hc hd2
    have hp1 : (0 : Nat) < 2 ^ h1 := Nat.pos_pow_of_pos h1 (by norm_num)
    have hp2 : (0 : Nat) < 2 ^ h2 := Nat.pos_pow_of_pos h2 (by norm_num)
    have e' : colDigit P1.current_position c + 2 ^ h1 =
        colDigit P2.current_position c + 2 ^ h2 := by
      rw [hd1, hd2] at e
      omega
    obtain ⟨hh, hcur⟩ := stack_digit_inj hc1 hc2 e'
    subst hh
    exact ⟨hcur, by rw [hd1, hd2]⟩
  have h128 : (2 : Nat) ^ 49 = 128 ^ 7 := by norm_num
  have ecur : P1.current_position = P2.current_position :=
    digits_ext 7 _ _ (h128 ▸ legal_cur_lt hL1) (h128 ▸ legal_cur_lt hL2)
      (fun c hc => (hdig c hc).1)
  have emask : P1.mask = P2.mask :=
    digits_ext 7 _ _ (h128 ▸ legal_mask_lt hL1) (h128 ▸ legal_mask_lt hL2)
      (fun c hc => (hdig c hc).2)
  rw [ecur, emask]

theorem key_injective_witness :
    Legal Position.empty ∧ Legal (Position.empty.playCol 3) ∧
    noAlign Position.empty ∧ noAlign (Position.empty.playCol 3) ∧
    (Position.empty.current_position, Position.empty.mask) ≠
      ((Position.empty.playCol 3).current_position, (Position.empty.playCol 3).mask) ∧
    Position.empty.key ≠ (Position.empty.playCol 3).key :=
  ⟨by decide, by decide, by decide, by decide, by decide,
    key_injective _ _ (by decide) (by decide) (by decide) (by decide) (by decide)⟩

/-! ## Playing a move: bit-level normalization -/

theorem or_lt_two_pow {a b n : Nat} (ha : a < 2 ^ n) (hb : b < 2 ^ n) :
    a ||| b < 2 ^ n := by
  have he : a ||| b = (a ||| b) % 2 ^ n := by
    apply Nat.eq_of_testBit_eq
    intro i
    rw [Nat.testBit_mod_two_pow, Nat.testBit_or]
    rcases Nat.lt_or_ge i n with h | h
    · simp [h]
    · rw [Nat.testBit_lt_two_pow (lt_of_lt_of_le ha (Nat.pow_le_pow_right (by norm_num) h)),
        Nat.testBit_lt_two_pow (lt_of_lt_of_le hb (Nat.pow_le_pow_right (by norm_num) h))]
      simp [Nat.not_lt.2 h]
  rw [he]
  exact Nat.mod_lt _ (Nat.pos_pow_of_pos n (by norm_num))

theorem colDigit_bottom (c : Nat) (hc : c < 7) : colDigit bottom_mask c = 1 := by
  interval_cases c <;> decide

/-- Digits of `mask + bottom_mask` for a legal position: each column digit
becomes `2^h` (no carry between columns). -/
theorem legal_mask_add_bottom_digit {P : Position} (hL : Legal P) :
    ∀ c, colDigit (P.mask + bottom_mask) c = colDigit P.mask c + colDigit bottom_mask c := by
  apply colDigit_add
  intro c
  rcases Nat.lt_or_ge c 7 with hc | hc
  · obtain ⟨h, hh, hd⟩ := legal_mask_digit hL c hc
    have h2 : (2 : Nat) ^ h ≤ 2 ^ 6 := Nat.pow_le_pow_right (by norm_num) (by omega)
    rw [hd, colDigit_bottom c hc]
    omega
  · rw [colDigit_high_zero (legal_mask_lt hL) hc,
      colDigit_high_zero (by decide : bottom_mask < 2 ^ 49) hc]
    norm_num

theorem and_63_mod_128 (x : Nat) : x % 2 ^ 7 &&& 63 = x &&& 63 := by
  apply Nat.eq_of_testBit_eq
  intro i
  rw [Nat.testBit_and, Nat.testBit_and]
  rw [Nat.testBit_mod_two_pow]
  rcases Nat.lt_or_ge i 7 with h | h
  · simp [h]
  · have h63 : (63 : Nat) = 2 ^ 6 - 1 := by norm_num
    rw [h63, Nat.testBit_two_pow_sub_one]
    have : ¬ i < 6 := by omega
    simp [this]

/-- Extраcting one column of a bitboard: `b & column_mask c` is the column
digit's playable bits, shifted into place. -/
theorem and_column_mask (b c : Nat) :
    b &&& column_mask c = (colDigit b c &&& 63) <<< (c * 7) := by
  have hcol : column_mask c = 63 <<< (c * 7) := rfl
  rw [hcol, and_shiftLeft_comm, colDigit_eq, and_63_mod_128]

theorem two_pow_and_63 {h : Nat} (hh : h < 6) : 2 ^ h &&& 63 = 2 ^ h := by
  interval_cases h <;> decide

/-- For a legal position with a playable column `c` of height `h`, the move
bitmap `(mask + bottom_mask_col c) & column_mask c` is the single bit at the
lowest free cell, `2^(c*7 + h)`. -/
theorem playCol_move_eq {P : Position} (hL : Legal P) {c h : Nat}
    (hc : c < 7) (hd : colDigit P.mask c = 2 ^ h - 1) (hh : h < 6) :
    (P.mask + bottom_mask_col c) &&& column_mask c = 2 ^ (c * 7 + h) := by
  have hbc : bottom_mask_col c = 2 ^ (c * 7 + 0) := by
    show 1 <<< (c * 7) = 2 ^ (c * 7 + 0)
    rw [Nat.shiftLeft_eq, one_mul, Nat.add_zero]
  have hadd : ∀ c', colDigit (P.mask + bottom_mask_col c) c' =
      colDigit P.mask c' + colDigit (bottom_mask_col c) c' := by
    apply colDigit_add
    intro c'
    rcases Nat.lt_or_ge c' 7 with hc' | hc'
    · obtain ⟨h', hh', hd'⟩ := legal_mask_digit hL c' hc'
      have h2 : (2 : Nat) ^ h' ≤ 2 ^ 6 := Nat.pow_le_pow_right (by norm_num) (by omega)
      rcases eq_or_ne c' c with rfl | hne
      · rw [hd', hbc, colDigit_two_pow_self _ _ (by norm_num)]
        omega
      · rw [hd', hbc, colDigit_two_pow_ne _ _ _ (by norm_num) hne]
        omega
    · rw [colDigit_high_zero (legal_mask_lt hL) hc',
        colDigit_high_zero (hbc ▸ Nat.pow_lt_pow_right (by norm_num) (by omega)) hc']
      norm_num
  rw [and_column_mask, hadd c, hd, hbc, colDigit_two_pow_self _ _ (by norm_num)]
  have hsum : 2 ^ h - 1 + 2 ^ 0 = 2 ^ h := by
    have : (0 : Nat) < 2 ^ h := Nat.pos_pow_of_pos h (by norm_num)
    simp
    omega
  rw [hsum, two_pow_and_63 hh, Nat.shiftLeft_eq, pow_add, Nat.mul_comm]

/-- `canPlay` forces the column height below HEIGHT. -/
theorem canPlay_height {P : Position} (hL : Legal P) {c h : Nat}
    (hc : c < 7) (hd : colDigit P.mask c = 2 ^ h - 1) (hh : h < 7)
    (hcp : P.canPlay c = true) : h < 6 := by
  by_contra hc6
  have h6 : h = 6 := by omega
  subst h6
  unfold Position.canPlay at hcp
  have htop : top_mask_col c = 2 ^ (c * 7 + 5) := by
    show 1 <<< (5 + c * 7) = 2 ^ (c * 7 + 5)
    rw [Nat.shiftLeft_eq, one_mul, Nat.add_comm]
  have hbit : P.mask.testBit (c * 7 + 5) = true := by
    rw [testBit_eq_colDigit]
    have hdiv : (c * 7 + 5) / 7 = c := by omega
    have hmod : (c * 7 + 5) % 7 = 5 := by omega
    rw [hdiv, hmod, hd]
    decide
  have : (P.mask &&& top_mask_col c).testBit (c * 7 + 5) = true := by
    rw [Nat.testBit_and, hbit, htop, Nat.testBit_two_pow]
    simp
  rw [decide_eq_true_iff] at hcp
  rw [hcp] at this
  simp [Nat.zero_testBit] at this

/-! ## Popcount lemmas -/

theorem popcount_or_two_pow {a k : Nat} (hk : k < 64) (ha : a.testBit k = false) :
    popcount (a ||| 2 ^ k) = popcount a + 1 := by
  unfold popcount
  have hset : (Finset.range 64).filter (fun i => (a ||| 2 ^ k).testBit i) =
      (Finset.range 64).filter (fun i => a.testBit i) ∪ {k} := by
    ext i
    simp only [Finset.mem_filter, Finset.mem_range, Finset.mem_union,
      Finset.mem_singleton, Nat.testBit_or, Nat.testBit_two_pow,
      Bool.or_eq_true, decide_eq_true_iff]
    constructor
    · rintro ⟨hi, hb | he⟩
      · exact Or.inl ⟨hi, hb⟩
      · exact Or.inr he.symm
    · rintro (⟨hi, hb⟩ | rfl)
      · exact ⟨hi, Or.inl hb⟩
      · exact ⟨hk, Or.inr rfl⟩
  rw [hset, Finset.card_union_of_disjoint]
  · simp
  · simp only [Finset.disjoint_singleton_right, Finset.mem_filter]
    rintro ⟨-, hb⟩
    rw [ha] at hb
    exact Bool.false_ne_true hb

theorem popcount_le_of_subset {a b : Nat} (h : a &&& b = a) :
    popcount a ≤ popcount b := by
  unfold popcount
  apply Finset.card_le_card
  intro i
  simp only [Finset.mem_filter, Finset.mem_range]
  rintro ⟨hi, hb⟩
  exact ⟨hi, testBit_imp_of_and_eq h hb⟩

theorem popcount_ge_one {b i : Nat} (hi : i < 64) (hb : b.testBit i = true) :
    1 ≤ popcount b := by
  unfold popcount
  have : i ∈ (Finset.range 64).filter (fun j => b.testBit j) := by
    simp [Finset.mem_filter, hi, hb]
  exact Finset.card_pos.2 ⟨i, this⟩

theorem popcount_ge_three {b i j k : Nat} (hij : i < j) (hjk : j < k) (hk : k < 64)
    (hbi : b.testBit i = true) (hbj : b.testBit j = true)
    (hbk : b.testBit k = true) : 3 ≤ popcount b := by
  unfold popcount
  have hsub : ({i, j, k} : Finset Nat) ⊆ (Finset.range 64).filter (fun m => b.testBit m) := by
    intro m
    simp only [Finset.mem_insert, Finset.mem_singleton, Finset.mem_filter, Finset.mem_range]
    rintro (rfl | rfl | rfl)
    · exact ⟨by omega, hbi⟩
    · exact ⟨by omega, hbj⟩
    · exact ⟨by omega, hbk⟩
  have hcard : ({i, j, k} : Finset Nat).card = 3 := by
    rw [Finset.card_insert_of_not_mem (by simp; omega),
      Finset.card_insert_of_not_mem (by simp; omega), Finset.card_singleton]
  calc 3 = ({i, j, k} : Finset Nat).card := hcard.symm
    _ ≤ _ := Finset.card_le_card hsub

/-! ## Play preserves the data-model invariants -/

/-- The freshly played cell is empty in a legal mask. -/
theorem stack_top_not_set {P : Position} (hL : Legal P) {c h : Nat}
    (hc : c < 7) (hd : colDigit P.mask c = 2 ^ h - 1) (hh : h < 7) :
    P.mask.testBit (c * 7 + h) = false := by
  rw [testBit_eq_colDigit]
  have hdiv : (c * 7 + h) / 7 = c := by omega
  have hmod : (c * 7 + h) % 7 = h := by omega
  rw [hdiv, hmod, hd, Nat.testBit_two_pow_sub_one]
  simp

theorem legal_play_bit {P : Position} (hL : LegalFull P) {c h : Nat}
    (hc : c < 7) (hd : colDigit P.mask c = 2 ^ h - 1) (hh : h < 6) :
    LegalFull (P.play (2 ^ (c * 7 + h))) := by
  obtain ⟨⟨hlt, hsub, hstack⟩, hpc⟩ := hL
  have hbit : P.mask.testBit (c * 7 + h) = false :=
    stack_top_not_set ⟨hlt, hsub, hstack⟩ hc hd (by omega)
  have hk49 : c * 7 + h < 49 := by omega
  refine ⟨⟨?_, ?_, ?_⟩, ?_⟩
  · -- mask bound
    exact or_lt_two_pow hlt (Nat.pow_lt_pow_right (by norm_num) hk49)
  · -- current within mask
    apply and_eq_self_of_testBit_imp
    intro i hi
    simp only [Position.play, Nat.testBit_xor, Nat.testBit_or] at hi ⊢
    cases hmi : P.mask.testBit i
    · cases hci : P.current_position.testBit i
      · rw [hmi, hci] at hi
        simp at hi
      · have := testBit_imp_of_and_eq hsub hci
        rw [this] at hmi
        exact absurd hmi (by simp)
    · simp
  · -- columns stay stacked
    intro c' hc'
    show ∃ h' < 7, colDigit (P.mask ||| 2 ^ (c * 7 + h)) c' = 2 ^ h' - 1
    rw [colDigit_or]
    rcases eq_or_ne c' c with rfl | hne
    · refine ⟨h + 1, by omega, ?_⟩
      rw [hd, colDigit_two_pow_self _ _ (by omega)]
      have h6 : h < 6 := hh
      interval_cases h <;> decide
    · obtain ⟨h', hh', hd'⟩ := hstack c' hc'
      refine ⟨h', hh', ?_⟩
      rw [hd', colDigit_two_pow_ne _ _ _ (by omega) hne]
      simp
  · -- popcount
    show popcount (P.mask ||| 2 ^ (c * 7 + h)) = P.moves + 1
    rw [popcount_or_two_pow (by omega) hbit, hpc]

/-- `playCol` on a playable column of a legal position preserves the full
invariant. -/
theorem legal_playCol {P : Position} (hL : LegalFull P) {c : Nat}
    (hc : c < 7) (hcp : P.canPlay c = true) : LegalFull (P.playCol c) := by
  obtain ⟨h, hh, hd⟩ := legal_mask_digit hL.1 c hc
  have hh6 : h < 6 := canPlay_height hL.1 hc hd hh hcp
  unfold Position.playCol
  rw [playCol_move_eq hL.1 hc hd hh6]
  exact legal_play_bit hL hc hd hh6

theorem reachable_legal {P : Position} (hR : Reachable P) : LegalFull P := by
  induction hR with
  | base => decide
  | step Q col hQ hcol hcp hwin ih => exact legal_playCol ih hcol hcp

/-- C5: every position reachable from the empty position by `playCol` on
playable, non-winning columns (as enforced by the string overload of `play`)
satisfies `popcount(mask) = moves`, `current & ~mask = 0` and has no
sentinel-row bit set; each such `playCol` preserves all three (the induction
step of the proof). -/
theorem reachable_invariants {P : Position} (hR : Reachable P) :
    popcount P.mask = P.moves ∧
    P.current_position &&& compl64 P.mask = 0 ∧
    P.mask &&& sentinel_mask = 0 := by
  obtain ⟨⟨hlt, hsub, hstack⟩, hpc⟩ := reachable_legal hR
  refine ⟨hpc, ?_, ?_⟩
  · apply Nat.eq_of_testBit_eq
    intro i
    rw [Nat.testBit_and, Nat.zero_testBit]
    rcases Nat.lt_or_ge i 64 with hi | hi
    · rw [testBit_compl64 _ _ hi]
      cases hci : P.current_position.testBit i
      · rfl
      · rw [testBit_imp_of_and_eq hsub hci]
        rfl
    · have h49 : P.current_position < 2 ^ 49 := legal_cur_lt ⟨hlt, hsub, hstack⟩
      rw [Nat.testBit_lt_two_pow
        (lt_of_lt_of_le h49 (Nat.pow_le_pow_right (by norm_num) (by omega)))]
      rfl
  · apply Nat.eq_of_testBit_eq
    intro i
    rw [Nat.testBit_and, Nat.zero_testBit]
    cases hmi : P.mask.testBit i
    · rfl
    · rw [testBit_eq_colDigit] at hmi
      rcases Nat.lt_or_ge (i / 7) 7 with hc | hc
      · obtain ⟨h, hh, hd⟩ := hstack (i / 7) hc
        rw [hd, Nat.testBit_two_pow_sub_one] at hmi
        have hj : i % 7 < h := by simpa using hmi
        have hh7 : h < 7 := hh
        have hsent : sentinel_mask.testBit i = false := by
          rw [testBit_eq_colDigit]
          have hcd : colDigit sentinel_mask (i / 7) = 64 := by
            have : i / 7 < 7 := hc
            interval_cases hch : (i / 7) <;> decide
          rw [hcd]
          have h64 : (64 : Nat) = 2 ^ 6 := by norm_num
          rw [h64, Nat.testBit_two_pow]
          have hne : ¬ (6 = i % 7) := by omega
          simp [hne]
        rw [hsent]
        simp
      · rw [colDigit_high_zero hlt hc] at hmi
        simp [Nat.zero_testBit] at hmi

theorem reachable_invariants_witness :
    Reachable ((Position.empty.playCol 3).playCol 3) ∧
    (popcount ((Position.empty.playCol 3).playCol 3).mask =
        ((Position.empty.playCol 3).playCol 3).moves ∧
      ((Position.empty.playCol 3).playCol 3).current_position &&&
        compl64 ((Position.empty.playCol 3).playCol 3).mask = 0 ∧
      ((Position.empty.playCol 3).playCol 3).mask &&& sentinel_mask = 0) := by
  have hR : Reachable ((Position.empty.playCol 3).playCol 3) := by
    apply Reachable.step
    · apply Reachable.step
      · exact Reachable.base
      · decide
      · decide
      · decide
    · decide
    · decide
    · decide
  exact ⟨hR, reachable_invariants hR⟩

/-! ## The transposition table size is the next prime above 2^24 -/

theorem has_factor_iff : ∀ (fuel n mn mx : Nat), mx - mn ≤ 2 ^ fuel → 2 ≤ mn →
    mn < mx →
    (has_factor fuel n mn mx = true ↔
      ∃ d, mn ≤ d ∧ d < mx ∧ d * d ≤ n ∧ n % d = 0) := by
  intro fuel
  induction fuel with
  | zero =>
    intro n mn mx hsz h2 hlt
    simp only [has_factor]
    by_cases hsq : n < mn * mn
    · simp only [hsq, if_true]
      constructor
      · intro h; exact absurd h (by simp)
      · rintro ⟨d, hd1, hd2, hd3, hd4⟩
        have : mn * mn ≤ d * d := Nat.mul_le_mul hd1 hd1
        omega
    · simp only [hsq, if_false]
      have hle : mx ≤ mn + 1 := by simp at hsz; omega
      simp only [hle, if_true, decide_eq_true_iff]
      constructor
      · intro h
        exact ⟨mn, le_refl mn, by omega, by omega, h⟩
      · rintro ⟨d, hd1, hd2, hd3, hd4⟩
        have : d = mn := by omega
        subst this
        exact hd4
  | succ fuel ih =>
    intro n mn mx hsz h2 hlt
    simp only [has_factor]
    by_cases hsq : n < mn * mn
    · simp only [hsq, if_true]
      constructor
      · intro h; exact absurd h (by simp)
      · rintro ⟨d, hd1, hd2, hd3, hd4⟩
        have : mn * mn ≤ d * d := Nat.mul_le_mul hd1 hd1
        omega
    · simp only [hsq, if_false]
      by_cases hle : mx ≤ mn + 1
      · simp only [hle, if_true, decide_eq_true_iff]
        constructor
        · intro h
          exact ⟨mn, le_refl mn, by omega, by omega, h⟩
        · rintro ⟨d, hd1, hd2, hd3, hd4⟩
          have : d = mn := by omega
          subst this
          exact hd4
      · simp only [hle, if_false]
        have hpow : (2 : Nat) ^ (fuel + 1) = 2 * 2 ^ fuel := by rw [pow_succ]; ring
        have hmed1 : mn < med mn mx := by unfold med; omega
        have hmed2 : med mn mx < mx := by unfold med; omega
        have hb1 : med mn mx - mn ≤ 2 ^ fuel := by unfold med; omega
        have hb2 : mx - med mn mx ≤ 2 ^ fuel := by unfold med; omega
        rw [Bool.or_eq_true, ih n mn (med mn mx) hb1 h2 hmed1,
          ih n (med mn mx) mx hb2 (by omega) hmed2]
        constructor
        · rintro (⟨d, h1, h2', h3, h4⟩ | ⟨d, h1, h2', h3, h4⟩)
          · exact ⟨d, h1, by omega, h3, h4⟩
          · exact ⟨d, by omega, h2', h3, h4⟩
        · rintro ⟨d, h1, h2', h3, h4⟩
          rcases Nat.lt_or_ge d (med mn mx) with h | h
          · exact Or.inl ⟨d, h1, h, h3, h4⟩
          · exact Or.inr ⟨d, h, h2', h3, h4⟩

theorem has_factor_not_prime {n : Nat} (h2 : 2 ≤ n) (h64 : n ≤ 2 ^ 64) :
    has_factor 64 n 2 n = true ↔ ¬ n.Prime := by
  rcases eq_or_lt_of_le h2 with h | h
  · rw [← h]
    decide
  rw [has_factor_iff 64 n 2 n (by omega) (le_refl 2) h]
  constructor
  · rintro ⟨d, hd1, hd2, hd3, hd4⟩ hp
    have hdvd : d ∣ n := Nat.dvd_iff_mod_eq_zero.2 hd4
    rcases Nat.Prime.eq_one_or_self_of_dvd hp d hdvd with h | h <;> omega
  · intro hp
    have hne1 : n ≠ 1 := by omega
    have hdp := Nat.minFac_prime hne1
    have hdvd := Nat.minFac_dvd n
    have hsq := Nat.minFac_sq_le_self (show 0 < n by omega) hp
    rw [pow_two] at hsq
    have h2d : 2 ≤ n.minFac := hdp.two_le
    have hmod : n % n.minFac = 0 := Nat.dvd_iff_mod_eq_zero.1 hdvd
    have h2dd : 2 * n.minFac ≤ n.minFac * n.minFac :=
      Nat.mul_le_mul_right n.minFac h2d
    exact ⟨n.minFac, h2d, by omega, hsq, hmod⟩

theorem next_prime_eq : ∀ (fuel n m : Nat), 2 ≤ n → n ≤ m → m ≤ 2 ^ 64 →
    m - n < fuel → (∀ k, n ≤ k → k < m → ¬ k.Prime) → m.Prime →
    next_prime fuel n = m := by
  intro fuel
  induction fuel with
  | zero => intro n m _ _ _ hf _ _; omega
  | succ fuel ih =>
    intro n m h2 hnm h64 hf hcomp hm
    simp only [next_prime]
    rcases eq_or_lt_of_le hnm with rfl | hlt
    · have : has_factor 64 n 2 n = false := by
        rw [Bool.eq_false_iff]
        intro hc
        exact (has_factor_not_prime h2 h64).1 hc hm
      rw [this]
      simp
    · have hnc : ¬ n.Prime := hcomp n (le_refl n) hlt
      have : has_factor 64 n 2 n = true :=
        (has_factor_not_prime h2 (by omega)).2 hnc
      rw [this]
      simp only [if_true]
      exact ih (n + 1) m (by omega) (by omega) h64 (by omega)
        (fun k hk1 hk2 => hcomp k (by omega) hk2) hm

/-- The solver's table capacity is exactly the C++ compile-time constant
`next_prime(1 << TABLE_SIZE)`. -/
theorem ttSize_eq_next_prime : next_prime 64 (1 <<< TABLE_SIZE) = ttSize := by
  have h1 : (1 : Nat) <<< TABLE_SIZE = 16777216 := by decide
  rw [h1]
  apply next_prime_eq 64 16777216 16777259 (by norm_num) (by norm_num)
    (by norm_num) (by norm_num)
  · intro k hk1 hk2
    interval_cases k <;> norm_num
  · norm_num

theorem ttSize_prime : Nat.Prime ttSize := by
  unfold ttSize
  norm_num

theorem ttPut_apply_same (T : TTable) (key : Nat) (v : Int) {i : Nat}
    (hi : i = key % ttSize) :
    ttPut T key v i = (key % 2 ^ PARTIAL_KEY_BITS, (v.emod 256).toNat) := by
  unfold ttPut
  rw [if_pos hi]

theorem ttPut_apply_other (T : TTable) (key : Nat) (v : Int) {i : Nat}
    (hi : i ≠ key % ttSize) : ttPut T key v i = T i := by
  unfold ttPut
  rw [if_neg hi]

theorem ttGet_ttPut_same (T : TTable) (key : Nat) (v : Int) :
    ttGet (ttPut T key v) key = (v.emod 256).toNat := by
  unfold ttGet
  rw [ttPut_apply_same T key v rfl]
  rw [if_pos rfl]

theorem ttGet_ttPut_other_partial (T : TTable) (k1 k2 : Nat) (v : Int)
    (hslot : k1 % ttSize = k2 % ttSize)
    (hpart : k1 % 2 ^ PARTIAL_KEY_BITS ≠ k2 % 2 ^ PARTIAL_KEY_BITS) :
    ttGet (ttPut T k1 v) k2 = 0 := by
  unfold ttGet
  rw [ttPut_apply_same T k1 v hslot.symm]
  exact if_neg hpart

theorem ttGet_ttPut_other_slot (T : TTable) (k1 k2 : Nat) (v : Int)
    (hslot : k1 % ttSize ≠ k2 % ttSize) :
    ttGet (ttPut T k1 v) k2 = ttGet T k2 := by
  unfold ttGet
  rw [ttPut_apply_other T k1 v (fun e => hslot e.symm)]

/-- C3: with capacity `S = next_prime(2^24)` and 32-bit partial keys, two
distinct keys below `2^49` differ in their slot index or in their truncated
partial key (Chinese remainder theorem); consequently, after any sequence
of `put`s of keys below `2^49` (with byte values), `get(k)` returns either
0 or the value of the most recent `put(k, v)` — never a value stored under
a different key. -/
theorem tt_distinct_keys_and_get_trace :
    next_prime 64 (1 <<< TABLE_SIZE) = ttSize ∧
    (∀ k1 k2 : Nat, k1 < 2 ^ 49 → k2 < 2 ^ 49 → k1 ≠ k2 →
      k1 % ttSize ≠ k2 % ttSize ∨
      k1 % 2 ^ PARTIAL_KEY_BITS ≠ k2 % 2 ^ PARTIAL_KEY_BITS) ∧
    (∀ ops : List (Nat × Int), (∀ p ∈ ops, p.1 < 2 ^ 49 ∧ 0 ≤ p.2 ∧ p.2 < 256) →
      ∀ k : Nat, k < 2 ^ 49 →
        ttGet (runPuts ops) k = 0 ∨
        ∃ v : Int, lastPutValue ops k = some v ∧ (ttGet (runPuts ops) k : Int) = v) := by
  have hpart : ∀ k1 k2 : Nat, k1 < 2 ^ 49 → k2 < 2 ^ 49 → k1 ≠ k2 →
      k1 % ttSize ≠ k2 % ttSize ∨
      k1 % 2 ^ PARTIAL_KEY_BITS ≠ k2 % 2 ^ PARTIAL_KEY_BITS := by
    intro k1 k2 h1 h2 hne
    by_contra hc
    push_neg at hc
    obtain ⟨hs, hp⟩ := hc
    have hco : Nat.Coprime ttSize (2 ^ PARTIAL_KEY_BITS) := by decide
    have hmod : k1 ≡ k2 [MOD ttSize * 2 ^ PARTIAL_KEY_BITS] :=
      (Nat.modEq_and_modEq_iff_modEq_mul hco).1 ⟨hs, hp⟩
    have hbig : 2 ^ 49 ≤ ttSize * 2 ^ PARTIAL_KEY_BITS := by decide
    have e1 : k1 % (ttSize * 2 ^ PARTIAL_KEY_BITS) = k1 := Nat.mod_eq_of_lt (by omega)
    have e2 : k2 % (ttSize * 2 ^ PARTIAL_KEY_BITS) = k2 := Nat.mod_eq_of_lt (by omega)
    unfold Nat.ModEq at hmod
    rw [e1, e2] at hmod
    exact hne hmod
  refine ⟨ttSize_eq_next_prime, hpart, ?_⟩
  intro ops hops k hk
  induction ops using List.reverseRecOn with
  | nil =>
    left
    unfold runPuts ttGet ttReset
    simp
  | append_singleton ops p ih =>
    have hops2 : ∀ q ∈ ops, q.1 < 2 ^ 49 ∧ 0 ≤ q.2 ∧ q.2 < 256 := by
      intro q hq
      exact hops q (by simp [hq])
    have hp := hops p (by simp)
    have hrun : runPuts (ops ++ [p]) = ttPut (runPuts ops) p.1 p.2 := by
      unfold runPuts
      rw [List.foldl_append]
      rfl
    have hlast : ∀ q : Nat × Int, q = p →
        lastPutValue (ops ++ [q]) k =
          if q.1 = k then some q.2 else lastPutValue ops k := by
      rintro q rfl
      unfold lastPutValue
      rw [List.filter_append, List.map_append]
      by_cases hqk : q.1 = k
      · simp [hqk]
      · simp [hqk]
    rcases eq_or_ne p.1 k with hpk | hpk
    · right
      refine ⟨p.2, ?_, ?_⟩
      · rw [hlast p rfl, if_pos hpk]
      · rw [hrun, ← hpk, ttGet_ttPut_same]
        have hemod : p.2.emod 256 = p.2 := Int.emod_eq_of_lt hp.2.1 hp.2.2
        rw [hemod]
        exact Int.toNat_of_nonneg hp.2.1
    · have hlast2 : lastPutValue (ops ++ [p]) k = lastPutValue ops k := by
        rw [hlast p rfl, if_neg hpk]
      rcases eq_or_ne (p.1 % ttSize) (k % ttSize) with hslot | hslot
      · left
        have hpartial : p.1 % 2 ^ PARTIAL_KEY_BITS ≠ k % 2 ^ PARTIAL_KEY_BITS := by
          rcases hpart p.1 k hp.1 hk hpk with h | h
          · exact absurd hslot h
          · exact h
        rw [hrun]
        exact ttGet_ttPut_other_partial _ _ _ _ hslot hpartial
      · have hget : ttGet (runPuts (ops ++ [p])) k = ttGet (runPuts ops) k := by
          rw [hrun]
          exact ttGet_ttPut_other_slot _ _ _ _ hslot
        rw [hget, hlast2]
        exact ih hops2

/-! ## Opening book: failed loads always miss -/

theorem bookGet_sentinel (w h : Int) (P : Position) :
    OpeningBook.get ⟨w, h, -1, none⟩ P = 0 := by
  unfold OpeningBook.get
  rw [if_pos]
  show (-1 : Int) < (P.nbMoves : Int)
  have : (0 : Int) ≤ (P.nbMoves : Int) := Int.natCast_nonneg _
  omega

/-- C8: if `OpeningBook::load` fails at any stage — missing file, width or
height mismatch, invalid depth, invalid partial-key byte width, value byte
width other than 1, invalid or unsupported log_size, or a truncated
key/value byte stream — then after `load` returns, `book.get(P)` returns 0
(absent) for every position `P`. -/
theorem book_load_failure_get_zero (w h : Int) (file : Option (List Nat))
    (hf : loadFails w h file) (P : Position) :
    OpeningBook.get (OpeningBook.load w h file) P = 0 := by
  match file with
  | none => exact bookGet_sentinel w h P
  | some [] => exact bookGet_sentinel w h P
  | some [b0] => exact bookGet_sentinel w h P
  | some [b0, b1] => exact bookGet_sentinel w h P
  | some [b0, b1, b2] => exact bookGet_sentinel w h P
  | some [b0, b1, b2, b3] => exact bookGet_sentinel w h P
  | some [b0, b1, b2, b3, b4] => exact bookGet_sentinel w h P
  | some (b0 :: b1 :: b2 :: b3 :: b4 :: b5 :: rest) =>
      simp only [OpeningBook.load]
      by_cases h0 : toSigned b0 ≠ w
      · rw [if_pos h0]; exact bookGet_sentinel w h P
      rw [if_neg h0]
      by_cases h1 : toSigned b1 ≠ h
      · rw [if_pos h1]; exact bookGet_sentinel w h P
      rw [if_neg h1]
      by_cases h2 : w * h < toSigned b2
      · rw [if_pos h2]; exact bookGet_sentinel w h P
      rw [if_neg h2]
      by_cases h3 : 8 < toSigned b3
      · rw [if_pos h3]; exact bookGet_sentinel w h P
      rw [if_neg h3]
      by_cases h4 : toSigned b4 ≠ 1
      · rw [if_pos h4]; exact bookGet_sentinel w h P
      rw [if_neg h4]
      by_cases h5 : 40 < toSigned b5
      · rw [if_pos h5]; exact bookGet_sentinel w h P
      rw [if_neg h5]
      by_cases h6 : ¬ (b3 = 1 ∨ b3 = 2 ∨ b3 = 4)
      · rw [if_pos h6]; exact bookGet_sentinel w h P
      rw [if_neg h6]
      by_cases h7 : ¬ (21 ≤ b5 ∧ b5 ≤ 27)
      · rw [if_pos h7]; exact bookGet_sentinel w h P
      rw [if_neg h7]
      by_cases h8 : rest.length < next_prime 64 (1 <<< b5) * b3 + next_prime 64 (1 <<< b5)
      · rw [if_pos h8]; exact bookGet_sentinel w h P
      rw [if_neg h8]
      -- every check passed: the failure hypothesis is contradictory
      exfalso
      simp only [loadFails] at hf
      have e0 : (b0 :: b1 :: b2 :: b3 :: b4 :: b5 :: rest).getD 0 0 = b0 := rfl
      have e1 : (b0 :: b1 :: b2 :: b3 :: b4 :: b5 :: rest).getD 1 0 = b1 := rfl
      have e2 : (b0 :: b1 :: b2 :: b3 :: b4 :: b5 :: rest).getD 2 0 = b2 := rfl
      have e3 : (b0 :: b1 :: b2 :: b3 :: b4 :: b5 :: rest).getD 3 0 = b3 := rfl
      have e4 : (b0 :: b1 :: b2 :: b3 :: b4 :: b5 :: rest).getD 4 0 = b4 := rfl
      have e5 : (b0 :: b1 :: b2 :: b3 :: b4 :: b5 :: rest).getD 5 0 = b5 := rfl
      have elen : (b0 :: b1 :: b2 :: b3 :: b4 :: b5 :: rest).length = 6 + rest.length := by
        simp [List.length_cons]
        omega
      rw [e0, e1, e2, e3, e4, e5, elen] at hf
      rcases hf with hl | hc | hc | hc | hc | hc | hc | hc | hc | hl
      · omega
      · exact h0 hc
      · exact h1 hc
      · exact h2 hc
      · exact h3 hc
      · exact h4 hc
      · exact h5 hc
      · exact h6 hc
      · exact h7 hc
      · omega

theorem book_load_failure_get_zero_witness :
    loadFails 7 6 (some [8, 6, 0, 4, 1, 24]) ∧
    OpeningBook.get (OpeningBook.load 7 6 (some [8, 6, 0, 4, 1, 24]))
      Position.empty = 0 :=
  ⟨by decide, book_load_failure_get_zero 7 6 (some [8, 6, 0, 4, 1, 24])
    (by decide) Position.empty⟩

/-! ## key3 is invariant under horizontal reflection -/

theorem two_pow_and_ne_zero (k b : Nat) : 2 ^ k &&& b ≠ 0 ↔ b.testBit k = true := by
  constructor
  · intro h
    obtain ⟨i, hi⟩ := exists_testBit_of_ne_zero h
    rw [Nat.testBit_and, Nat.testBit_two_pow, Bool.and_eq_true, decide_eq_true_iff] at hi
    rw [hi.1]
    exact hi.2
  · intro h hz
    have : (2 ^ k &&& b).testBit k = true := by
      rw [Nat.testBit_and, Nat.testBit_two_pow, h]
      simp
    rw [hz] at this
    simp [Nat.zero_testBit] at this

theorem colDigit_shifted (d c0 c : Nat) (hd : d < 128) :
    colDigit (d <<< (c0 * 7)) c = if c = c0 then d else 0 := by
  rw [colDigit_eq, Nat.shiftLeft_eq, Nat.shiftRight_eq_div_pow]
  rcases Nat.lt_trichotomy c c0 with h | rfl | h
  · rw [if_neg (by omega)]
    have hdvd : (2 : Nat) ^ (c * 7) ∣ 2 ^ (c0 * 7) := pow_dvd_pow 2 (by omega)
    rw [Nat.mul_div_assoc d hdvd, Nat.pow_div (by omega) (by norm_num)]
    have h7 : (2 : Nat) ^ 7 ∣ d * 2 ^ (c0 * 7 - c * 7) :=
      Dvd.dvd.mul_left (pow_dvd_pow 2 (by omega)) d
    exact Nat.dvd_iff_mod_eq_zero.1 h7
  · rw [if_pos rfl, Nat.mul_div_cancel _ (Nat.pos_pow_of_pos _ (by norm_num))]
    exact Nat.mod_eq_of_lt hd
  · rw [if_neg (by omega), Nat.div_eq_of_lt, Nat.zero_mod]
    calc d * 2 ^ (c0 * 7) < 128 * 2 ^ (c0 * 7) := by
          exact (Nat.mul_lt_mul_right (Nat.pos_pow_of_pos _ (by norm_num))).2 hd
      _ = 2 ^ (c0 * 7 + 7) := by rw [pow_add]; ring
      _ ≤ 2 ^ (c * 7) := Nat.pow_le_pow_right (by norm_num) (by omega)

theorem colDigit_mirrorBB (b : Nat) (c : Nat) (hc : c < 7) :
    colDigit (mirrorBB b) c = colDigit b (6 - c) := by
  have he : mirrorBB b =
      ((((((0 ||| (colDigit b 6 <<< (0 * 7))) ||| (colDigit b 5 <<< (1 * 7))) |||
        (colDigit b 4 <<< (2 * 7))) ||| (colDigit b 3 <<< (3 * 7))) |||
        (colDigit b 2 <<< (4 * 7))) ||| (colDigit b 1 <<< (5 * 7))) |||
        (colDigit b 0 <<< (6 * 7)) := rfl
  have hz : colDigit 0 c = 0 := by
    rw [colDigit_eq]
    simp
  have hs : ∀ c' k : Nat, colDigit (colDigit b k <<< (c' * 7)) c =
      if c = c' then colDigit b k else 0 :=
    fun c' k => colDigit_shifted _ _ _ (colDigit_lt b k)
  rw [he]
  simp only [colDigit_or, hz, hs]
  interval_cases c <;> simp

/-- The column walk of `partialKey3` on a stacked column of height `h`
visits exactly the cells `j, j+1, …, h-1`. -/
theorem partialKey3Loop_range' : ∀ (n j fuel cur mask c h key : Nat), c < 7 → h < 7 →
    colDigit mask c = 2 ^ h - 1 → j + n = h → n < fuel →
    partialKey3Loop cur mask fuel (2 ^ (c * 7 + j)) key =
      (List.range' j n).foldl
        (fun k i => (k * 3 + (if cur.testBit (c * 7 + i) then 1 else 2)) % M64) key := by
  intro n
  induction n with
  | zero =>
    intro j fuel cur mask c h key hc hh hd hj hf
    match fuel, hf with
    | fuel + 1, _ =>
      show (if 2 ^ (c * 7 + j) &&& mask ≠ 0 then _ else key) = _
      have hnot : ¬ (2 ^ (c * 7 + j) &&& mask ≠ 0) := by
        intro hand
        have hbit := (two_pow_and_ne_zero _ _).1 hand
        rw [testBit_eq_colDigit] at hbit
        have hdiv : (c * 7 + j) / 7 = c := by omega
        have hmod : (c * 7 + j) % 7 = j := by omega
        rw [hdiv, hmod, hd, Nat.testBit_two_pow_sub_one] at hbit
        have : j < h := by simpa using hbit
        omega
      rw [if_neg hnot]
      rfl
  | succ n ih =>
    intro j fuel cur mask c h key hc hh hd hj hf
    match fuel, hf with
    | fuel + 1, _ =>
      show (if 2 ^ (c * 7 + j) &&& mask ≠ 0 then
        partialKey3Loop cur mask fuel ((2 ^ (c * 7 + j) <<< 1) % M64)
          ((key * 3 + (if 2 ^ (c * 7 + j) &&& cur ≠ 0 then 1 else 2)) % M64) else key) = _
      have hbit : mask.testBit (c * 7 + j) = true := by
        rw [testBit_eq_colDigit]
        have hdiv : (c * 7 + j) / 7 = c := by omega
        have hmod : (c * 7 + j) % 7 = j := by omega
        rw [hdiv, hmod, hd, Nat.testBit_two_pow_sub_one]
        have : j < h := by omega
        simpa using this
      rw [if_pos ((two_pow_and_ne_zero _ _).2 hbit)]
      have hpos : (2 ^ (c * 7 + j) <<< 1) % M64 = 2 ^ (c * 7 + (j + 1)) := by
        have he : 2 ^ (c * 7 + j) * 2 = 2 ^ (c * 7 + (j + 1)) := by
          rw [show c * 7 + (j + 1) = (c * 7 + j) + 1 by omega, pow_succ]
        rw [Nat.shiftLeft_eq, pow_one, he]
        apply Nat.mod_eq_of_lt
        unfold M64
        exact Nat.pow_lt_pow_right (by norm_num) (by omega)
      have hcurbit : (2 ^ (c * 7 + j) &&& cur ≠ 0) = (cur.testBit (c * 7 + j) = true) := by
        exact propext (two_pow_and_ne_zero _ _)
      rw [List.range'_succ, List.foldl_cons, hpos]
      rw [ih (j + 1) fuel cur mask c h _ hc hh hd (by omega) (by omega)]
      congr 2
      rcases hcb : cur.testBit (c * 7 + j) with hf' | ht'
      · rw [if_neg, if_neg]
        · simp [hcb]
        · rw [hcurbit, hcb]
          simp
      · rw [if_pos, if_pos]
        · simp [hcb]
        · rw [hcurbit, hcb]

/-- `partialKey3` of a legal position only depends on the walked column's
digits: it equals the pure digit walk of the column. -/
theorem partialKey3_eq_digits {P : Position} (hL : Legal P) {c : Nat} (hc : c < 7)
    {h : Nat} (hh : h < 7) (hd : colDigit P.mask c = 2 ^ h - 1) (key : Nat) :
    P.partialKey3 key c = partialKey3Digits (colDigit P.current_position c) h key := by
  unfold Position.partialKey3 partialKey3Digits
  have hstart : (1 <<< (c * (HEIGHT + 1))) % M64 = 2 ^ (c * 7 + 0) := by
    show (1 <<< (c * 7)) % M64 = 2 ^ (c * 7 + 0)
    rw [Nat.shiftLeft_eq, one_mul, Nat.add_zero]
    apply Nat.mod_eq_of_lt
    unfold M64
    exact Nat.pow_lt_pow_right (by norm_num) (by omega)
  rw [hstart, partialKey3Loop_range' h 0 64 _ _ c h key hc hh hd (by omega) (by omega)]
  rw [← List.range_eq_range']
  have hfe : (List.range h).foldl
      (fun k i => (k * 3 +
        (if P.current_position.testBit (c * 7 + i) then 1 else 2)) % M64) key =
      (List.range h).foldl
      (fun k j => (k * 3 +
        (if (colDigit P.current_position c).testBit j then 1 else 2)) % M64) key := by
    apply List.foldl_ext
    intro a i hi
    rw [List.mem_range] at hi
    rw [colDigit_testBit _ _ _ (by omega)]
  rw [hfe]

/-- C9: `key3()` is invariant under horizontal reflection: a legal position
and its mirror image (column c swapped with column WIDTH-1-c, same stones
and same side to move) have the same symmetric base-3 key. -/
theorem key3_mirror_invariant (P : Position) (hL : Legal P) (hA : noAlign P) :
    P.mirror.key3 = P.key3 := by
  have hLm : ∀ c, c < 7 → ∀ key, P.mirror.partialKey3 key c = P.partialKey3 key (6 - c) := by
    intro c hc key
    obtain ⟨h, hh, hd⟩ := legal_mask_digit hL (6 - c) (by omega)
    have hdm : colDigit P.mirror.mask c = 2 ^ h - 1 := by
      show colDigit (mirrorBB P.mask) c = 2 ^ h - 1
      rw [colDigit_mirrorBB _ _ hc]
      exact hd
    rw [partialKey3_eq_digits ?hLm hc hh hdm key, partialKey3_eq_digits hL (by omega) hh hd key]
    case hLm =>
      refine ⟨?_, ?_, ?_⟩
      · show mirrorBB P.mask < 2 ^ 49
        have : ∀ b, mirrorBB b < 2 ^ 49 := by
          intro b
          have h7 : ∀ k, colDigit b k <<< ((6 - k) * 7) < 2 ^ 49 := by
            intro k
            rw [Nat.shiftLeft_eq]
            calc colDigit b k * 2 ^ ((6 - k) * 7) < 128 * 2 ^ ((6 - k) * 7) :=
                (Nat.mul_lt_mul_right (Nat.pos_pow_of_pos _ (by norm_num))).2 (colDigit_lt b k)
              _ = 2 ^ ((6 - k) * 7 + 7) := by rw [pow_add]; ring
              _ ≤ 2 ^ 49 := Nat.pow_le_pow_right (by norm_num) (by omega)
          have he : mirrorBB b =
              ((((((0 ||| (colDigit b 6 <<< ((6 - 6) * 7))) |||
                (colDigit b 5 <<< ((6 - 5) * 7))) |||
                (colDigit b 4 <<< ((6 - 4) * 7))) ||| (colDigit b 3 <<< ((6 - 3) * 7))) |||
                (colDigit b 2 <<< ((6 - 2) * 7))) ||| (colDigit b 1 <<< ((6 - 1) * 7))) |||
                (colDigit b 0 <<< ((6 - 0) * 7)) := rfl
          rw [he]
          have hz : (0 : Nat) < 2 ^ 49 := by norm_num
          exact or_lt_two_pow (or_lt_two_pow (or_lt_two_pow (or_lt_two_pow (or_lt_two_pow
            (or_lt_two_pow (or_lt_two_pow hz (h7 6)) (h7 5)) (h7 4)) (h7 3)) (h7 2))
            (h7 1)) (h7 0)
        exact this P.mask
      · show mirrorBB P.current_position &&& mirrorBB P.mask = mirrorBB P.current_position
        apply and_eq_self_of_testBit_imp
        intro i hi
        rw [testBit_eq_colDigit] at hi ⊢
        rcases Nat.lt_or_ge (i / 7) 7 with hc7 | hc7
        · rw [colDigit_mirrorBB _ _ hc7] at hi ⊢
          rw [colDigit_testBit _ _ _ (Nat.mod_lt _ (by norm_num))] at hi ⊢
          exact testBit_imp_of_and_eq hL.2.1 hi
        · rw [colDigit_high_zero ?hb hc7] at hi
          · simp [Nat.zero_testBit] at hi
          case hb =>
            have : ∀ b, mirrorBB b < 2 ^ 49 := by
              intro b
              calc mirrorBB b ≤ mirrorBB b ||| 0 := by simp
                _ < 2 ^ 49 := by
                  rw [Nat.or_zero]
                  exact lt_of_le_of_lt (Nat.le_refl _) (by
                    have h7 : ∀ k, colDigit b k <<< ((6 - k) * 7) < 2 ^ 49 := by
                      intro k
                      rw [Nat.shiftLeft_eq]
                      calc colDigit b k * 2 ^ ((6 - k) * 7) <
                          128 * 2 ^ ((6 - k) * 7) :=
                          (Nat.mul_lt_mul_right (Nat.pos_pow_of_pos _ (by norm_num))).2
                            (colDigit_lt b k)
                        _ = 2 ^ ((6 - k) * 7 + 7) := by rw [pow_add]; ring
                        _ ≤ 2 ^ 49 := Nat.pow_le_pow_right (by norm_num) (by omega)
                    have he : mirrorBB b =
                        ((((((0 ||| (colDigit b 6 <<< ((6 - 6) * 7))) |||
                          (colDigit b 5 <<< ((6 - 5) * 7))) |||
                          (colDigit b 4 <<< ((6 - 4) * 7))) |||
                          (colDigit b 3 <<< ((6 - 3) * 7))) |||
                          (colDigit b 2 <<< ((6 - 2) * 7))) |||
                          (colDigit b 1 <<< ((6 - 1) * 7))) |||
                          (colDigit b 0 <<< ((6 - 0) * 7)) := rfl
                    rw [he]
                    have hz : (0 : Nat) < 2 ^ 49 := by norm_num
                    exact or_lt_two_pow (or_lt_two_pow (or_lt_two_pow (or_lt_two_pow
                      (or_lt_two_pow (or_lt_two_pow (or_lt_two_pow hz (h7 6)) (h7 5))
                        (h7 4)) (h7 3)) (h7 2)) (h7 1)) (h7 0))
            exact this P.current_position
      · intro c' hc'
        show ∃ h' < 7, colDigit (mirrorBB P.mask) c' = 2 ^ h' - 1
        rw [colDigit_mirrorBB _ _ hc']
        exact hL.2.2 (6 - c') (show 6 - c' < 7 by omega)
    · show partialKey3Digits (colDigit (mirrorBB P.current_position) c) h key =
        partialKey3Digits (colDigit P.current_position (6 - c)) h key
      rw [colDigit_mirrorBB _ _ hc]
  show (let kf := (List.range WIDTH).foldl P.mirror.partialKey3 0
        let kr := (List.range WIDTH).reverse.foldl P.mirror.partialKey3 0
        if kf < kr then kf / 3 else kr / 3) = P.key3
  have hfold : ∀ l : List Nat, (∀ c ∈ l, c < 7) → ∀ key,
      l.foldl P.mirror.partialKey3 key =
        (l.map (fun c => 6 - c)).foldl P.partialKey3 key := by
    intro l
    induction l with
    | nil => intro _ key; rfl
    | cons a t ih =>
      intro hmem key
      rw [List.map_cons, List.foldl_cons, List.foldl_cons,
        hLm a (hmem a (by simp)) key]
      exact ih (fun c hc => hmem c (by simp [hc])) _
  have hmapf : (List.range WIDTH).map (fun c => 6 - c) = (List.range WIDTH).reverse := by
    decide
  have hmapr : ((List.range WIDTH).reverse.map (fun c => 6 - c)) = List.range WIDTH := by
    decide
  have hkf : (List.range WIDTH).foldl P.mirror.partialKey3 0 =
      (List.range WIDTH).reverse.foldl P.partialKey3 0 := by
    rw [hfold (List.range WIDTH) (fun c hc => by simpa [List.mem_range] using hc) 0, hmapf]
  have hkr : (List.range WIDTH).reverse.foldl P.mirror.partialKey3 0 =
      (List.range WIDTH).foldl P.partialKey3 0 := by
    rw [hfold (List.range WIDTH).reverse
      (fun c hc => by simp only [List.mem_reverse, List.mem_range] at hc; exact hc) 0, hmapr]
  show (if (List.range WIDTH).foldl P.mirror.partialKey3 0 <
      (List.range WIDTH).reverse.foldl P.mirror.partialKey3 0 then
      (List.range WIDTH).foldl P.mirror.partialKey3 0 / 3
    else (List.range WIDTH).reverse.foldl P.mirror.partialKey3 0 / 3) = P.key3
  rw [hkf, hkr]
  show _ = (let kf := (List.range WIDTH).foldl P.partialKey3 0
        let kr := (List.range WIDTH).reverse.foldl P.partialKey3 0
        if kf < kr then kf / 3 else kr / 3)
  simp only []
  set A := (List.range WIDTH).foldl P.partialKey3 0 with hA2
  set B := (List.range WIDTH).reverse.foldl P.partialKey3 0 with hB2
  rcases Nat.lt_trichotomy A B with h | h | h
  · rw [if_neg (by omega), if_pos h]
  · rw [h]
  · rw [if_pos h, if_neg (by omega)]

theorem key3_mirror_invariant_witness :
    Legal (Position.empty.playSeq ['4', '1', '5', '1']).1 ∧
    noAlign (Position.empty.playSeq ['4', '1', '5', '1']).1 ∧
    (Position.empty.playSeq ['4', '1', '5', '1']).1.mirror.key3 =
      (Position.empty.playSeq ['4', '1', '5', '1']).1.key3 :=
  ⟨by decide, by decide,
    key3_mirror_invariant _ (by decide) (by decide)⟩

/-! ## C7: negamax preconditions are preserved along non-losing moves -/

theorem ne_zero_of_testBit (x i : Nat) (h : x.testBit i = true) : x ≠ 0 := by
  intro h0
  rw [h0, Nat.zero_testBit] at h
  exact Bool.false_ne_true h

theorem and_ne_zero_of_bits (a b i : Nat) (ha : a.testBit i = true)
    (hb : b.testBit i = true) : a &&& b ≠ 0 := by
  apply ne_zero_of_testBit _ i
  rw [Nat.testBit_and, ha, hb]
  rfl

theorem shiftLeft_testBit_true (pos n k : Nat) (h : n ≤ k)
    (hp : pos.testBit (k - n) = true) : (pos <<< n).testBit k = true := by
  rw [Nat.testBit_shiftLeft]
  simp [h, hp]

theorem shiftRight_testBit_true (pos n k : Nat)
    (hp : pos.testBit (n + k) = true) : (pos >>> n).testBit k = true := by
  rw [Nat.testBit_shiftRight]
  exact hp

/-- A number with two distinct set bits keeps a set bit after clearing the
lowest one: `f & (f-1)` is nonzero. -/
theorem and_pred_ne_zero_of_two_bits {f i j : Nat} (hij : i < j)
    (hi : f.testBit i = true) (hj : f.testBit j = true) : f &&& (f - 1) ≠ 0 := by
  have hrne : f % 2 ^ j ≠ 0 := by
    apply ne_zero_of_testBit _ i
    rw [Nat.testBit_mod_two_pow]
    simp [hij, hi]
  have hdm := Nat.div_add_mod f (2 ^ j)
  have hp : 0 < 2 ^ j := Nat.pos_pow_of_pos j (by norm_num)
  have hmlt : f % 2 ^ j < 2 ^ j := Nat.mod_lt _ hp
  have hfeq : f - 1 = (f % 2 ^ j - 1) + 2 ^ j * (f / 2 ^ j) := by omega
  have hdiv : (f - 1) / 2 ^ j = f / 2 ^ j := by
    rw [hfeq, Nat.add_mul_div_left _ _ hp, Nat.div_eq_of_lt (by omega)]
    omega
  apply ne_zero_of_testBit _ j
  rw [Nat.testBit_and, hj, Bool.true_and, Nat.testBit_to_div_mod, hdiv,
    ← Nat.testBit_to_div_mod]
  exact hj

/-- Unfolding of `possibleNonLosingMoves` (zeta-reduced form). -/
theorem pnl_eq (P : Position) : P.possibleNonLosingMoves =
    (if P.possible &&& P.opponent_winning_position ≠ 0 then
      if (P.possible &&& P.opponent_winning_position) &&&
          ((P.possible &&& P.opponent_winning_position) - 1) ≠ 0 then 0
      else (P.possible &&& P.opponent_winning_position) &&&
        compl64 (P.opponent_winning_position >>> 1)
    else P.possible &&& compl64 (P.opponent_winning_position >>> 1)) := rfl

/-- Every bit of `possibleNonLosingMoves` is a playable cell. -/
theorem pnl_subset_possible {P : Position} {k : Nat}
    (h : P.possibleNonLosingMoves.testBit k = true) :
    P.possible.testBit k = true := by
  rw [pnl_eq] at h
  by_cases hf : P.possible &&& P.opponent_winning_position ≠ 0
  · rw [if_pos hf] at h
    by_cases hm : (P.possible &&& P.opponent_winning_position) &&&
        ((P.possible &&& P.opponent_winning_position) - 1) ≠ 0
    · rw [if_pos hm, Nat.zero_testBit] at h
      exact absurd h (by simp)
    · rw [if_neg hm, Nat.testBit_and, Nat.testBit_and, Bool.and_eq_true,
        Bool.and_eq_true] at h
      exact h.1.1
  · rw [if_neg hf, Nat.testBit_and, Bool.and_eq_true] at h
    exact h.1

/-- A non-losing move never sits right below an opponent winning cell. -/
theorem pnl_avoid_above {P : Position} {k : Nat} (hk : k < 64)
    (h : P.possibleNonLosingMoves.testBit k = true) :
    P.opponent_winning_position.testBit (k + 1) = false := by
  rw [pnl_eq] at h
  have hstep : (compl64 (P.opponent_winning_position >>> 1)).testBit k = true →
      P.opponent_winning_position.testBit (k + 1) = false := by
    intro hc
    rw [testBit_compl64 _ _ hk, Nat.testBit_shiftRight, Bool.not_eq_true',
      show 1 + k = k + 1 by omega] at hc
    exact hc
  by_cases hf : P.possible &&& P.opponent_winning_position ≠ 0
  · rw [if_pos hf] at h
    by_cases hm : (P.possible &&& P.opponent_winning_position) &&&
        ((P.possible &&& P.opponent_winning_position) - 1) ≠ 0
    · rw [if_pos hm, Nat.zero_testBit] at h
      exact absurd h (by simp)
    · rw [if_neg hm, Nat.testBit_and, Bool.and_eq_true] at h
      exact hstep h.2
  · rw [if_neg hf, Nat.testBit_and, Bool.and_eq_true] at h
    exact hstep h.2

/-- The forced-move structure behind a non-losing move: either there is no
forced move at all, or the bit played is the unique forced move. -/
theorem pnl_cases {P : Position} {k : Nat}
    (h : P.possibleNonLosingMoves.testBit k = true) :
    (∀ x, (P.possible &&& P.opponent_winning_position).testBit x = false) ∨
    ((P.possible &&& P.opponent_winning_position).testBit k = true ∧
      ∀ x, (P.possible &&& P.opponent_winning_position).testBit x = true → x = k) := by
  rw [pnl_eq] at h
  by_cases hf : P.possible &&& P.opponent_winning_position ≠ 0
  · rw [if_pos hf] at h
    by_cases hm : (P.possible &&& P.opponent_winning_position) &&&
        ((P.possible &&& P.opponent_winning_position) - 1) ≠ 0
    · rw [if_pos hm, Nat.zero_testBit] at h
      exact absurd h (by simp)
    · rw [if_neg hm, Nat.testBit_and, Bool.and_eq_true] at h
      refine Or.inr ⟨h.1, ?_⟩
      intro x hx
      by_contra hne
      rcases Nat.lt_or_ge x k with hlt | hge
      · exact hm (and_pred_ne_zero_of_two_bits hlt hx h.1)
      · exact hm (and_pred_ne_zero_of_two_bits (by omega) h.1 hx)
  · push_neg at hf
    left
    intro x
    rw [hf, Nat.zero_testBit]

/-- Column digit of `possible`: the single bit at the column height, or 0 for
a full column. -/
theorem possible_digit {P : Position} (hL : Legal P) {c h : Nat} (hc : c < 7)
    (hd : colDigit P.mask c = 2 ^ h - 1) (hh : h < 7) :
    colDigit P.possible c = if h < 6 then 2 ^ h else 0 := by
  show colDigit ((P.mask + bottom_mask) &&& board_mask) c = _
  rw [colDigit_and, colDigit_board c hc, legal_mask_add_bottom_digit hL c,
    colDigit_bottom c hc, hd]
  have hpos : (0 : Nat) < 2 ^ h := Nat.pos_pow_of_pos h (by norm_num)
  have he : 2 ^ h - 1 + 1 = 2 ^ h := by omega
  rw [he]
  by_cases h6 : h < 6
  · rw [if_pos h6, two_pow_and_63 h6]
  · rw [if_neg h6]
    have h66 : h = 6 := by omega
    subst h66
    decide

/-- Decomposition of a playable bit: column, height, stack digit. -/
theorem possible_bit_decomp {P : Position} (hL : Legal P) {k : Nat}
    (h : P.possible.testBit k = true) :
    ∃ c < 7, ∃ j < 6, k = c * 7 + j ∧ colDigit P.mask c = 2 ^ j - 1 := by
  have hself : P.possible &&& board_mask = P.possible := by
    apply Nat.eq_of_testBit_eq
    intro i
    show (((P.mask + bottom_mask) &&& board_mask) &&& board_mask).testBit i =
      ((P.mask + bottom_mask) &&& board_mask).testBit i
    simp [Nat.testBit_and, Bool.and_assoc]
  have hlt : P.possible < 2 ^ 49 := lt_of_and_board hself
  have hk49 : k < 49 := by
    by_contra hge
    rw [Nat.testBit_lt_two_pow
      (lt_of_lt_of_le hlt (Nat.pow_le_pow_right (by norm_num) (by omega)))] at h
    exact Bool.false_ne_true h
  have hc : k / 7 < 7 := by omega
  obtain ⟨h', hh', hd'⟩ := legal_mask_digit hL (k / 7) hc
  rw [testBit_eq_colDigit, possible_digit hL hc hd' hh'] at h
  by_cases h6 : h' < 6
  · rw [if_pos h6, Nat.testBit_two_pow] at h
    have hj : h' = k % 7 := of_decide_eq_true h
    refine ⟨k / 7, hc, k % 7, by omega, by omega, by rw [hd', hj]⟩
  · rw [if_neg h6, Nat.zero_testBit] at h
    exact absurd h (by simp)

/-- Introduction of a playable bit from the stack digit. -/
theorem possible_bit_intro {P : Position} (hL : Legal P) {c j : Nat}
    (hc : c < 7) (hj : j < 6) (hd : colDigit P.mask c = 2 ^ j - 1) :
    P.possible.testBit (c * 7 + j) = true := by
  rw [testBit_eq_colDigit]
  have hdiv : (c * 7 + j) / 7 = c := by omega
  have hmod : (c * 7 + j) % 7 = j := by omega
  rw [hdiv, hmod, possible_digit hL hc hd (by omega), if_pos hj,
    Nat.testBit_two_pow]
  simp

theorem board_testBit {c j : Nat} (hc : c < 7) (hj : j < 6) :
    board_mask.testBit (c * 7 + j) = true := by
  rw [testBit_eq_colDigit]
  have hdiv : (c * 7 + j) / 7 = c := by omega
  have hmod : (c * 7 + j) % 7 = j := by omega
  rw [hdiv, hmod, colDigit_board c hc]
  have hj6 : j < 6 := hj
  interval_cases j <;> decide

/-- Cells at or above the column height are empty in the mask. -/
theorem stack_above_not_set {P : Position} (hL : Legal P) {c h j : Nat}
    (hc : c < 7) (hd : colDigit P.mask c = 2 ^ h - 1) (hj : h ≤ j) (hj7 : j < 7) :
    P.mask.testBit (c * 7 + j) = false := by
  rw [testBit_eq_colDigit]
  have hdiv : (c * 7 + j) / 7 = c := by omega
  have hmod : (c * 7 + j) % 7 = j := by omega
  rw [hdiv, hmod, hd, Nat.testBit_two_pow_sub_one]
  simp
  omega

/-- Cells at or above the column height hold no stone of the mover. -/
theorem cur_above_not_set {P : Position} (hL : Legal P) {c h j : Nat}
    (hc : c < 7) (hd : colDigit P.mask c = 2 ^ h - 1) (hj : h ≤ j) (hj7 : j < 7) :
    P.current_position.testBit (c * 7 + j) = false := by
  rw [testBit_eq_colDigit]
  have hdiv : (c * 7 + j) / 7 = c := by omega
  have hmod : (c * 7 + j) % 7 = j := by omega
  rw [hdiv, hmod]
  exact Nat.testBit_lt_two_pow (lt_of_lt_of_le (legal_cur_digit_lt hL hc hd)
    (Nat.pow_le_pow_right (by norm_num) hj))

/-- `alignment` with the board constants evaluated. -/
theorem alignment_eq (pos : Nat) :
    alignment pos =
      (if (pos &&& (pos >>> 7)) &&& ((pos &&& (pos >>> 7)) >>> 14) ≠ 0 then true
       else if (pos &&& (pos >>> 6)) &&& ((pos &&& (pos >>> 6)) >>> 12) ≠ 0 then true
       else if (pos &&& (pos >>> 8)) &&& ((pos &&& (pos >>> 8)) >>> 16) ≠ 0 then true
       else decide ((pos &&& (pos >>> 1)) &&& ((pos &&& (pos >>> 1)) >>> 2) ≠ 0)) := rfl

/-- One direction test of `alignment`: the shift-and trick for step `d`
detects exactly a set of four cells in arithmetic progression of step `d`. -/
theorem window_iff (pos d d2 d3 : Nat) (h2 : d2 = 2 * d) (h3 : d3 = 3 * d) :
    ((pos &&& (pos >>> d)) &&& ((pos &&& (pos >>> d)) >>> d2) ≠ 0) ↔
      ∃ i, pos.testBit i = true ∧ pos.testBit (i + d) = true ∧
        pos.testBit (i + d2) = true ∧ pos.testBit (i + d3) = true := by
  subst h2 h3
  constructor
  · intro h
    obtain ⟨i, hb⟩ := exists_testBit_of_ne_zero h
    simp only [Nat.testBit_and, Nat.testBit_shiftRight, Bool.and_eq_true] at hb
    obtain ⟨⟨h0, h1⟩, h2, h3⟩ := hb
    refine ⟨i, h0, ?_, ?_, ?_⟩
    · rw [show i + d = d + i by omega]
      exact h1
    · rw [show i + 2 * d = 2 * d + i by omega]
      exact h2
    · rw [show i + 3 * d = d + (2 * d + i) by omega]
      exact h3
  · rintro ⟨i, h0, h1, h2, h3⟩
    apply ne_zero_of_testBit _ i
    simp only [Nat.testBit_and, Nat.testBit_shiftRight, Bool.and_eq_true]
    refine ⟨⟨h0, ?_⟩, ?_, ?_⟩
    · rw [show d + i = i + d by omega]
      exact h1
    · rw [show 2 * d + i = i + 2 * d by omega]
      exact h2
    · rw [show d + (2 * d + i) = i + 3 * d by omega]
      exact h3

/-- `alignment` holds exactly when some four cells in arithmetic progression
of step 7 (horizontal), 6 or 8 (diagonals) or 1 (vertical) are all set. -/
theorem alignment_iff (pos : Nat) : alignment pos = true ↔
    ∃ i d, (d = 7 ∨ d = 6 ∨ d = 8 ∨ d = 1) ∧ pos.testBit i = true ∧
      pos.testBit (i + d) = true ∧ pos.testBit (i + 2 * d) = true ∧
      pos.testBit (i + 3 * d) = true := by
  rw [alignment_eq]
  constructor
  · intro h
    by_cases h7 : (pos &&& (pos >>> 7)) &&& ((pos &&& (pos >>> 7)) >>> 14) ≠ 0
    · obtain ⟨i, b0, b1, b2, b3⟩ := (window_iff pos 7 14 21 (by norm_num) (by norm_num)).1 h7
      exact ⟨i, 7, Or.inl rfl, b0, b1, by rwa [show i + 2 * 7 = i + 14 by norm_num],
        by rwa [show i + 3 * 7 = i + 21 by norm_num]⟩
    · rw [if_neg h7] at h
      by_cases h6 : (pos &&& (pos >>> 6)) &&& ((pos &&& (pos >>> 6)) >>> 12) ≠ 0
      · obtain ⟨i, b0, b1, b2, b3⟩ :=
          (window_iff pos 6 12 18 (by norm_num) (by norm_num)).1 h6
        exact ⟨i, 6, Or.inr (Or.inl rfl), b0, b1,
          by rwa [show i + 2 * 6 = i + 12 by norm_num],
          by rwa [show i + 3 * 6 = i + 18 by norm_num]⟩
      · rw [if_neg h6] at h
        by_cases h8 : (pos &&& (pos >>> 8)) &&& ((pos &&& (pos >>> 8)) >>> 16) ≠ 0
        · obtain ⟨i, b0, b1, b2, b3⟩ :=
            (window_iff pos 8 16 24 (by norm_num) (by norm_num)).1 h8
          exact ⟨i, 8, Or.inr (Or.inr (Or.inl rfl)), b0, b1,
            by rwa [show i + 2 * 8 = i + 16 by norm_num],
            by rwa [show i + 3 * 8 = i + 24 by norm_num]⟩
        · rw [if_neg h8] at h
          obtain ⟨i, b0, b1, b2, b3⟩ :=
            (window_iff pos 1 2 3 (by norm_num) (by norm_num)).1 (of_decide_eq_true h)
          exact ⟨i, 1, Or.inr (Or.inr (Or.inr rfl)), b0, b1,
            by rwa [show i + 2 * 1 = i + 2 by norm_num],
            by rwa [show i + 3 * 1 = i + 3 by norm_num]⟩
  · rintro ⟨i, d, hd, b0, b1, b2, b3⟩
    rcases hd with rfl | rfl | rfl | rfl
    · have h7 : (pos &&& (pos >>> 7)) &&& ((pos &&& (pos >>> 7)) >>> 14) ≠ 0 :=
        (window_iff pos 7 14 21 (by norm_num) (by norm_num)).2
          ⟨i, b0, b1, by rwa [show i + 14 = i + 2 * 7 by norm_num],
            by rwa [show i + 21 = i + 3 * 7 by norm_num]⟩
      rw [if_pos h7]
    · have h6 : (pos &&& (pos >>> 6)) &&& ((pos &&& (pos >>> 6)) >>> 12) ≠ 0 :=
        (window_iff pos 6 12 18 (by norm_num) (by norm_num)).2
          ⟨i, b0, b1, by rwa [show i + 12 = i + 2 * 6 by norm_num],
            by rwa [show i + 18 = i + 3 * 6 by norm_num]⟩
      by_cases h7 : (pos &&& (pos >>> 7)) &&& ((pos &&& (pos >>> 7)) >>> 14) ≠ 0
      · rw [if_pos h7]
      · rw [if_neg h7, if_pos h6]
    · have h8 : (pos &&& (pos >>> 8)) &&& ((pos &&& (pos >>> 8)) >>> 16) ≠ 0 :=
        (window_iff pos 8 16 24 (by norm_num) (by norm_num)).2
          ⟨i, b0, b1, by rwa [show i + 16 = i + 2 * 8 by norm_num],
            by rwa [show i + 24 = i + 3 * 8 by norm_num]⟩
      by_cases h7 : (pos &&& (pos >>> 7)) &&& ((pos &&& (pos >>> 7)) >>> 14) ≠ 0
      · rw [if_pos h7]
      · rw [if_neg h7]
        by_cases h6 : (pos &&& (pos >>> 6)) &&& ((pos &&& (pos >>> 6)) >>> 12) ≠ 0
        · rw [if_pos h6]
        · rw [if_neg h6, if_pos h8]
    · have h1 : (pos &&& (pos >>> 1)) &&& ((pos &&& (pos >>> 1)) >>> 2) ≠ 0 :=
        (window_iff pos 1 2 3 (by norm_num) (by norm_num)).2
          ⟨i, b0, b1, by rwa [show i + 2 = i + 2 * 1 by norm_num],
            by rwa [show i + 3 = i + 3 * 1 by norm_num]⟩
      by_cases h7 : (pos &&& (pos >>> 7)) &&& ((pos &&& (pos >>> 7)) >>> 14) ≠ 0
      · rw [if_pos h7]
      · rw [if_neg h7]
        by_cases h6 : (pos &&& (pos >>> 6)) &&& ((pos &&& (pos >>> 6)) >>> 12) ≠ 0
        · rw [if_pos h6]
        · rw [if_neg h6]
          by_cases h8 : (pos &&& (pos >>> 8)) &&& ((pos &&& (pos >>> 8)) >>> 16) ≠ 0
          · rw [if_pos h8]
          · rw [if_neg h8]
            exact decide_eq_true h1


/-- Flat form of `compute_winning_position` (lets and constants evaluated). -/
theorem cwp_flat (position mask : Nat) :
    compute_winning_position position mask =
      ((((((((((((((position <<< 1) &&& (position <<< 2) &&& (position <<< 3)) |||
      ((position <<< 7) &&& (position <<< 14) &&& (position <<< 21))) |||
      ((position <<< 7) &&& (position <<< 14) &&& (position >>> 7))) |||
      ((position >>> 7) &&& (position >>> 14) &&& (position <<< 7))) |||
      ((position >>> 7) &&& (position >>> 14) &&& (position >>> 21))) |||
      ((position <<< 6) &&& (position <<< 12) &&& (position <<< 18))) |||
      ((position <<< 6) &&& (position <<< 12) &&& (position >>> 6))) |||
      ((position >>> 6) &&& (position >>> 12) &&& (position <<< 6))) |||
      ((position >>> 6) &&& (position >>> 12) &&& (position >>> 18))) |||
      ((position <<< 8) &&& (position <<< 16) &&& (position <<< 24))) |||
      ((position <<< 8) &&& (position <<< 16) &&& (position >>> 8))) |||
      ((position >>> 8) &&& (position >>> 16) &&& (position <<< 8))) |||
      ((position >>> 8) &&& (position >>> 16) &&& (position >>> 24))) &&&
      (board_mask ^^^ mask) := rfl

/-- A winning cell: empty on the board and completing some four-window. -/
theorem cwp_testBit_of_raw (pos mask k : Nat) (hb : board_mask.testBit k = true)
    (hm : mask.testBit k = false)
    (hr : (((((((((((((((pos <<< 1) &&& (pos <<< 2) &&& (pos <<< 3)) |||
          ((pos <<< 7) &&& (pos <<< 14) &&& (pos <<< 21))) |||
          ((pos <<< 7) &&& (pos <<< 14) &&& (pos >>> 7))) |||
          ((pos >>> 7) &&& (pos >>> 14) &&& (pos <<< 7))) |||
          ((pos >>> 7) &&& (pos >>> 14) &&& (pos >>> 21))) |||
          ((pos <<< 6) &&& (pos <<< 12) &&& (pos <<< 18))) |||
          ((pos <<< 6) &&& (pos <<< 12) &&& (pos >>> 6))) |||
          ((pos >>> 6) &&& (pos >>> 12) &&& (pos <<< 6))) |||
          ((pos >>> 6) &&& (pos >>> 12) &&& (pos >>> 18))) |||
          ((pos <<< 8) &&& (pos <<< 16) &&& (pos <<< 24))) |||
          ((pos <<< 8) &&& (pos <<< 16) &&& (pos >>> 8))) |||
          ((pos >>> 8) &&& (pos >>> 16) &&& (pos <<< 8))) |||
          ((pos >>> 8) &&& (pos >>> 16) &&& (pos >>> 24)))).testBit k = true) :
    (compute_winning_position pos mask).testBit k = true := by
  rw [cwp_flat, Nat.testBit_and, hr, Nat.testBit_xor, hb, hm]
  rfl

/-- Coverage of the raw winning-spot terms: if the three other cells of a
four-window through `k` (step `d`, `k` in slot `t`) hold stones of `pos` and
cell `k` is empty, then `compute_winning_position` flags `k`. The vertical
direction (`d = 1`) is covered only when `k` is the top cell (`t = 3`). -/
theorem cwp_testBit_of (pos mask k d t : Nat)
    (hd : d = 7 ∨ d = 6 ∨ d = 8 ∨ (d = 1 ∧ t = 3)) (ht : t ≤ 3) (hk : t * d ≤ k)
    (hcells : ∀ s, s ≤ 3 → s ≠ t → pos.testBit (k + s * d - t * d) = true)
    (hb : board_mask.testBit k = true) (hm : mask.testBit k = false) :
    (compute_winning_position pos mask).testBit k = true := by
  apply cwp_testBit_of_raw pos mask k hb hm
  have hLL : ∀ n1 n2 n3 : Nat, n1 ≤ k → n2 ≤ k → n3 ≤ k →
      pos.testBit (k - n1) = true → pos.testBit (k - n2) = true →
      pos.testBit (k - n3) = true →
      ((pos <<< n1) &&& (pos <<< n2) &&& (pos <<< n3)).testBit k = true := by
    intro n1 n2 n3 e1 e2 e3 p1 p2 p3
    rw [Nat.testBit_and, Nat.testBit_and, shiftLeft_testBit_true pos n1 k e1 p1,
      shiftLeft_testBit_true pos n2 k e2 p2, shiftLeft_testBit_true pos n3 k e3 p3]
    rfl
  have hLLR : ∀ n1 n2 n3 : Nat, n1 ≤ k → n2 ≤ k →
      pos.testBit (k - n1) = true → pos.testBit (k - n2) = true →
      pos.testBit (n3 + k) = true →
      ((pos <<< n1) &&& (pos <<< n2) &&& (pos >>> n3)).testBit k = true := by
    intro n1 n2 n3 e1 e2 p1 p2 p3
    rw [Nat.testBit_and, Nat.testBit_and, shiftLeft_testBit_true pos n1 k e1 p1,
      shiftLeft_testBit_true pos n2 k e2 p2, shiftRight_testBit_true pos n3 k p3]
    rfl
  have hRRL : ∀ n1 n2 n3 : Nat, n3 ≤ k →
      pos.testBit (n1 + k) = true → pos.testBit (n2 + k) = true →
      pos.testBit (k - n3) = true →
      ((pos >>> n1) &&& (pos >>> n2) &&& (pos <<< n3)).testBit k = true := by
    intro n1 n2 n3 e3 p1 p2 p3
    rw [Nat.testBit_and, Nat.testBit_and, shiftRight_testBit_true pos n1 k p1,
      shiftRight_testBit_true pos n2 k p2, shiftLeft_testBit_true pos n3 k e3 p3]
    rfl
  have hRR : ∀ n1 n2 n3 : Nat,
      pos.testBit (n1 + k) = true → pos.testBit (n2 + k) = true →
      pos.testBit (n3 + k) = true →
      ((pos >>> n1) &&& (pos >>> n2) &&& (pos >>> n3)).testBit k = true := by
    intro n1 n2 n3 p1 p2 p3
    rw [Nat.testBit_and, Nat.testBit_and, shiftRight_testBit_true pos n1 k p1,
      shiftRight_testBit_true pos n2 k p2, shiftRight_testBit_true pos n3 k p3]
    rfl
  have hcell : ∀ m : Nat, (∃ s, s ≤ 3 ∧ s ≠ t ∧ k + s * d - t * d = m) →
      pos.testBit m = true := by
    rintro m ⟨s, hs3, hst, rfl⟩
    exact hcells s hs3 hst
  rcases hd with rfl | rfl | rfl | ⟨rfl, rfl⟩
  · interval_cases t
    · have hterm := hRR 7 14 21 (hcell _ ⟨1, by omega, by omega, by omega⟩)
        (hcell _ ⟨2, by omega, by omega, by omega⟩)
        (hcell _ ⟨3, by omega, by omega, by omega⟩)
      simp [Nat.testBit_or, hterm]
    · have hterm := hRRL 7 14 7 (by omega) (hcell _ ⟨2, by omega, by omega, by omega⟩)
        (hcell _ ⟨3, by omega, by omega, by omega⟩)
        (hcell _ ⟨0, by omega, by omega, by omega⟩)
      simp [Nat.testBit_or, hterm]
    · have hterm := hLLR 7 14 7 (by omega) (by omega)
        (hcell _ ⟨1, by omega, by omega, by omega⟩)
        (hcell _ ⟨0, by omega, by omega, by omega⟩)
        (hcell _ ⟨3, by omega, by omega, by omega⟩)
      simp [Nat.testBit_or, hterm]
    · have hterm := hLL 7 14 21 (by omega) (by omega) (by omega)
        (hcell _ ⟨2, by omega, by omega, by omega⟩)
        (hcell _ ⟨1, by omega, by omega, by omega⟩)
        (hcell _ ⟨0, by omega, by omega, by omega⟩)
      simp [Nat.testBit_or, hterm]
  · interval_cases t
    · have hterm := hRR 6 12 18 (hcell _ ⟨1, by omega, by omega, by omega⟩)
        (hcell _ ⟨2, by omega, by omega, by omega⟩)
        (hcell _ ⟨3, by omega, by omega, by omega⟩)
      simp [Nat.testBit_or, hterm]
    · have hterm := hRRL 6 12 6 (by omega) (hcell _ ⟨2, by omega, by omega, by omega⟩)
        (hcell _ ⟨3, by omega, by omega, by omega⟩)
        (hcell _ ⟨0, by omega, by omega, by omega⟩)
      simp [Nat.testBit_or, hterm]
    · have hterm := hLLR 6 12 6 (by omega) (by omega)
        (hcell _ ⟨1, by omega, by omega, by omega⟩)
        (hcell _ ⟨0, by omega, by omega, by omega⟩)
        (hcell _ ⟨3, by omega, by omega, by omega⟩)
      simp [Nat.testBit_or, hterm]
    · have hterm := hLL 6 12 18 (by omega) (by omega) (by omega)
        (hcell _ ⟨2, by omega, by omega, by omega⟩)
        (hcell _ ⟨1, by omega, by omega, by omega⟩)
        (hcell _ ⟨0, by omega, by omega, by omega⟩)
      simp [Nat.testBit_or, hterm]
  · interval_cases t
    · have hterm := hRR 8 16 24 (hcell _ ⟨1, by omega, by omega, by omega⟩)
        (hcell _ ⟨2, by omega, by omega, by omega⟩)
        (hcell _ ⟨3, by omega, by omega, by omega⟩)
      simp [Nat.testBit_or, hterm]
    · have hterm := hRRL 8 16 8 (by omega) (hcell _ ⟨2, by omega, by omega, by omega⟩)
        (hcell _ ⟨3, by omega, by omega, by omega⟩)
        (hcell _ ⟨0, by omega, by omega, by omega⟩)
      simp [Nat.testBit_or, hterm]
    · have hterm := hLLR 8 16 8 (by omega) (by omega)
        (hcell _ ⟨1, by omega, by omega, by omega⟩)
        (hcell _ ⟨0, by omega, by omega, by omega⟩)
        (hcell _ ⟨3, by omega, by omega, by omega⟩)
      simp [Nat.testBit_or, hterm]
    · have hterm := hLL 8 16 24 (by omega) (by omega) (by omega)
        (hcell _ ⟨2, by omega, by omega, by omega⟩)
        (hcell _ ⟨1, by omega, by omega, by omega⟩)
        (hcell _ ⟨0, by omega, by omega, by omega⟩)
      simp [Nat.testBit_or, hterm]
  · have hterm := hLL 1 2 3 (by omega) (by omega) (by omega)
      (hcell _ ⟨2, by omega, by omega, by omega⟩)
      (hcell _ ⟨1, by omega, by omega, by omega⟩)
      (hcell _ ⟨0, by omega, by omega, by omega⟩)
    simp [Nat.testBit_or, hterm]

/-- `play` on the lowest free cell keeps the bitboard invariants (the
`Legal`-only part of the play lemma). -/
theorem legal_play_bit_legal {P : Position} (hL : Legal P) {c h : Nat}
    (hc : c < 7) (hd : colDigit P.mask c = 2 ^ h - 1) (hh : h < 6) :
    Legal (P.play (2 ^ (c * 7 + h))) := by
  obtain ⟨hlt, hsub, hstack⟩ := hL
  have hk49 : c * 7 + h < 49 := by omega
  refine ⟨?_, ?_, ?_⟩
  · exact or_lt_two_pow hlt (Nat.pow_lt_pow_right (by norm_num) hk49)
  · apply and_eq_self_of_testBit_imp
    intro i hi
    simp only [Position.play, Nat.testBit_xor, Nat.testBit_or] at hi ⊢
    cases hmi : P.mask.testBit i
    · cases hci : P.current_position.testBit i
      · rw [hmi, hci] at hi
        simp at hi
      · have := testBit_imp_of_and_eq hsub hci
        rw [this] at hmi
        exact absurd hmi (by simp)
    · simp
  · intro c' hc'
    show ∃ h' < 7, colDigit (P.mask ||| 2 ^ (c * 7 + h)) c' = 2 ^ h' - 1
    rw [colDigit_or]
    rcases eq_or_ne c' c with rfl | hne
    · refine ⟨h + 1, by omega, ?_⟩
      rw [hd, colDigit_two_pow_self _ _ (by omega)]
      have h6 : h < 6 := hh
      interval_cases h <;> decide
    · obtain ⟨h', hh', hd'⟩ := hstack c' hc'
      refine ⟨h', hh', ?_⟩
      rw [hd', colDigit_two_pow_ne _ _ _ (by omega) hne]
      simp

/-- After the move, the mover's stones seen from the opponent's side are the
old current stones plus the played bit. -/
theorem play_cur_or {P : Position} (hL : Legal P) {k : Nat}
    (hmk : P.mask.testBit k = false) :
    (P.current_position ^^^ P.mask) ^^^ (P.mask ||| 2 ^ k) =
      P.current_position ||| 2 ^ k := by
  apply Nat.eq_of_testBit_eq
  intro i
  simp only [Nat.testBit_xor, Nat.testBit_or, Nat.testBit_two_pow]
  rcases eq_or_ne i k with rfl | hne
  · have hcur : P.current_position.testBit i = false := by
      cases hci : P.current_position.testBit i
      · rfl
      · have := testBit_imp_of_and_eq hL.2.1 hci
        rw [hmk] at this
        exact absurd this (by simp)
    rw [hmk, hcur]
    simp
  · have hdk : decide (k = i) = false := by
      simp
      exact fun e => hne e.symm
    rw [hdk]
    cases P.current_position.testBit i <;> cases P.mask.testBit i <;> simp

/-- The played column's digit after the move: one more stone. -/
theorem play_mask_digit_same {P : Position} {c h : Nat}
    (hd : colDigit P.mask c = 2 ^ h - 1) (hh : h < 6) :
    colDigit (P.mask ||| 2 ^ (c * 7 + h)) c = 2 ^ (h + 1) - 1 := by
  rw [colDigit_or, hd, colDigit_two_pow_self _ _ (by omega)]
  have h6 : h < 6 := hh
  interval_cases h <;> decide

/-- Other columns' digits are unchanged by the move. -/
theorem play_mask_digit_other {P : Position} {c c' h : Nat} (hne : c' ≠ c)
    (hh : h < 7) :
    colDigit (P.mask ||| 2 ^ (c * 7 + h)) c' = colDigit P.mask c' := by
  rw [colDigit_or, colDigit_two_pow_ne _ _ _ hh hne]
  simp

/-- The raw winning spots depend only on the stones, not on the mask: a
flagged cell stays flagged under any mask in which it is empty. -/
theorem cwp_change_mask {pos m1 m2 x : Nat}
    (h : (compute_winning_position pos m1).testBit x = true)
    (h2 : (board_mask ^^^ m2).testBit x = true) :
    (compute_winning_position pos m2).testBit x = true := by
  rw [cwp_flat, Nat.testBit_and, Bool.and_eq_true] at h
  rw [cwp_flat, Nat.testBit_and, Bool.and_eq_true]
  exact ⟨h.1, h2⟩

/-- An empty on-board cell reads true in `board_mask ^^^ mask`. -/
theorem board_xor_mask_bit {mask c j : Nat} (hc : c < 7) (hj : j < 6)
    (hm : mask.testBit (c * 7 + j) = false) :
    (board_mask ^^^ mask).testBit (c * 7 + j) = true := by
  rw [Nat.testBit_xor, board_testBit hc hj, hm]
  rfl

/-- Playing a single-bit move of `possibleNonLosingMoves` on a legal,
alignment-free position with no immediate win preserves all three negamax
preconditions. -/
theorem pnl_child_ok (P : Position) (hL : Legal P)
    (hA : noAlign P) (hW : P.canWinNext = false) (k : Nat)
    (hk : P.possibleNonLosingMoves.testBit k = true) :
    Legal (P.play (2 ^ k)) ∧ noAlign (P.play (2 ^ k)) ∧
      (P.play (2 ^ k)).canWinNext = false := by
  have hposs := pnl_subset_possible hk
  obtain ⟨c, hc, h, hh6, hkeq, hd⟩ := possible_bit_decomp hL hposs
  subst hkeq
  have hmk : P.mask.testBit (c * 7 + h) = false :=
    stack_top_not_set hL hc hd (by omega)
  have hLc : Legal (P.play (2 ^ (c * 7 + h))) := legal_play_bit_legal hL hc hd hh6
  have hWn : ¬ (P.winning_position &&& P.possible ≠ 0) :=
    of_decide_eq_false (show decide (P.winning_position &&& P.possible ≠ 0) = false from hW)
  refine ⟨hLc, ⟨hA.2, ?_⟩, ?_⟩
  · -- the mover's stones after the move contain no alignment
    show alignment ((P.current_position ^^^ P.mask) ^^^
      (P.mask ||| 2 ^ (c * 7 + h))) = false
    rw [play_cur_or hL hmk]
    cases halign : alignment (P.current_position ||| 2 ^ (c * 7 + h))
    · rfl
    · exfalso
      obtain ⟨i, d, hdc, b0, b1, b2, b3⟩ := (alignment_iff _).1 halign
      have hd0 : 0 < d := by rcases hdc with rfl | rfl | rfl | rfl <;> norm_num
      have hcellbit : ∀ w,
          (P.current_position ||| 2 ^ (c * 7 + h)).testBit w = true →
          w ≠ c * 7 + h → P.current_position.testBit w = true := by
        intro w hw hne
        rw [Nat.testBit_or, Nat.testBit_two_pow, Bool.or_eq_true] at hw
        rcases hw with hw | hw
        · exact hw
        · exact absurd (of_decide_eq_true hw) (fun e => hne e.symm)
      by_cases hKw : c * 7 + h = i ∨ c * 7 + h = i + d ∨
          c * 7 + h = i + 2 * d ∨ c * 7 + h = i + 3 * d
      · -- the four-window passes through the played cell: P could win next
        obtain ⟨t, ht3, hteq⟩ : ∃ t ≤ 3, c * 7 + h = i + t * d := by
          rcases hKw with he | he | he | he
          · exact ⟨0, by omega, by omega⟩
          · exact ⟨1, by omega, by omega⟩
          · exact ⟨2, by omega, by omega⟩
          · exact ⟨3, by omega, by omega⟩
        have hcells : ∀ s, s ≤ 3 → s ≠ t →
            P.current_position.testBit (c * 7 + h + s * d - t * d) = true := by
          intro s hs3 hst
          have hwne : i + s * d ≠ c * 7 + h := by
            intro he
            apply hst
            apply Nat.eq_of_mul_eq_mul_right hd0
            omega
          have hbit : (P.current_position ||| 2 ^ (c * 7 + h)).testBit
              (i + s * d) = true := by
            interval_cases s
            · rw [show i + 0 * d = i by omega]
              exact b0
            · rw [show i + 1 * d = i + d by omega]
              exact b1
            · exact b2
            · exact b3
          have hidx : c * 7 + h + s * d - t * d = i + s * d := by omega
          rw [hidx]
          exact hcellbit _ hbit hwne
        rcases hdc with rfl | rfl | rfl | rfl
        · exact hWn (and_ne_zero_of_bits P.winning_position P.possible (c * 7 + h)
            (cwp_testBit_of P.current_position P.mask (c * 7 + h) 7 t (Or.inl rfl)
              ht3 (by omega) hcells (board_testBit hc hh6) hmk) hposs)
        · exact hWn (and_ne_zero_of_bits P.winning_position P.possible (c * 7 + h)
            (cwp_testBit_of P.current_position P.mask (c * 7 + h) 6 t
              (Or.inr (Or.inl rfl)) ht3 (by omega) hcells
              (board_testBit hc hh6) hmk) hposs)
        · exact hWn (and_ne_zero_of_bits P.winning_position P.possible (c * 7 + h)
            (cwp_testBit_of P.current_position P.mask (c * 7 + h) 8 t
              (Or.inr (Or.inr (Or.inl rfl))) ht3 (by omega) hcells
              (board_testBit hc hh6) hmk) hposs)
        · rcases Nat.lt_or_ge t 3 with ht2 | ht3'
          · -- a vertical window not topped by the played cell needs a stone
            -- right above the lowest free cell: impossible
            have hup := hcells (t + 1) (by omega) (by omega)
            rw [show c * 7 + h + (t + 1) * 1 - t * 1 = c * 7 + (h + 1) by omega,
              cur_above_not_set hL hc hd (by omega) (by omega)] at hup
            exact Bool.false_ne_true hup
          · have ht3e : t = 3 := by omega
            subst ht3e
            exact hWn (and_ne_zero_of_bits P.winning_position P.possible (c * 7 + h)
              (cwp_testBit_of P.current_position P.mask (c * 7 + h) 1 3
                (Or.inr (Or.inr (Or.inr ⟨rfl, rfl⟩))) (by omega) (by omega) hcells
                (board_testBit hc hh6) hmk) hposs)
      · -- the window avoids the played cell: it was already an alignment
        push_neg at hKw
        obtain ⟨hn0, hn1, hn2, hn3⟩ := hKw
        have c0 := hcellbit _ b0 (fun e => hn0 e.symm)
        have c1 := hcellbit _ b1 (fun e => hn1 e.symm)
        have c2 := hcellbit _ b2 (fun e => hn2 e.symm)
        have c3 := hcellbit _ b3 (fun e => hn3 e.symm)
        have hcur : alignment P.current_position = true :=
          (alignment_iff _).2 ⟨i, d, by tauto, c0, c1, c2, c3⟩
        rw [hA.1] at hcur
        exact Bool.false_ne_true hcur
  · -- the opponent cannot win immediately after the move either
    cases hb : (P.play (2 ^ (c * 7 + h))).canWinNext
    · rfl
    · exfalso
      have hne : (P.play (2 ^ (c * 7 + h))).winning_position &&&
          (P.play (2 ^ (c * 7 + h))).possible ≠ 0 :=
        of_decide_eq_true (show decide ((P.play (2 ^ (c * 7 + h))).winning_position &&&
          (P.play (2 ^ (c * 7 + h))).possible ≠ 0) = true from hb)
      obtain ⟨x, hx⟩ := exists_testBit_of_ne_zero hne
      rw [Nat.testBit_and, Bool.and_eq_true] at hx
      obtain ⟨hxw, hxp⟩ := hx
      obtain ⟨c', hc', j, hj6, hxeq, hd'⟩ := possible_bit_decomp hLc hxp
      subst hxeq
      have hxw' : (compute_winning_position (P.current_position ^^^ P.mask)
          (P.mask ||| 2 ^ (c * 7 + h))).testBit (c' * 7 + j) = true := hxw
      rcases eq_or_ne c' c with hcc | hnec
      · subst hcc
        -- same column: the winning cell sits right above the played cell
        have hd'' : colDigit (P.mask ||| 2 ^ (c' * 7 + h)) c' = 2 ^ j - 1 := hd'
        rw [play_mask_digit_same hd hh6] at hd''
        have hpow : (2 : Nat) ^ j = 2 ^ (h + 1) := by
          have h1 : (0 : Nat) < 2 ^ j := Nat.pos_pow_of_pos _ (by norm_num)
          have h2 : (0 : Nat) < 2 ^ (h + 1) := Nat.pos_pow_of_pos _ (by norm_num)
          omega
        have hj' : j = h + 1 := Nat.pow_right_injective (by norm_num) hpow
        have hmx : P.mask.testBit (c' * 7 + j) = false :=
          stack_above_not_set hL hc hd (by omega) (by omega)
        have hopp : P.opponent_winning_position.testBit (c' * 7 + j) = true := by
          show (compute_winning_position (P.current_position ^^^ P.mask)
            P.mask).testBit (c' * 7 + j) = true
          exact cwp_change_mask hxw' (board_xor_mask_bit hc' hj6 hmx)
        have havoid := pnl_avoid_above (show c' * 7 + h < 64 by omega) hk
        rw [show c' * 7 + j = c' * 7 + h + 1 by omega, havoid] at hopp
        exact Bool.false_ne_true hopp
      · -- other column: its playable cell would already be a forced move
        have hd'' : colDigit P.mask c' = 2 ^ j - 1 := by
          have hch : colDigit ((P.play (2 ^ (c * 7 + h))).mask) c' = 2 ^ j - 1 := hd'
          rwa [show (P.play (2 ^ (c * 7 + h))).mask = P.mask ||| 2 ^ (c * 7 + h)
            from rfl, play_mask_digit_other hnec (by omega)] at hch
        have hmx : P.mask.testBit (c' * 7 + j) = false :=
          stack_top_not_set hL hc' hd'' (by omega)
        have hopp : P.opponent_winning_position.testBit (c' * 7 + j) = true := by
          show (compute_winning_position (P.current_position ^^^ P.mask)
            P.mask).testBit (c' * 7 + j) = true
          exact cwp_change_mask hxw' (board_xor_mask_bit hc' hj6 hmx)
        have hposs' : P.possible.testBit (c' * 7 + j) = true :=
          possible_bit_intro hL hc' hj6 hd''
        have hforced : (P.possible &&& P.opponent_winning_position).testBit
            (c' * 7 + j) = true := by
          rw [Nat.testBit_and, hposs', hopp]
          rfl
        rcases pnl_cases hk with hzero | ⟨hfk, huniq⟩
        · rw [hzero] at hforced
          exact Bool.false_ne_true hforced
        · have hxeq := huniq _ hforced
          omega


/-- C7: for a legal position with no existing alignment that satisfies
negamax's precondition `!canWinNext()`, playing any single-bit move of
`possibleNonLosingMoves()` yields a child position that is again legal, has
no alignment, and satisfies `!canWinNext()`; hence the assertions at the top
of `negamax` hold in every recursive call reached from a top-level solve on
such a position. -/
theorem nonlosing_child_preserves_preconditions (P : Position) (hL : Legal P)
    (hA : noAlign P) (hW : P.canWinNext = false) (k : Nat)
    (hk : P.possibleNonLosingMoves.testBit k = true) :
    Legal (P.play (2 ^ k)) ∧ noAlign (P.play (2 ^ k)) ∧
      (P.play (2 ^ k)).canWinNext = false :=
  pnl_child_ok P hL hA hW k hk

theorem nonlosing_child_preserves_preconditions_witness :
    (Legal Position.empty ∧ noAlign Position.empty ∧
      Position.empty.canWinNext = false ∧
      Position.empty.possibleNonLosingMoves.testBit 0 = true) ∧
    (Legal (Position.empty.play (2 ^ 0)) ∧ noAlign (Position.empty.play (2 ^ 0)) ∧
      (Position.empty.play (2 ^ 0)).canWinNext = false) :=
  ⟨⟨by decide, by decide, by decide, by decide⟩,
    nonlosing_child_preserves_preconditions Position.empty (by decide) (by decide)
      (by decide) 0 (by decide)⟩

/-! ## C1: negamax and solve stay within the theoretical score range -/

/-- Characterization of truncated division by 2, in a form linear
arithmetic can consume. -/
theorem tdivSpec (x : Int) : 2 * x.tdiv 2 + x.tmod 2 = x ∧ -1 ≤ x.tmod 2 ∧
    x.tmod 2 ≤ 1 ∧ (0 ≤ x → 0 ≤ x.tmod 2) ∧ (x ≤ 0 → x.tmod 2 ≤ 0) := by
  refine ⟨Int.tdiv_add_tmod x 2, ?_, ?_, ?_, ?_⟩ <;>
  · cases x with
    | ofNat n =>
      rw [show Int.tmod (Int.ofNat n) 2 = ((n % 2 : Nat) : Int) from rfl]
      try rw [Int.ofNat_eq_natCast]
      omega
    | negSucc n =>
      rw [show Int.tmod (Int.negSucc n) 2 = -(((n + 1) % 2 : Nat) : Int) from rfl]
      try rw [Int.negSucc_eq]
      omega

theorem board_popcount : popcount board_mask = 42 := by decide

/-- A full position has at most `WIDTH*HEIGHT` moves played. -/
theorem moves_le_42 {P : Position} (hLF : LegalFull P) : P.moves ≤ 42 := by
  rw [← hLF.2]
  calc popcount P.mask ≤ popcount board_mask :=
      popcount_le_of_subset (legal_mask_subset_board hLF.1)
    _ = 42 := board_popcount

/-- The opponent's stones are a subset of all stones. -/
theorem opp_subset_mask {P : Position} (hL : Legal P) :
    (P.current_position ^^^ P.mask) &&& P.mask = P.current_position ^^^ P.mask := by
  apply and_eq_self_of_testBit_imp
  intro i hi
  rw [Nat.testBit_xor] at hi
  cases hm : P.mask.testBit i
  · cases hc : P.current_position.testBit i
    · rw [hm, hc] at hi
      exact absurd hi (by simp)
    · have := testBit_imp_of_and_eq hL.2.1 hc
      rw [hm] at this
      exact absurd this (by simp)
  · rfl

/-- Keys below `2^49` are uniquely determined by their slot index and
32-bit truncation (Chinese remainder theorem). -/
theorem key_crt {a b : Nat} (ha : a < 2 ^ 49) (hb : b < 2 ^ 49)
    (h1 : a % ttSize = b % ttSize) (h2 : a % 2 ^ 32 = b % 2 ^ 32) : a = b := by
  have hcop : Nat.Coprime ttSize (2 ^ 32) :=
    Nat.Coprime.pow_right _ ((Nat.coprime_primes ttSize_prime Nat.prime_two).2 (by decide))
  have hmain : ∀ x y : Nat, x ≤ y → y < 2 ^ 49 → x % ttSize = y % ttSize →
      x % 2 ^ 32 = y % 2 ^ 32 → x = y := by
    intro x y hxy hy hm1 hm2
    have hd1 : ttSize ∣ y - x := (Nat.modEq_iff_dvd' hxy).1 hm1
    have hd2 : 2 ^ 32 ∣ y - x := (Nat.modEq_iff_dvd' hxy).1 hm2
    have hd : ttSize * 2 ^ 32 ∣ y - x := Nat.Coprime.mul_dvd_of_dvd_of_dvd hcop hd1 hd2
    have hlt : y - x < ttSize * 2 ^ 32 := by
      calc y - x ≤ y := Nat.sub_le _ _
        _ < 2 ^ 49 := hy
        _ < ttSize * 2 ^ 32 := by norm_num [ttSize]
    have h0 := Nat.eq_zero_of_dvd_of_lt hd hlt
    omega
  rcases Nat.le_total a b with hle | hle
  · exact hmain a b hle hb h1 h2
  · exact (hmain b a hle ha h1.symm h2.symm).symm

/-- The key determines the bitboards of a legal position (the digit
argument behind C4, reusable form). -/
theorem legal_key_inj {P1 P2 : Position} (hL1 : Legal P1) (hL2 : Legal P2)
    (hkey : P1.key = P2.key) :
    P1.current_position = P2.current_position ∧ P1.mask = P2.mask := by
  have hdig : ∀ c, c < 7 →
      colDigit P1.current_position c = colDigit P2.current_position c ∧
      colDigit P1.mask c = colDigit P2.mask c := by
    intro c hc
    have e : colDigit P1.current_position c + colDigit P1.mask c =
        colDigit P2.current_position c + colDigit P2.mask c := by
      rw [← legal_key_digit hL1 c, ← legal_key_digit hL2 c, hkey]
    obtain ⟨h1, hh1, hd1⟩ := legal_mask_digit hL1 c hc
    obtain ⟨h2, hh2, hd2⟩ := legal_mask_digit hL2 c hc
    have hc1 := legal_cur_digit_lt hL1 hc hd1
    have hc2 := legal_cur_digit_lt hL2 hc hd2
    have hp1 : (0 : Nat) < 2 ^ h1 := Nat.pos_pow_of_pos h1 (by norm_num)
    have hp2 : (0 : Nat) < 2 ^ h2 := Nat.pos_pow_of_pos h2 (by norm_num)
    have e' : colDigit P1.current_position c + 2 ^ h1 =
        colDigit P2.current_position c + 2 ^ h2 := by
      rw [hd1, hd2] at e
      omega
    obtain ⟨hh, hcur⟩ := stack_digit_inj hc1 hc2 e'
    subst hh
    exact ⟨hcur, by rw [hd1, hd2]⟩
  have h128 : (2 : Nat) ^ 49 = 128 ^ 7 := by norm_num
  constructor
  · exact digits_ext 7 _ _ (h128 ▸ legal_cur_lt hL1) (h128 ▸ legal_cur_lt hL2)
      (fun c hc => (hdig c hc).1)
  · exact digits_ext 7 _ _ (h128 ▸ legal_mask_lt hL1) (h128 ▸ legal_mask_lt hL2)
      (fun c hc => (hdig c hc).2)

/-- A nonzero transposition-table read under `TTInv` yields a value valid
for the queried position's move count. -/
theorem ttGet_valid {T : TTable} (hT : TTInv T) {P : Position} (hLF : LegalFull P)
    (hne : ttGet T P.key ≠ 0) : ValidVal (ttGet T P.key) P.moves := by
  unfold ttGet at hne ⊢
  by_cases hmatch : (T (P.key % ttSize)).1 = P.key % 2 ^ PARTIAL_KEY_BITS
  · rw [if_pos hmatch] at hne ⊢
    rcases hT (P.key % ttSize) with h0 | ⟨Q, hQL, hslot, hpart, hval⟩
    · exact absurd h0 hne
    · have hk2 : Q.key % 2 ^ PARTIAL_KEY_BITS = P.key % 2 ^ PARTIAL_KEY_BITS := by
        rw [← hpart, hmatch]
      have hkeys : Q.key = P.key :=
        key_crt (legal_key_lt hQL.1) (legal_key_lt hLF.1) hslot hk2
      have hmask : Q.mask = P.mask := (legal_key_inj hQL.1 hLF.1 hkeys).2
      have hmv : Q.moves = P.moves := by
        rw [← hQL.2, ← hLF.2, hmask]
      rw [← hmv]
      exact hval
  · rw [if_neg hmatch] at hne
    exact absurd rfl hne

/-- Storing a zero-or-valid byte under a legal position's key preserves the
table invariant. -/
theorem ttInv_put {T : TTable} (hT : TTInv T) {P : Position} (hLF : LegalFull P)
    (v : Int)
    (hv : (v.emod 256).toNat = 0 ∨ ValidVal ((v.emod 256).toNat) P.moves) :
    TTInv (ttPut T P.key v) := by
  intro i
  by_cases hi : i = P.key % ttSize
  · rw [ttPut_apply_same T P.key v hi]
    rcases hv with h0 | hval
    · exact Or.inl h0
    · exact Or.inr ⟨P, hLF, hi.symm, rfl, hval⟩
  · rw [ttPut_apply_other T P.key v hi]
    exact hT i

/-- Every flagged winning spot needs three aligned stones: a nonzero
`compute_winning_position` forces at least three set bits in `pos`. -/
theorem popcount_ge_three_of_cwp {pos mask : Nat} (hpos : pos < 2 ^ 64)
    (hne : compute_winning_position pos mask ≠ 0) : 3 ≤ popcount pos := by
  obtain ⟨x, hx⟩ := exists_testBit_of_ne_zero hne
  rw [cwp_flat, Nat.testBit_and, Bool.and_eq_true] at hx
  obtain ⟨hraw, hemp⟩ := hx
  simp only [Nat.testBit_or, Bool.or_eq_true] at hraw
  have hbit : ∀ i, pos.testBit i = true → i < 64 := by
    intro i hi
    by_contra hge
    rw [Nat.testBit_lt_two_pow
      (lt_of_lt_of_le hpos (Nat.pow_le_pow_right (by norm_num) (by omega)))] at hi
    exact Bool.false_ne_true hi
  have hLs : ∀ n, (pos <<< n).testBit x = true → n ≤ x ∧ pos.testBit (x - n) = true := by
    intro n h
    rw [Nat.testBit_shiftLeft, Bool.and_eq_true] at h
    exact ⟨of_decide_eq_true h.1, h.2⟩
  have hRs : ∀ n, (pos >>> n).testBit x = true → pos.testBit (n + x) = true := by
    intro n h
    rwa [Nat.testBit_shiftRight] at h
  rcases hraw with ((((((((((((h | h) | h) | h) | h) | h) | h) | h) | h) | h) | h) | h) | h)
  · rw [Nat.testBit_and, Nat.testBit_and] at h
    rw [Bool.and_eq_true, Bool.and_eq_true] at h
    obtain ⟨⟨h1, h2⟩, h3⟩ := h
    obtain ⟨e1, p1⟩ := hLs 1 h1
    obtain ⟨e2, p2⟩ := hLs 2 h2
    obtain ⟨e3, p3⟩ := hLs 3 h3
    have hb := hbit _ p1
    exact popcount_ge_three (by omega) (by omega) (by omega) p3 p2 p1
  · rw [Nat.testBit_and, Nat.testBit_and] at h
    rw [Bool.and_eq_true, Bool.and_eq_true] at h
    obtain ⟨⟨h1, h2⟩, h3⟩ := h
    obtain ⟨e1, p1⟩ := hLs 7 h1
    obtain ⟨e2, p2⟩ := hLs 14 h2
    obtain ⟨e3, p3⟩ := hLs 21 h3
    have hb := hbit _ p1
    exact popcount_ge_three (by omega) (by omega) (by omega) p3 p2 p1
  · rw [Nat.testBit_and, Nat.testBit_and] at h
    rw [Bool.and_eq_true, Bool.and_eq_true] at h
    obtain ⟨⟨h1, h2⟩, h3⟩ := h
    obtain ⟨e1, p1⟩ := hLs 7 h1
    obtain ⟨e2, p2⟩ := hLs 14 h2
    have p3 := hRs 7 h3
    have hb := hbit _ p3
    exact popcount_ge_three (by omega) (by omega) (by omega) p2 p1 p3
  · rw [Nat.testBit_and, Nat.testBit_and] at h
    rw [Bool.and_eq_true, Bool.and_eq_true] at h
    obtain ⟨⟨h1, h2⟩, h3⟩ := h
    have p1 := hRs 7 h1
    have p2 := hRs 14 h2
    obtain ⟨e3, p3⟩ := hLs 7 h3
    have hb := hbit _ p2
    exact popcount_ge_three (by omega) (by omega) (by omega) p3 p1 p2
  · rw [Nat.testBit_and, Nat.testBit_and] at h
    rw [Bool.and_eq_true, Bool.and_eq_true] at h
    obtain ⟨⟨h1, h2⟩, h3⟩ := h
    have p1 := hRs 7 h1
    have p2 := hRs 14 h2
    have p3 := hRs 21 h3
    have hb := hbit _ p3
    exact popcount_ge_three (by omega) (by omega) (by omega) p1 p2 p3
  · rw [Nat.testBit_and, Nat.testBit_and] at h
    rw [Bool.and_eq_true, Bool.and_eq_true] at h
    obtain ⟨⟨h1, h2⟩, h3⟩ := h
    obtain ⟨e1, p1⟩ := hLs 6 h1
    obtain ⟨e2, p2⟩ := hLs 12 h2
    obtain ⟨e3, p3⟩ := hLs 18 h3
    have hb := hbit _ p1
    exact popcount_ge_three (by omega) (by omega) (by omega) p3 p2 p1
  · rw [Nat.testBit_and, Nat.testBit_and] at h
    rw [Bool.and_eq_true, Bool.and_eq_true] at h
    obtain ⟨⟨h1, h2⟩, h3⟩ := h
    obtain ⟨e1, p1⟩ := hLs 6 h1
    obtain ⟨e2, p2⟩ := hLs 12 h2
    have p3 := hRs 6 h3
    have hb := hbit _ p3
    exact popcount_ge_three (by omega) (by omega) (by omega) p2 p1 p3
  · rw [Nat.testBit_and, Nat.testBit_and] at h
    rw [Bool.and_eq_true, Bool.and_eq_true] at h
    obtain ⟨⟨h1, h2⟩, h3⟩ := h
    have p1 := hRs 6 h1
    have p2 := hRs 12 h2
    obtain ⟨e3, p3⟩ := hLs 6 h3
    have hb := hbit _ p2
    exact popcount_ge_three (by omega) (by omega) (by omega) p3 p1 p2
  · rw [Nat.testBit_and, Nat.testBit_and] at h
    rw [Bool.and_eq_true, Bool.and_eq_true] at h
    obtain ⟨⟨h1, h2⟩, h3⟩ := h
    have p1 := hRs 6 h1
    have p2 := hRs 12 h2
    have p3 := hRs 18 h3
    have hb := hbit _ p3
    exact popcount_ge_three (by omega) (by omega) (by omega) p1 p2 p3
  · rw [Nat.testBit_and, Nat.testBit_and] at h
    rw [Bool.and_eq_true, Bool.and_eq_true] at h
    obtain ⟨⟨h1, h2⟩, h3⟩ := h
    obtain ⟨e1, p1⟩ := hLs 8 h1
    obtain ⟨e2, p2⟩ := hLs 16 h2
    obtain ⟨e3, p3⟩ := hLs 24 h3
    have hb := hbit _ p1
    exact popcount_ge_three (by omega) (by omega) (by omega) p3 p2 p1
  · rw [Nat.testBit_and, Nat.testBit_and] at h
    rw [Bool.and_eq_true, Bool.and_eq_true] at h
    obtain ⟨⟨h1, h2⟩, h3⟩ := h
    obtain ⟨e1, p1⟩ := hLs 8 h1
    obtain ⟨e2, p2⟩ := hLs 16 h2
    have p3 := hRs 8 h3
    have hb := hbit _ p3
    exact popcount_ge_three (by omega) (by omega) (by omega) p2 p1 p3
  · rw [Nat.testBit_and, Nat.testBit_and] at h
    rw [Bool.and_eq_true, Bool.and_eq_true] at h
    obtain ⟨⟨h1, h2⟩, h3⟩ := h
    have p1 := hRs 8 h1
    have p2 := hRs 16 h2
    obtain ⟨e3, p3⟩ := hLs 8 h3
    have hb := hbit _ p2
    exact popcount_ge_three (by omega) (by omega) (by omega) p3 p1 p2
  · rw [Nat.testBit_and, Nat.testBit_and] at h
    rw [Bool.and_eq_true, Bool.and_eq_true] at h
    obtain ⟨⟨h1, h2⟩, h3⟩ := h
    have p1 := hRs 8 h1
    have p2 := hRs 16 h2
    have p3 := hRs 24 h3
    have hb := hbit _ p3
    exact popcount_ge_three (by omega) (by omega) (by omega) p1 p2 p3

theorem and_ones64 {x : Nat} (hx : x < 2 ^ 64) : x &&& compl64 0 = x := by
  apply Nat.eq_of_testBit_eq
  intro i
  rw [Nat.testBit_and]
  rcases Nat.lt_or_ge i 64 with hi | hi
  · rw [show compl64 0 = 2 ^ 64 - 1 from rfl, Nat.testBit_two_pow_sub_one]
    simp [hi]
  · rw [Nat.testBit_lt_two_pow (lt_of_lt_of_le hx (Nat.pow_le_pow_right (by norm_num) hi))]
    rfl

theorem possible_lt {P : Position} : P.possible < 2 ^ 49 := by
  apply lt_of_and_board
  apply Nat.eq_of_testBit_eq
  intro i
  show (((P.mask + bottom_mask) &&& board_mask) &&& board_mask).testBit i =
    ((P.mask + bottom_mask) &&& board_mask).testBit i
  simp [Nat.testBit_and, Bool.and_assoc]

/-- With at most two stones on the board there is always a non-losing move:
the opponent has at most two stones, hence no winning spot, and some column
is open. -/
theorem pnl_nonzero_small {P : Position} (hLF : LegalFull P) (hm : P.moves ≤ 2) :
    P.possibleNonLosingMoves ≠ 0 := by
  obtain ⟨hL, hpc⟩ := hLF
  have hoppwin : P.opponent_winning_position = 0 := by
    by_contra hne
    have h3 : 3 ≤ popcount (P.current_position ^^^ P.mask) := by
      apply popcount_ge_three_of_cwp ?hlt hne
      case hlt =>
        have h1 : P.current_position ^^^ P.mask ≤ P.mask := by
          calc P.current_position ^^^ P.mask
              = (P.current_position ^^^ P.mask) &&& P.mask := (opp_subset_mask hL).symm
            _ ≤ P.mask := Nat.and_le_right
        calc P.current_position ^^^ P.mask ≤ P.mask := h1
          _ < 2 ^ 49 := legal_mask_lt hL
          _ ≤ 2 ^ 64 := Nat.pow_le_pow_right (by norm_num) (by norm_num)
    have hle : popcount (P.current_position ^^^ P.mask) ≤ popcount P.mask :=
      popcount_le_of_subset (opp_subset_mask hL)
    omega
  -- some column is open: column 0 has height at most 2
  obtain ⟨h, hh, hd⟩ := legal_mask_digit hL 0 (by norm_num)
  have hh2 : h ≤ 2 := by
    by_contra hgt
    have hb : ∀ j, j < 3 → P.mask.testBit (0 * 7 + j) = true := by
      intro j hj
      rw [testBit_eq_colDigit]
      have hdiv : (0 * 7 + j) / 7 = 0 := by omega
      have hmod : (0 * 7 + j) % 7 = j := by omega
      rw [hdiv, hmod, hd, Nat.testBit_two_pow_sub_one]
      simp
      omega
    have h3 : 3 ≤ popcount P.mask :=
      popcount_ge_three (by omega) (by omega) (by omega)
        (hb 0 (by omega)) (hb 1 (by omega)) (hb 2 (by omega))
    omega
  have hposs : P.possible.testBit (0 * 7 + h) = true :=
    possible_bit_intro hL (by norm_num) (by omega) hd
  rw [pnl_eq, hoppwin]
  have hforced : P.possible &&& 0 = 0 := Nat.and_zero _
  rw [hforced, if_neg (by simp), show (0 : Nat) >>> 1 = 0 from rfl,
    and_ones64 (lt_of_lt_of_le possible_lt (Nat.pow_le_pow_right (by norm_num) (by norm_num)))]
  exact ne_zero_of_testBit _ _ hposs

theorem column_mask_testBit (c j : Nat) :
    (column_mask c).testBit j = true ↔ ∃ j2 < 6, j = c * 7 + j2 := by
  constructor
  · intro hj
    rw [show column_mask c = 63 <<< (c * 7) from rfl, Nat.testBit_shiftLeft,
      Bool.and_eq_true, show (63 : Nat) = 2 ^ 6 - 1 by norm_num,
      Nat.testBit_two_pow_sub_one] at hj
    have hle := of_decide_eq_true hj.1
    have hlt := of_decide_eq_true hj.2
    exact ⟨j - c * 7, hlt, by omega⟩
  · rintro ⟨j2, hj2, rfl⟩
    rw [show column_mask c = 63 <<< (c * 7) from rfl]
    apply shiftLeft_testBit_true _ _ _ (by omega)
    rw [show c * 7 + j2 - c * 7 = j2 by omega,
      show (63 : Nat) = 2 ^ 6 - 1 by norm_num, Nat.testBit_two_pow_sub_one]
    simp [hj2]

/-- The nonzero intersection of the non-losing moves with one column is a
single playable bit. -/
theorem pnl_and_col_eq_pow {P : Position} (hL : Legal P) {c : Nat}
    (hne : P.possibleNonLosingMoves &&& column_mask c ≠ 0) :
    ∃ k, P.possibleNonLosingMoves &&& column_mask c = 2 ^ k ∧
      P.possibleNonLosingMoves.testBit k = true := by
  obtain ⟨k, hk⟩ := exists_testBit_of_ne_zero hne
  rw [Nat.testBit_and, Bool.and_eq_true] at hk
  obtain ⟨hX, hcol⟩ := hk
  refine ⟨k, ?_, hX⟩
  obtain ⟨c1, hc1, h1, hh1, hkeq, hd1⟩ := possible_bit_decomp hL (pnl_subset_possible hX)
  obtain ⟨j2, hj2, hje⟩ := (column_mask_testBit c k).1 hcol
  have hcc : c1 = c := by omega
  apply Nat.eq_of_testBit_eq
  intro j
  rw [Nat.testBit_and, Nat.testBit_two_pow]
  rcases eq_or_ne j k with rfl | hne2
  · rw [hX, hcol]
    simp
  · have hdk : decide (k = j) = false := by
      simp
      exact fun e => hne2 e.symm
    rw [hdk]
    cases hXj : P.possibleNonLosingMoves.testBit j
    · rfl
    · cases hcolj : (column_mask c).testBit j
      · rfl
      · exfalso
        obtain ⟨j3, hj3, hje3⟩ := (column_mask_testBit c j).1 hcolj
        obtain ⟨c2, hc2, h2, hh2, hjeq, hd2⟩ :=
          possible_bit_decomp hL (pnl_subset_possible hXj)
        rw [show c2 = c1 by omega, hd1] at hd2
        have hpp : (2 : Nat) ^ h1 = 2 ^ h2 := by
          have q1 : (0 : Nat) < 2 ^ h1 := Nat.pos_pow_of_pos _ (by norm_num)
          have q2 : (0 : Nat) < 2 ^ h2 := Nat.pos_pow_of_pos _ (by norm_num)
          omega
        have := Nat.pow_right_injective (by norm_num) hpp
        omega

theorem mem_msAdd : ∀ (l : List (Nat × Int)) (mv : Nat) (sc : Int) (x : Nat × Int),
    x ∈ msAdd l mv sc ↔ x ∈ l ∨ x = (mv, sc) := by
  intro l
  induction l with
  | nil =>
    intro mv sc x
    show x ∈ [(mv, sc)] ↔ _
    simp
  | cons e rest ih =>
    intro mv sc x
    show x ∈ (if sc < e.2 then (mv, sc) :: e :: rest else e :: msAdd rest mv sc) ↔ _
    by_cases hlt : sc < e.2
    · rw [if_pos hlt]
      simp only [List.mem_cons]
      tauto
    · rw [if_neg hlt]
      simp only [List.mem_cons, ih]
      tauto

theorem msAdd_ne_nil (l : List (Nat × Int)) (mv : Nat) (sc : Int) :
    msAdd l mv sc ≠ [] := by
  cases l with
  | nil => simp [msAdd]
  | cons e rest =>
    show (if sc < e.2 then (mv, sc) :: e :: rest else e :: msAdd rest mv sc) ≠ []
    split <;> simp

theorem columnOrder_lt : ∀ i, i < 7 → columnOrder i < 7 := by
  intro i hi
  interval_cases i <;> decide

theorem columnOrder_mem : ∀ c, c < 7 → ∃ i, i < 7 ∧ columnOrder i = c := by
  intro c hc
  interval_cases c
  · exact ⟨5, by norm_num, by decide⟩
  · exact ⟨3, by norm_num, by decide⟩
  · exact ⟨1, by norm_num, by decide⟩
  · exact ⟨0, by norm_num, by decide⟩
  · exact ⟨2, by norm_num, by decide⟩
  · exact ⟨4, by norm_num, by decide⟩
  · exact ⟨6, by norm_num, by decide⟩

/-- Every entry the sorter hands to the search is a single playable
non-losing bit. -/
theorem buildMoves_mem {P : Position} (hL : Legal P) :
    ∀ e ∈ buildMoves P P.possibleNonLosingMoves,
      ∃ k, e.1 = 2 ^ k ∧ P.possibleNonLosingMoves.testBit k = true := by
  have hstep : ∀ (l : List Nat) (acc : List (Nat × Int)), (∀ i ∈ l, i < 7) →
      (∀ e ∈ acc, ∃ k, e.1 = 2 ^ k ∧ P.possibleNonLosingMoves.testBit k = true) →
      ∀ e ∈ l.foldl
        (fun entries i =>
          let move := P.possibleNonLosingMoves &&& column_mask (columnOrder i)
          if move ≠ 0 then msAdd entries move (P.moveScore move : Int) else entries)
        acc,
      ∃ k, e.1 = 2 ^ k ∧ P.possibleNonLosingMoves.testBit k = true := by
    intro l
    induction l with
    | nil =>
      intro acc _ hacc e he
      exact hacc e he
    | cons i rest ih =>
      intro acc hmem hacc e he
      rw [List.foldl_cons] at he
      refine ih _ (fun x hx => hmem x (by simp [hx])) ?_ e he
      intro x hx
      by_cases hmv : P.possibleNonLosingMoves &&& column_mask (columnOrder i) ≠ 0
      · rw [show (let move := P.possibleNonLosingMoves &&& column_mask (columnOrder i)
            if move ≠ 0 then msAdd acc move (P.moveScore move : Int) else acc) =
            msAdd acc (P.possibleNonLosingMoves &&& column_mask (columnOrder i))
              (P.moveScore (P.possibleNonLosingMoves &&& column_mask (columnOrder i)) : Int)
          from if_pos hmv] at hx
        rcases (mem_msAdd _ _ _ _).1 hx with hx' | hx'
        · exact hacc x hx'
        · obtain ⟨k, hk1, hk2⟩ := pnl_and_col_eq_pow hL hmv
          exact ⟨k, by rw [hx', hk1], hk2⟩
      · rw [show (let move := P.possibleNonLosingMoves &&& column_mask (columnOrder i)
            if move ≠ 0 then msAdd acc move (P.moveScore move : Int) else acc) = acc
          from if_neg hmv] at hx
        exact hacc x hx
  intro e he
  refine hstep (List.range WIDTH).reverse [] ?_ ?_ e he
  · intro i hi
    rw [List.mem_reverse, List.mem_range] at hi
    exact hi
  · intro x hx
    exact absurd hx (List.not_mem_nil x)

/-- With a non-losing move available, the sorter never comes back empty. -/
theorem buildMoves_ne_nil {P : Position} (hL : Legal P)
    (hne : P.possibleNonLosingMoves ≠ 0) :
    buildMoves P P.possibleNonLosingMoves ≠ [] := by
  obtain ⟨k, hk⟩ := exists_testBit_of_ne_zero hne
  obtain ⟨c, hc, h, hh, hkeq, hd⟩ := possible_bit_decomp hL (pnl_subset_possible hk)
  obtain ⟨i0, hi0, hci⟩ := columnOrder_mem c hc
  have hfold : ∀ (t : List Nat) (acc : List (Nat × Int)), acc ≠ [] →
      t.foldl
        (fun entries i =>
          let move := P.possibleNonLosingMoves &&& column_mask (columnOrder i)
          if move ≠ 0 then msAdd entries move (P.moveScore move : Int) else entries)
        acc ≠ [] := by
    intro t
    induction t with
    | nil => intro acc hacc; exact hacc
    | cons i rest ih =>
      intro acc hacc
      rw [List.foldl_cons]
      apply ih
      show (let move := P.possibleNonLosingMoves &&& column_mask (columnOrder i)
        if move ≠ 0 then msAdd acc move (P.moveScore move : Int) else acc) ≠ []
      by_cases hmv : P.possibleNonLosingMoves &&& column_mask (columnOrder i) ≠ 0
      · rw [if_pos hmv]
        exact msAdd_ne_nil _ _ _
      · rw [if_neg hmv]
        exact hacc
  have hmem : i0 ∈ (List.range WIDTH).reverse := by
    rw [List.mem_reverse, List.mem_range]
    exact hi0
  obtain ⟨s, t, hst⟩ := List.append_of_mem hmem
  show (List.range WIDTH).reverse.foldl _ [] ≠ []
  rw [hst, List.foldl_append, List.foldl_cons]
  apply hfold
  have hmv : P.possibleNonLosingMoves &&& column_mask (columnOrder i0) ≠ 0 := by
    rw [hci]
    apply and_ne_zero_of_bits _ _ k hk
    rw [(column_mask_testBit c k)]
    exact ⟨h, hh, hkeq⟩
  rw [show (let move := P.possibleNonLosingMoves &&& column_mask (columnOrder i0)
    if move ≠ 0 then msAdd (List.foldl _ [] s) move (P.moveScore move : Int)
    else (List.foldl _ [] s)) =
    msAdd (List.foldl _ [] s) (P.possibleNonLosingMoves &&& column_mask (columnOrder i0))
      (P.moveScore (P.possibleNonLosingMoves &&& column_mask (columnOrder i0)) : Int)
    from if_pos hmv]
  exact msAdd_ne_nil _ _ _

theorem minScore_eq : MIN_SCORE = -18 := by decide

theorem maxScore_eq : MAX_SCORE = 18 := by decide

theorem wh_eq : (WIDTH * HEIGHT : Nat) = 42 := rfl

/-- Validity of an end-of-loop upper-bound store. -/
theorem validVal_upper_store (m : Nat) (hm : m ≤ 39) (a : Int)
    (h1 : minB m ≤ a) (h2 : a ≤ maxB m - 1) (h3 : -19 ≤ a) :
    ((encodeUpper a).emod 256).toNat = 0 ∨
      ValidVal (((encodeUpper a).emod 256).toNat) m := by
  have hmB := tdivSpec (-((WIDTH * HEIGHT : Nat) - 2 - (m : Int)))
  have hxB := tdivSpec (((WIDTH * HEIGHT : Nat) - 1 - (m : Int)))
  have hwh := wh_eq
  simp only [minB, maxB] at h1 h2 ⊢
  have he : (encodeUpper a).emod 256 = a + 19 := by
    simp only [encodeUpper, minScore_eq]
    rw [show a - (-18) + 1 = a + 19 by ring,
      show (a + 19).emod 256 = (a + 19) % (256 : Int) from rfl,
      Int.emod_eq_of_lt (by omega) (by omega)]
  rw [he]
  simp only [ValidVal, minB, maxB, cutMax]
  rcases le_or_lt m 1 with hm1 | hm1
  · rw [if_pos hm1]
    omega
  · rw [if_neg (by omega)]
    omega

/-- Validity of a beta-cutoff lower-bound store. -/
theorem validVal_lower_store (m : Nat) (hm : m ≤ 39) (s : Int)
    (h1 : minB m + 1 ≤ s) (h2 : s ≤ cutMax m) :
    ((encodeLower s).emod 256).toNat = 0 ∨
      ValidVal (((encodeLower s).emod 256).toNat) m := by
  have hmB := tdivSpec (-((WIDTH * HEIGHT : Nat) - 2 - (m : Int)))
  have hxB := tdivSpec (((WIDTH * HEIGHT : Nat) - 1 - (m : Int)))
  have hwh := wh_eq
  simp only [minB, maxB, cutMax] at h1 h2 ⊢
  have hs19 : s ≤ 19 := by
    rcases le_or_lt m 1 with hm1 | hm1
    · rw [if_pos hm1] at h2
      omega
    · rw [if_neg (by omega)] at h2
      omega
  have he : (encodeLower s).emod 256 = s + 56 := by
    simp only [encodeLower, minScore_eq, maxScore_eq]
    rw [show s + 18 - 2 * (-18) + 2 = s + 56 by ring,
      show (s + 56).emod 256 = (s + 56) % (256 : Int) from rfl,
      Int.emod_eq_of_lt (by omega) (by omega)]
  rw [he]
  simp only [ValidVal, minB, maxB, cutMax]
  rcases le_or_lt m 1 with hm1 | hm1
  · rw [if_pos hm1] at h2 ⊢
    omega
  · rw [if_neg (by omega)] at h2 ⊢
    omega

theorem cutMax_le19 (m : Nat) : cutMax m ≤ 19 := by
  have hx := tdivSpec (((WIDTH * HEIGHT : Nat) - 1 - (m : Int)))
  have hwh := wh_eq
  simp only [cutMax, maxB]
  rcases le_or_lt m 1 with h | h
  · rw [if_pos h]
  · rw [if_neg (by omega)]
    omega

theorem minB_ge_neg20 (m : Nat) : -20 ≤ minB m := by
  have hx := tdivSpec (-((WIDTH * HEIGHT : Nat) - 2 - (m : Int)))
  have hwh := wh_eq
  simp only [minB]
  omega

theorem neg_retMin_succ_le_cutMax (m : Nat) (hm : m ≤ 39) :
    -retMin (m + 1) ≤ cutMax m := by
  have h1 := tdivSpec (-((WIDTH * HEIGHT : Nat) - 2 - ((m + 1 : Nat) : Int)))
  have h2 := tdivSpec (-((WIDTH * HEIGHT : Nat) - ((m + 1 : Nat) : Int)))
  have h3 := tdivSpec (((WIDTH * HEIGHT : Nat) - 1 - (m : Int)))
  have hwh := wh_eq
  simp only [retMin, cutMax, minB, scoreL, maxB]
  rcases le_or_lt (m + 1) 2 with ha | ha
  · rw [if_pos ha]
    rcases le_or_lt m 1 with hb | hb
    · rw [if_pos hb]
      omega
    · rw [if_neg (by omega)]
      omega
  · rw [if_neg (by omega)]
    rcases le_or_lt m 1 with hb | hb
    · rw [if_pos hb]
      omega
    · rw [if_neg (by omega)]
      omega

theorem maxB_sub_one_le_cutMax (m : Nat) (hm : m ≤ 39) :
    maxB m - 1 ≤ cutMax m := by
  have h3 := tdivSpec (((WIDTH * HEIGHT : Nat) - 1 - (m : Int)))
  have hwh := wh_eq
  simp only [cutMax, maxB]
  rcases le_or_lt m 1 with hb | hb
  · rw [if_pos hb]
    omega
  · rw [if_neg (by omega)]
    omega

theorem minB_succ_nonpos (m : Nat) (hm : m ≤ 39) : minB (m + 1) ≤ 0 := by
  have h1 := tdivSpec (-((WIDTH * HEIGHT : Nat) - 2 - ((m + 1 : Nat) : Int)))
  have hwh := wh_eq
  simp only [minB]
  omega

theorem retMin_nonpos (m : Nat) (hm : m ≤ 42) : retMin m ≤ 0 := by
  have h1 := tdivSpec (-((WIDTH * HEIGHT : Nat) - 2 - (m : Int)))
  have h2 := tdivSpec (-((WIDTH * HEIGHT : Nat) - (m : Int)))
  have hwh := wh_eq
  simp only [retMin, minB, scoreL]
  rcases le_or_lt m 2 with ha | ha
  · rw [if_pos ha]
    omega
  · rw [if_neg (by omega)]
    omega

theorem scoreL_nonpos (m : Nat) (hm : m ≤ 42) : scoreL m ≤ 0 := by
  have h2 := tdivSpec (-((WIDTH * HEIGHT : Nat) - (m : Int)))
  have hwh := wh_eq
  simp only [scoreL]
  omega

theorem retMin_le_minB (m : Nat) (hm : m ≤ 42) : retMin m ≤ minB m := by
  have h1 := tdivSpec (-((WIDTH * HEIGHT : Nat) - 2 - (m : Int)))
  have h2 := tdivSpec (-((WIDTH * HEIGHT : Nat) - (m : Int)))
  have hwh := wh_eq
  simp only [retMin, minB, scoreL]
  rcases le_or_lt m 2 with ha | ha
  · rw [if_pos ha]
  · rw [if_neg (by omega)]
    omega

theorem minB_lt_maxB (m : Nat) (hm : m ≤ 39) : minB m < maxB m := by
  have h1 := tdivSpec (-((WIDTH * HEIGHT : Nat) - 2 - (m : Int)))
  have h3 := tdivSpec (((WIDTH * HEIGHT : Nat) - 1 - (m : Int)))
  have hwh := wh_eq
  simp only [minB, maxB]
  omega

theorem maxB_nonneg (m : Nat) (hm : m ≤ 41) : 0 ≤ maxB m := by
  have h3 := tdivSpec (((WIDTH * HEIGHT : Nat) - 1 - (m : Int)))
  have hwh := wh_eq
  simp only [maxB]
  omega

theorem minB_le_scoreU (m : Nat) (hm : m ≤ 41) : minB m ≤ scoreU m := by
  have h1 := tdivSpec (-((WIDTH * HEIGHT : Nat) - 2 - (m : Int)))
  have h2 := tdivSpec (((WIDTH * HEIGHT : Nat) + 1 - (m : Int)))
  have hwh := wh_eq
  simp only [minB, scoreU]
  omega

theorem cutMax_le_scoreU (m : Nat) (hm : m ≤ 42) : cutMax m ≤ scoreU m := by
  have h2 := tdivSpec (((WIDTH * HEIGHT : Nat) + 1 - (m : Int)))
  have h3 := tdivSpec (((WIDTH * HEIGHT : Nat) - 1 - (m : Int)))
  have hwh := wh_eq
  simp only [cutMax, maxB, scoreU]
  rcases le_or_lt m 1 with hb | hb
  · rw [if_pos hb]
    omega
  · rw [if_neg (by omega)]
    omega

theorem scoreU_nonneg (m : Nat) (hm : m ≤ 42) : 0 ≤ scoreU m := by
  have h2 := tdivSpec (((WIDTH * HEIGHT : Nat) + 1 - (m : Int)))
  have hwh := wh_eq
  simp only [scoreU]
  omega

theorem scoreL_le_scoreU (m : Nat) (hm : m ≤ 42) : scoreL m ≤ scoreU m := by
  have h1 := tdivSpec (-((WIDTH * HEIGHT : Nat) - (m : Int)))
  have h2 := tdivSpec (((WIDTH * HEIGHT : Nat) + 1 - (m : Int)))
  have hwh := wh_eq
  simp only [scoreL, scoreU]
  omega

theorem m_le_41_of_window (m : Nat) (hm : m ≤ 42) (h : scoreL m < scoreU m) :
    m ≤ 41 := by
  have h1 := tdivSpec (-((WIDTH * HEIGHT : Nat) - (m : Int)))
  have h2 := tdivSpec (((WIDTH * HEIGHT : Nat) + 1 - (m : Int)))
  have hwh := wh_eq
  simp only [scoreL, scoreU] at h
  omega

/-- Range and table invariant of the negamax move loop: the result lies
between the entry alpha and the cutoff bound `cutMax`, and both kinds of
store keep the table invariant. -/
theorem moveLoop_range (fuel : Nat) (P : Position) (hLF : LegalFull P)
    (hA : noAlign P) (hW : P.canWinNext = false) (hm39 : P.moves ≤ 39)
    (IH : ∀ (Q : Position) (alpha beta : Int) (T : TTable), LegalFull Q → noAlign Q →
      Q.canWinNext = false → alpha < beta → TTInv T → Q.moves = P.moves + 1 →
      min beta (retMin Q.moves) ≤ (negamaxF (fun _ => 0) fuel Q alpha beta T).1 ∧
      (negamaxF (fun _ => 0) fuel Q alpha beta T).1 ≤
        max (max alpha (minB Q.moves)) (max (cutMax Q.moves) 0) ∧
      TTInv (negamaxF (fun _ => 0) fuel Q alpha beta T).2) :
    ∀ (L : List (Nat × Int)) (alpha beta : Int) (T : TTable),
      (∀ e ∈ L, ∃ k, e.1 = 2 ^ k ∧ P.possibleNonLosingMoves.testBit k = true) →
      minB P.moves ≤ alpha → alpha < beta → beta ≤ maxB P.moves →
      (-19 ≤ alpha ∨ L ≠ []) → TTInv T →
      alpha ≤ (moveLoop (negamaxF (fun _ => 0) fuel) P.key P beta L alpha T).1 ∧
      (moveLoop (negamaxF (fun _ => 0) fuel) P.key P beta L alpha T).1 ≤
        cutMax P.moves ∧
      TTInv (moveLoop (negamaxF (fun _ => 0) fuel) P.key P beta L alpha T).2 := by
  intro L
  induction L with
  | nil =>
    intro alpha beta T hentries ha1 hab hb1 h19 hT
    have h19' : -19 ≤ alpha := by
      rcases h19 with h | h
      · exact h
      · exact absurd rfl h
    have hcu := maxB_sub_one_le_cutMax P.moves hm39
    refine ⟨le_refl _, ?_, ?_⟩
    · show alpha ≤ cutMax P.moves
      omega
    · show TTInv (ttPut T P.key (encodeUpper alpha))
      exact ttInv_put hT hLF _
        (validVal_upper_store P.moves hm39 alpha ha1 (by omega) h19')
  | cons e rest ih =>
    intro alpha beta T hentries ha1 hab hb1 h19 hT
    obtain ⟨move, msc⟩ := e
    obtain ⟨k, hk0, hk2⟩ := hentries (move, msc) (by simp)
    have hk1 : move = 2 ^ k := hk0
    obtain ⟨c, hc, h, hh6, hkeq, hd⟩ :=
      possible_bit_decomp hLF.1 (pnl_subset_possible hk2)
    have hchild := pnl_child_ok P hLF.1 hA hW k hk2
    have hchildF : LegalFull (P.play move) := by
      rw [hk1, hkeq]
      exact legal_play_bit hLF hc hd hh6
    have hchildA : noAlign (P.play move) := by
      rw [hk1]
      exact hchild.2.1
    have hchildW : (P.play move).canWinNext = false := by
      rw [hk1]
      exact hchild.2.2
    obtain ⟨hlo, hhi, hTc⟩ := IH (P.play move) (-beta) (-alpha) T hchildF hchildA
      hchildW (by omega) hT rfl
    have hmv : (P.play move).moves = P.moves + 1 := rfl
    rw [hmv] at hlo hhi
    -- shared arithmetic facts
    have a1 := neg_retMin_succ_le_cutMax P.moves hm39
    have a2 := maxB_sub_one_le_cutMax P.moves hm39
    have a4 := minB_ge_neg20 P.moves
    have a6 := minB_succ_nonpos P.moves hm39
    have a7 := cutMax_le19 (P.moves + 1)
    have hkey : ∀ (B : Int × TTable),
        B = (if beta ≤ -(negamaxF (fun _ => 0) fuel (P.play move) (-beta) (-alpha) T).1
          then (-(negamaxF (fun _ => 0) fuel (P.play move) (-beta) (-alpha) T).1,
            ttPut (negamaxF (fun _ => 0) fuel (P.play move) (-beta) (-alpha) T).2 P.key
              (encodeLower
                (-(negamaxF (fun _ => 0) fuel (P.play move) (-beta) (-alpha) T).1)))
          else moveLoop (negamaxF (fun _ => 0) fuel) P.key P beta rest
            (if alpha < -(negamaxF (fun _ => 0) fuel (P.play move) (-beta) (-alpha) T).1
              then -(negamaxF (fun _ => 0) fuel (P.play move) (-beta) (-alpha) T).1
              else alpha)
            (negamaxF (fun _ => 0) fuel (P.play move) (-beta) (-alpha) T).2) →
        alpha ≤ B.1 ∧ B.1 ≤ cutMax P.moves ∧ TTInv B.2 := by
      rintro B rfl
      set res := negamaxF (fun _ => 0) fuel (P.play move) (-beta) (-alpha) T with hres
      by_cases hcut : beta ≤ -res.1
      · rw [if_pos hcut]
        have hup : -res.1 ≤ cutMax P.moves := by
          omega
        refine ⟨by omega, hup, ?_⟩
        exact ttInv_put hTc hLF _
          (validVal_lower_store P.moves hm39 (-res.1) (by omega) hup)
      · rw [if_neg hcut]
        have hs19 : -19 ≤ -res.1 := by
          omega
        have hrec := ih (if alpha < -res.1 then -res.1 else alpha) beta res.2
          (fun x hx => hentries x (by simp [hx])) ?ha1 ?hab ?hb1 ?h19 hTc
        case ha1 =>
          split <;> omega
        case hab =>
          split <;> omega
        case hb1 => exact hb1
        case h19 =>
          left
          split <;> omega
        refine ⟨?_, hrec.2.1, hrec.2.2⟩
        have := hrec.1
        split at this <;> omega
    exact hkey _ rfl

theorem negamax_step (fuel : Nat) (P : Position) (alpha beta : Int) (T : TTable) :
    negamaxF (fun _ => 0) (fuel + 1) P alpha beta T =
      negamaxBody (fun _ => 0) (negamaxF (fun _ => 0) fuel) P alpha beta T := rfl

theorem negamaxBody_eq (rec : Position → Int → Int → TTable → Int × TTable)
    (P : Position) (alpha beta : Int) (T : TTable) :
    negamaxBody (fun _ => 0) rec P alpha beta T =
      (if P.possibleNonLosingMoves = 0 then (scoreL P.moves, T)
       else if WIDTH * HEIGHT - 2 ≤ P.nbMoves then ((0 : Int), T)
       else if alpha < minB P.moves ∧ beta ≤ minB P.moves then (minB P.moves, T)
       else
         if maxB P.moves < beta ∧
             maxB P.moves ≤ (if alpha < minB P.moves then minB P.moves else alpha)
         then (maxB P.moves, T)
         else negamaxTT (fun _ => 0) rec P
           (if alpha < minB P.moves then minB P.moves else alpha)
           (if maxB P.moves < beta then maxB P.moves else beta) T) := rfl

theorem negamaxTT_eq (rec : Position → Int → Int → TTable → Int × TTable)
    (P : Position) (A1 B1 : Int) (T : TTable) :
    negamaxTT (fun _ => 0) rec P A1 B1 T =
      (if ((ttGet T P.key : Nat) : Int) ≠ 0 then
         if MAX_SCORE - MIN_SCORE + 1 < ((ttGet T P.key : Nat) : Int) then
           if A1 < decodeLower ((ttGet T P.key : Nat) : Int) ∧
               B1 ≤ decodeLower ((ttGet T P.key : Nat) : Int)
           then (decodeLower ((ttGet T P.key : Nat) : Int), T)
           else negamaxAfter (fun _ => 0) rec P T
             (if A1 < decodeLower ((ttGet T P.key : Nat) : Int)
               then decodeLower ((ttGet T P.key : Nat) : Int) else A1) B1
         else
           if decodeUpper ((ttGet T P.key : Nat) : Int) < B1 ∧
               decodeUpper ((ttGet T P.key : Nat) : Int) ≤ A1
           then (decodeUpper ((ttGet T P.key : Nat) : Int), T)
           else negamaxAfter (fun _ => 0) rec P T A1
             (if decodeUpper ((ttGet T P.key : Nat) : Int) < B1
               then decodeUpper ((ttGet T P.key : Nat) : Int) else B1)
       else negamaxAfter (fun _ => 0) rec P T A1 B1) := rfl

theorem negamaxAfter_eq (rec : Position → Int → Int → TTable → Int × TTable)
    (P : Position) (T : TTable) (aQ bQ : Int) :
    negamaxAfter (fun _ => 0) rec P T aQ bQ =
      moveLoop rec P.key P bQ
        ((buildMoves P P.possibleNonLosingMoves).reverse) aQ T := by
  have e1 : negamaxAfter (fun _ => 0) rec P T aQ bQ =
      (if (fun _ : Position => (0 : Int)) P ≠ 0 then
        (decodeUpper ((fun _ : Position => (0 : Int)) P), T)
      else moveLoop rec P.key P bQ
        ((buildMoves P P.possibleNonLosingMoves).reverse) aQ T) := rfl
  rw [e1, if_neg (show ¬ ((fun _ : Position => (0 : Int)) P ≠ 0) by simp)]


/-- Master range theorem for `negamax`: under its preconditions the result
is bounded below by `min beta (retMin m)` and above by
`max (max alpha (minB m)) (max (cutMax m) 0)`, and the transposition-table
invariant is preserved. -/
theorem negamax_range : ∀ (fuel : Nat) (P : Position) (alpha beta : Int) (T : TTable),
    LegalFull P → noAlign P → P.canWinNext = false → alpha < beta → TTInv T →
    min beta (retMin P.moves) ≤ (negamaxF (fun _ => 0) fuel P alpha beta T).1 ∧
    (negamaxF (fun _ => 0) fuel P alpha beta T).1 ≤
      max (max alpha (minB P.moves)) (max (cutMax P.moves) 0) ∧
    TTInv (negamaxF (fun _ => 0) fuel P alpha beta T).2 := by
  intro fuel
  induction fuel with
  | zero =>
    intro P alpha beta T hLF hA hW hab hT
    have a8 := retMin_nonpos P.moves (moves_le_42 hLF)
    refine ⟨?_, ?_, hT⟩
    · show min beta (retMin P.moves) ≤ (0 : Int)
      omega
    · show (0 : Int) ≤ max (max alpha (minB P.moves)) (max (cutMax P.moves) 0)
      omega
  | succ fuel ihf =>
    intro P alpha beta T hLF hA hW hab hT
    have hm42 := moves_le_42 hLF
    have a8 := retMin_nonpos P.moves hm42
    have a10 := retMin_le_minB P.moves hm42
    rw [negamax_step fuel P alpha beta T,
      negamaxBody_eq (negamaxF (fun _ => 0) fuel) P alpha beta T]
    by_cases h1 : P.possibleNonLosingMoves = 0
    · rw [if_pos h1]
      have hm3 : ¬ (P.moves ≤ 2) := fun hle => (pnl_nonzero_small hLF hle) h1
      have a9 := scoreL_nonpos P.moves hm42
      refine ⟨?_, by omega, hT⟩
      show min beta (retMin P.moves) ≤ scoreL P.moves
      simp only [retMin]
      rw [if_neg hm3]
      omega
    · rw [if_neg h1]
      by_cases h2 : WIDTH * HEIGHT - 2 ≤ P.nbMoves
      · rw [if_pos h2]
        exact ⟨by omega, by omega, hT⟩
      · rw [if_neg h2]
        have hm39 : P.moves ≤ 39 := by
          have hwh2 : WIDTH * HEIGHT - 2 = 40 := rfl
          have hnb : P.nbMoves = P.moves := rfl
          rw [hwh2, hnb] at h2
          omega
        have a11 := minB_lt_maxB P.moves hm39
        have a12 := maxB_nonneg P.moves (by omega)
        have a2 := maxB_sub_one_le_cutMax P.moves hm39
        have a7 := cutMax_le19 P.moves
        by_cases h3 : alpha < minB P.moves ∧ beta ≤ minB P.moves
        · rw [if_pos h3]
          exact ⟨by omega, by omega, hT⟩
        · rw [if_neg h3]
          set A1 := if alpha < minB P.moves then minB P.moves else alpha with hA1
          have hA1a : minB P.moves ≤ A1 := by
            rw [hA1]
            split <;> omega
          have hA1b : A1 ≤ max alpha (minB P.moves) := by
            rw [hA1]
            split <;> omega
          have hA1c : A1 < beta := by
            rw [hA1]
            split <;> omega
          by_cases h4 : maxB P.moves < beta ∧ maxB P.moves ≤ A1
          · rw [if_pos h4]
            exact ⟨by omega, by omega, hT⟩
          · rw [if_neg h4]
            set B1 := if maxB P.moves < beta then maxB P.moves else beta with hB1
            have hB1a : B1 ≤ maxB P.moves := by
              rw [hB1]
              split <;> omega
            have hB1b : A1 < B1 := by
              rw [hB1]
              split <;> omega
            rw [negamaxTT_eq (negamaxF (fun _ => 0) fuel) P A1 B1 T]
            have hml := moveLoop_range fuel P hLF hA hW hm39
              (fun Q a b T' q1 q2 q3 q4 q5 _ => ihf Q a b T' q1 q2 q3 q4 q5)
            have hentriesR : ∀ x ∈ (buildMoves P P.possibleNonLosingMoves).reverse,
                ∃ k, x.1 = 2 ^ k ∧ P.possibleNonLosingMoves.testBit k = true := by
              intro x hx
              exact buildMoves_mem hLF.1 x (List.mem_reverse.1 hx)
            have hnonnil : (buildMoves P P.possibleNonLosingMoves).reverse ≠ [] := by
              intro hnil
              exact buildMoves_ne_nil hLF.1 h1 (List.reverse_eq_nil_iff.1 hnil)
            by_cases h5 : ((ttGet T P.key : Nat) : Int) ≠ 0
            · rw [if_pos h5]
              have hvv : ValidVal (ttGet T P.key) P.moves := by
                apply ttGet_valid hT hLF
                intro h0
                apply h5
                rw [h0]
                rfl
              obtain ⟨hv1, hv2, hvU, hvL⟩ := hvv
              by_cases h6 : MAX_SCORE - MIN_SCORE + 1 < ((ttGet T P.key : Nat) : Int)
              · rw [if_pos h6]
                have h38 : 38 ≤ ttGet T P.key := by
                  rw [maxScore_eq, minScore_eq] at h6
                  omega
                obtain ⟨hL1, hL2⟩ := hvL h38
                have hdec : decodeLower ((ttGet T P.key : Nat) : Int) =
                    ((ttGet T P.key : Nat) : Int) - 56 := by
                  simp only [decodeLower, minScore_eq, maxScore_eq]
                  ring
                by_cases h7 : A1 < decodeLower ((ttGet T P.key : Nat) : Int) ∧
                    B1 ≤ decodeLower ((ttGet T P.key : Nat) : Int)
                · rw [if_pos h7]
                  exact ⟨by omega, by omega, hT⟩
                · rw [if_neg h7, negamaxAfter_eq]
                  set A2 := if A1 < decodeLower ((ttGet T P.key : Nat) : Int)
                    then decodeLower ((ttGet T P.key : Nat) : Int) else A1 with hA2
                  have hA2a : minB P.moves ≤ A2 := by
                    rw [hA2]
                    split <;> omega
                  have hA2b : A2 < B1 := by
                    rw [hA2]
                    split <;> omega
                  obtain ⟨hr1, hr2, hr3⟩ := hml _ A2 B1 T hentriesR hA2a hA2b hB1a
                    (Or.inr hnonnil) hT
                  exact ⟨le_trans (by omega) hr1, le_trans hr2 (by omega), hr3⟩
              · rw [if_neg h6]
                have h37 : ttGet T P.key ≤ 37 := by
                  rw [maxScore_eq, minScore_eq] at h6
                  omega
                obtain ⟨hU1, hU2⟩ := hvU h37
                have hdec : decodeUpper ((ttGet T P.key : Nat) : Int) =
                    ((ttGet T P.key : Nat) : Int) - 19 := by
                  simp only [decodeUpper, minScore_eq]
                  ring
                by_cases h7 : decodeUpper ((ttGet T P.key : Nat) : Int) < B1 ∧
                    decodeUpper ((ttGet T P.key : Nat) : Int) ≤ A1
                · rw [if_pos h7]
                  exact ⟨by omega, by omega, hT⟩
                · rw [if_neg h7, negamaxAfter_eq]
                  set B2 := if decodeUpper ((ttGet T P.key : Nat) : Int) < B1
                    then decodeUpper ((ttGet T P.key : Nat) : Int) else B1 with hB2
                  have hB2a : B2 ≤ maxB P.moves := by
                    rw [hB2]
                    split <;> omega
                  have hB2b : A1 < B2 := by
                    rw [hB2]
                    split <;> omega
                  obtain ⟨hr1, hr2, hr3⟩ := hml _ A1 B2 T hentriesR hA1a hB2b hB2a
                    (Or.inr hnonnil) hT
                  exact ⟨le_trans (by omega) hr1, le_trans hr2 (by omega), hr3⟩
            · rw [if_neg h5, negamaxAfter_eq]
              obtain ⟨hr1, hr2, hr3⟩ := hml _ A1 B1 T hentriesR hA1a hB1b hB1a
                (Or.inr hnonnil) hT
              exact ⟨le_trans (by omega) hr1, le_trans hr2 (by omega), hr3⟩

/-- The iterative narrowing loop keeps its running lower bound inside the
theoretical score range of the root position. -/
theorem solveLoop_range : ∀ (fuel : Nat) (P : Position) (mn mx : Int) (T : TTable),
    LegalFull P → noAlign P → P.canWinNext = false → TTInv T →
    scoreL P.moves ≤ mn → mn ≤ scoreU P.moves → mx ≤ scoreU P.moves →
    scoreL P.moves ≤ solveLoop (fun _ => 0) P fuel mn mx T ∧
    solveLoop (fun _ => 0) P fuel mn mx T ≤ scoreU P.moves := by
  intro fuel
  induction fuel with
  | zero =>
    intro P mn mx T _ _ _ _ h1 h2 _
    exact ⟨h1, h2⟩
  | succ fuel ih =>
    intro P mn mx T hLF hA hW hT h1 h2 h3
    have e : solveLoop (fun _ => 0) P (fuel + 1) mn mx T =
      (if mn < mx then
        (if (negamaxF (fun _ => 0) 64 P
              (if mn + (mx - mn).tdiv 2 ≤ 0 ∧ mn.tdiv 2 < mn + (mx - mn).tdiv 2
                then mn.tdiv 2
                else if 0 ≤ mn + (mx - mn).tdiv 2 ∧ mn + (mx - mn).tdiv 2 < mx.tdiv 2
                then mx.tdiv 2
                else mn + (mx - mn).tdiv 2)
              ((if mn + (mx - mn).tdiv 2 ≤ 0 ∧ mn.tdiv 2 < mn + (mx - mn).tdiv 2
                then mn.tdiv 2
                else if 0 ≤ mn + (mx - mn).tdiv 2 ∧ mn + (mx - mn).tdiv 2 < mx.tdiv 2
                then mx.tdiv 2
                else mn + (mx - mn).tdiv 2) + 1) T).1 ≤
            (if mn + (mx - mn).tdiv 2 ≤ 0 ∧ mn.tdiv 2 < mn + (mx - mn).tdiv 2
              then mn.tdiv 2
              else if 0 ≤ mn + (mx - mn).tdiv 2 ∧ mn + (mx - mn).tdiv 2 < mx.tdiv 2
              then mx.tdiv 2
              else mn + (mx - mn).tdiv 2)
          then solveLoop (fun _ => 0) P fuel mn
            (negamaxF (fun _ => 0) 64 P
              (if mn + (mx - mn).tdiv 2 ≤ 0 ∧ mn.tdiv 2 < mn + (mx - mn).tdiv 2
                then mn.tdiv 2
                else if 0 ≤ mn + (mx - mn).tdiv 2 ∧ mn + (mx - mn).tdiv 2 < mx.tdiv 2
                then mx.tdiv 2
                else mn + (mx - mn).tdiv 2)
              ((if mn + (mx - mn).tdiv 2 ≤ 0 ∧ mn.tdiv 2 < mn + (mx - mn).tdiv 2
                then mn.tdiv 2
                else if 0 ≤ mn + (mx - mn).tdiv 2 ∧ mn + (mx - mn).tdiv 2 < mx.tdiv 2
                then mx.tdiv 2
                else mn + (mx - mn).tdiv 2) + 1) T).1
            (negamaxF (fun _ => 0) 64 P
              (if mn + (mx - mn).tdiv 2 ≤ 0 ∧ mn.tdiv 2 < mn + (mx - mn).tdiv 2
                then mn.tdiv 2
                else if 0 ≤ mn + (mx - mn).tdiv 2 ∧ mn + (mx - mn).tdiv 2 < mx.tdiv 2
                then mx.tdiv 2
                else mn + (mx - mn).tdiv 2)
              ((if mn + (mx - mn).tdiv 2 ≤ 0 ∧ mn.tdiv 2 < mn + (mx - mn).tdiv 2
                then mn.tdiv 2
                else if 0 ≤ mn + (mx - mn).tdiv 2 ∧ mn + (mx - mn).tdiv 2 < mx.tdiv 2
                then mx.tdiv 2
                else mn + (mx - mn).tdiv 2) + 1) T).2
          else solveLoop (fun _ => 0) P fuel
            (negamaxF (fun _ => 0) 64 P
              (if mn + (mx - mn).tdiv 2 ≤ 0 ∧ mn.tdiv 2 < mn + (mx - mn).tdiv 2
                then mn.tdiv 2
                else if 0 ≤ mn + (mx - mn).tdiv 2 ∧ mn + (mx - mn).tdiv 2 < mx.tdiv 2
                then mx.tdiv 2
                else mn + (mx - mn).tdiv 2)
              ((if mn + (mx - mn).tdiv 2 ≤ 0 ∧ mn.tdiv 2 < mn + (mx - mn).tdiv 2
                then mn.tdiv 2
                else if 0 ≤ mn + (mx - mn).tdiv 2 ∧ mn + (mx - mn).tdiv 2 < mx.tdiv 2
                then mx.tdiv 2
                else mn + (mx - mn).tdiv 2) + 1) T).1 mx
            (negamaxF (fun _ => 0) 64 P
              (if mn + (mx - mn).tdiv 2 ≤ 0 ∧ mn.tdiv 2 < mn + (mx - mn).tdiv 2
                then mn.tdiv 2
                else if 0 ≤ mn + (mx - mn).tdiv 2 ∧ mn + (mx - mn).tdiv 2 < mx.tdiv 2
                then mx.tdiv 2
                else mn + (mx - mn).tdiv 2)
              ((if mn + (mx - mn).tdiv 2 ≤ 0 ∧ mn.tdiv 2 < mn + (mx - mn).tdiv 2
                then mn.tdiv 2
                else if 0 ≤ mn + (mx - mn).tdiv 2 ∧ mn + (mx - mn).tdiv 2 < mx.tdiv 2
                then mx.tdiv 2
                else mn + (mx - mn).tdiv 2) + 1) T).2)
       else mn) := rfl
    rw [e]
    by_cases hlt : mn < mx
    · rw [if_pos hlt]
      set M := if mn + (mx - mn).tdiv 2 ≤ 0 ∧ mn.tdiv 2 < mn + (mx - mn).tdiv 2
        then mn.tdiv 2
        else if 0 ≤ mn + (mx - mn).tdiv 2 ∧ mn + (mx - mn).tdiv 2 < mx.tdiv 2
        then mx.tdiv 2
        else mn + (mx - mn).tdiv 2 with hM
      have hd1 := tdivSpec (mx - mn)
      have hd2 := tdivSpec mn
      have hd3 := tdivSpec mx
      have hM1 : mn ≤ M := by
        rw [hM]
        split
        · omega
        · split <;> omega
      have hM2 : M < mx := by
        rw [hM]
        split
        · omega
        · split <;> omega
      have hm42 := moves_le_42 hLF
      have hm41 : P.moves ≤ 41 :=
        m_le_41_of_window P.moves hm42 (by omega)
      have a13 := minB_le_scoreU P.moves hm41
      have a14 := cutMax_le_scoreU P.moves hm42
      have a15 := scoreU_nonneg P.moves hm42
      set R := negamaxF (fun _ => 0) 64 P M (M + 1) T with hR
      obtain ⟨hr1, hr2, hr3⟩ := negamax_range 64 P M (M + 1) T hLF hA hW (by omega) hT
      rw [← hR] at hr1 hr2 hr3
      have hrU : R.1 ≤ scoreU P.moves := le_trans hr2 (by omega)
      by_cases hcase : R.1 ≤ M
      · rw [if_pos hcase]
        exact ih P mn R.1 R.2 hLF hA hW hr3 h1 h2 hrU
      · rw [if_neg hcase]
        exact ih P R.1 mx R.2 hLF hA hW hr3
          (le_trans h1 (le_trans hM1 (le_of_lt (lt_of_not_le hcase)))) hrU h3
    · rw [if_neg hlt]
      exact ⟨h1, h2⟩

/-- C1: for every legal position with no alignment and no immediate win
available to either side, `solve(P, false)` returns a value `v` with
`-(W*H - moves)/2 ≤ v ≤ (W*H + 1 - moves)/2` (C truncated division). -/
theorem solve_value_in_range (P : Position)
    (hLF : LegalFull P) (hA : noAlign P)
    (hW : P.canWinNext = false) (hO : P.oppCanWinNext = false) :
    scoreL P.moves ≤ Solver.solve (fun _ => 0) P false ∧
    Solver.solve (fun _ => 0) P false ≤ scoreU P.moves := by
  have e : Solver.solve (fun _ => 0) P false =
      (if P.canWinNext then ((WIDTH * HEIGHT : Nat) + 1 - (P.nbMoves : Int)).tdiv 2
       else solveLoop (fun _ => 0) P 64
        ((-((WIDTH * HEIGHT : Nat) - (P.nbMoves : Int))).tdiv 2)
        (((WIDTH * HEIGHT : Nat) + 1 - (P.nbMoves : Int)).tdiv 2) ttReset) := rfl
  rw [e, if_neg (show ¬ P.canWinNext = true by rw [hW]; exact Bool.false_ne_true)]
  exact solveLoop_range 64 P (scoreL P.moves) (scoreU P.moves) ttReset hLF hA hW
    (fun _ => Or.inl rfl) (le_refl _) (scoreL_le_scoreU P.moves (moves_le_42 hLF))
    (le_refl _)

theorem solve_value_in_range_witness :
    (LegalFull Position.empty ∧ noAlign Position.empty ∧
      Position.empty.canWinNext = false ∧ Position.empty.oppCanWinNext = false) ∧
    scoreL Position.empty.moves ≤ Solver.solve (fun _ => 0) Position.empty false ∧
    Solver.solve (fun _ => 0) Position.empty false ≤ scoreU Position.empty.moves :=
  ⟨⟨by decide, by decide, by decide, by decide⟩,
    solve_value_in_range Position.empty (by decide) (by decide) (by decide) (by decide)⟩
